import Mathlib

/-!
# Verification of the MPI and OpenMP examples

Shallow embeddings of the programs, one namespace each:

* `MasterSlave`: `src/mpi/a09_eg01_master_slave.c`
* `MatrixSum`: `src/mpi/a09_e02_matrix_sum.c`
* `MatrixMul`: `src/mpi/a10_e03_matrix_multiplication.c` (`task_master`)
* `ArrayMax`: `src/mpi/a08_e01_array_max.c`
* `FindElement`: `src/mpi/a10_e01_find_element.c`
* `PiOmp`: `src/openmp/pi_omp_v1_false_sharing.c`,
  `pi_omp_v2_synchronization.c` and `pi_omp_v3_reduction.c`

The definitions of all of them come first, the proofs after them.  The notes
below are about the master/slave example; each of the other namespaces starts
with its own.

* Every process is a small-step machine whose program counter names the
  statement of the C source that runs next.  One step is one loop test or one
  MPI call.
* `MPI_Send` is modelled as a buffered send over a reliable FIFO channel per
  ordered pair of processes (MPI's non-overtaking rule); `MPI_Recv` blocks
  until a message is pending.
* C `int` values are unbounded integers: `work` starts at `NUM_WORK_REQS - 1`
  and is decremented at most `max (world_size - 1) NUM_WORK_REQS` times, and
  `rank` never exceeds `world_size`, so no operation comes near the 32 bit
  limits.
* A call through `tab_func` outside the five entries `main` fills in, or with
  `work` never written, is undefined behaviour in C; the model stops that slave
  in a `fault` state.
* `NUM_WORK_REQS` is a parameter `W` of the master wherever a statement is
  about every value of it; the dispatch table always has the five entries of
  the source.
* `printf` output is not modelled.
-/

namespace MasterSlave

/-! ## Constants and messages -/

/-- Source: `#define WORKTAG 1`. -/
def WORKTAG : Int := 1

/-- Source: `#define DIETAG 2`. -/
def DIETAG : Int := 2

/-- Source: `#define NUM_WORK_REQS 5`. -/
def NUM_WORK_REQS : Nat := 5

/-- One message of `MPI_INT`s on the wire.  `payload = none` is the message of
count 0 that `MPI_Send(0, 0, MPI_INT, ...)` produces; `some v` is a message of
count 1. -/
structure Msg where
  tag : Int
  payload : Option Int
deriving DecidableEq, Repr

/-- One completed call of a process, as recorded in its history. -/
inductive Event where
  | send (dest : Nat) (tag : Int) (payload : Option Int)
  | recv (source : Nat) (tag : Int) (payload : Option Int)
  | call (idx : Int)
deriving DecidableEq, Repr

/-- Effect of `MPI_Recv(&x, 1, MPI_INT, ...)` on the receive buffer `x`: a
message of count 1 overwrites it, a message of count 0 leaves it as it was. -/
def recvInto (old : Option Int) (payload : Option Int) : Option Int :=
  match payload with
  | some v => some v
  | none => old

/-! ## The slave -/

/-- Program counter of `slave()`: `recv` is the `MPI_Recv` of line 123, `call`
is the call through `tab_func` of line 131, `exited` is after the `break`, and
`fault` is the undefined behaviour of a call through an entry that `main` never
initialised (or through an uninitialised `work`). -/
inductive SlavePc where
  | recv | call | exited | fault
deriving DecidableEq, Repr

/-- Local state of `slave()`.  `work = none` is the uninitialised local; `log`
is the history of completed calls, oldest first. -/
structure Slave where
  pc : SlavePc
  work : Option Int
  log : List Event
deriving DecidableEq, Repr

/-- State of `slave()` on entry. -/
def Slave.init : Slave := ⟨.recv, none, []⟩

/-- A procedure of the dispatch table.  It is given everything it could look
at, the rank and the local state of the caller, and yields the messages
`(dest, msg)` it sends. -/
abbrev Proc := Nat → Slave → List (Nat × Msg)

/-- Source: `func0`, `int result = 0; MPI_Send(&result, 1, MPI_INT, 0, 0, ...)`. -/
def func0 : Proc := fun _ _ => [(0, ⟨0, some 0⟩)]

/-- Source: `func1`. -/
def func1 : Proc := fun _ _ => [(0, ⟨0, some 1⟩)]

/-- Source: `func2`. -/
def func2 : Proc := fun _ _ => [(0, ⟨0, some 2⟩)]

/-- Source: `func3`. -/
def func3 : Proc := fun _ _ => [(0, ⟨0, some 3⟩)]

/-- Source: `func4`. -/
def func4 : Proc := fun _ _ => [(0, ⟨0, some 4⟩)]

/-- Source: `void (*tab_func[5])()` as filled in by `main`.  An index outside
`0..4` is outside the array. -/
def tab_func (i : Int) : Option Proc :=
  if i = 0 then some func0
  else if i = 1 then some func1
  else if i = 2 then some func2
  else if i = 3 then some func3
  else if i = 4 then some func4
  else none

/-- History entries of a list of sends. -/
def sendEvents (out : List (Nat × Msg)) : List Event :=
  out.map (fun o => Event.send o.1 o.2.tag o.2.payload)

/-- The `MPI_Recv` of line 123 followed by the test of line 125, for the
incoming message `inp` from rank 0. -/
def slaveRecv (s : Slave) (inp : Msg) : Slave :=
  { pc := if inp.tag = DIETAG then .exited else .call
    work := recvInto s.work inp.payload
    log := s.log ++ [Event.recv 0 inp.tag inp.payload] }

/-- The call `(*tab_func[work])()` of line 131 by the slave of rank `rank`:
the new local state and the messages sent. -/
def slaveCall (rank : Nat) (s : Slave) : Slave × List (Nat × Msg) :=
  match s.work with
  | none => ({ s with pc := .fault }, [])
  | some w =>
    match tab_func w with
    | none => ({ s with pc := .fault }, [])
    | some f =>
      let out := f rank s
      ({ s with pc := .recv, log := s.log ++ Event.call w :: sendEvents out }, out)

/-- Run `slave()` of rank `rank` from state `s` against the messages `msgs`
delivered to it in order, one loop iteration per message.  The slave consumes
messages only while it is at its receive: once it has left the loop, or
faulted, the remaining messages are not looked at. -/
def slaveRun (rank : Nat) : Slave → List Msg → Slave
  | s, [] => s
  | s, m :: ms =>
    match s.pc with
    | .recv =>
      let s1 := slaveRecv s m
      match s1.pc with
      | .call => slaveRun rank (slaveCall rank s1).1 ms
      | _ => slaveRun rank s1 ms
    | _ => s

/-! ## The master -/

/-- Program counter of `master()`, one value per loop test and MPI call:
`initTest`/`initSend` are lines 88/89, `workTest`/`workRecv`/`workSend` are
lines 94/95/98, `drainTest`/`drainRecv`/`drainSend` are lines 103/104/108 and
`returned` is the end of the function. -/
inductive MasterPc where
  | initTest | initSend | workTest | workRecv | workSend
  | drainTest | drainRecv | drainSend | returned
deriving DecidableEq, Repr

/-- Local state of `master()`.  `source` is `status.MPI_SOURCE`; `log` is the
history of completed MPI calls, oldest first. -/
structure Master where
  pc : MasterPc
  rank : Nat
  work : Int
  result : Option Int
  source : Nat
  log : List Event
deriving DecidableEq, Repr

/-- State of `master()` after `work = NUM_WORK_REQS - 1` and `rank = 1`, with
`W` the value of `NUM_WORK_REQS`. -/
def Master.init (W : Nat) : Master := ⟨.initTest, 1, (W : Int) - 1, none, 0, []⟩

/-- One step of `master()` in a communicator of `world_size` processes.  `inp`
is the message the wildcard `MPI_Recv` completes with and its source; it is
looked at only when the step is a receive.  The result is the new state and
the message sent, if the step is a send. -/
def masterStep (world_size : Nat) (m : Master) (inp : Nat × Msg) :
    Master × Option (Nat × Msg) :=
  match m.pc with
  | .initTest =>
    if m.rank < world_size then ({ m with pc := .initSend }, none)
    else ({ m with pc := .workTest }, none)
  | .initSend =>
    ({ m with pc := .initTest, rank := m.rank + 1, work := m.work - 1,
              log := m.log ++ [Event.send m.rank WORKTAG (some m.work)] },
     some (m.rank, ⟨WORKTAG, some m.work⟩))
  | .workTest =>
    if 0 ≤ m.work then ({ m with pc := .workRecv }, none)
    else ({ m with pc := .drainTest, rank := 1 }, none)
  | .workRecv =>
    ({ m with pc := .workSend, source := inp.1, result := recvInto m.result inp.2.payload,
              log := m.log ++ [Event.recv inp.1 inp.2.tag inp.2.payload] }, none)
  | .workSend =>
    ({ m with pc := .workTest, work := m.work - 1,
              log := m.log ++ [Event.send m.source WORKTAG (some m.work)] },
     some (m.source, ⟨WORKTAG, some m.work⟩))
  | .drainTest =>
    if m.rank < world_size then ({ m with pc := .drainRecv }, none)
    else ({ m with pc := .returned }, none)
  | .drainRecv =>
    ({ m with pc := .drainSend, source := inp.1, result := recvInto m.result inp.2.payload,
              log := m.log ++ [Event.recv inp.1 inp.2.tag inp.2.payload] }, none)
  | .drainSend =>
    ({ m with pc := .drainTest, rank := m.rank + 1,
              log := m.log ++ [Event.send m.source DIETAG none] },
     some (m.source, ⟨DIETAG, none⟩))
  | .returned => (m, none)

/-- Whether the next step of the master is a blocking receive. -/
def Master.receiving (m : Master) : Bool :=
  m.pc = .workRecv || m.pc = .drainRecv

/-- Whether a history entry is a completed receive. -/
def isRecv : Event → Bool
  | .recv _ _ _ => true
  | _ => false

/-- Number of receives in a history. -/
def recvCount (log : List Event) : Nat := log.countP isRecv

/-- The master run on its own for `n` steps from `m`, every wildcard receive
being answered at once: the `i`-th receive (counting from 0) completes with
the source and message `answers i`. -/
def masterRun (world_size : Nat) (answers : Nat → Nat × Msg) : Nat → Master → Master
  | 0, m => m
  | n + 1, m => masterRun world_size answers n (masterStep world_size m (answers (recvCount m.log))).1

/-! ## The system: one master and `world_size - 1` slaves -/

/-- A slave process together with its two channels: `inbox` holds the messages
rank 0 has sent to it that it has not received yet, `outbox` the messages it
has sent to rank 0 that rank 0 has not received yet, both oldest first. -/
structure Worker where
  slave : Slave
  inbox : List Msg
  outbox : List Msg
deriving DecidableEq, Repr

/-- Global state: the master (rank 0) and the worker of every rank.  Only the
ranks `1 .. world_size - 1` exist as processes and ever take a step. -/
structure System where
  master : Master
  worker : Nat → Worker

/-- Initial global state, `W` being the value of `NUM_WORK_REQS`. -/
def System.init (W : Nat) : System :=
  { master := Master.init W, worker := fun _ => ⟨Slave.init, [], []⟩ }

/-- A scheduling choice: let the master take a step (if that step is a
wildcard receive, complete it with the oldest pending message of `source`), or
let the slave of rank `rank` take a step. -/
inductive Action where
  | master (source : Nat)
  | slave (rank : Nat)
deriving DecidableEq, Repr

/-- Put a message sent by the master into the inbox of its destination. -/
def deliver (w : Nat → Worker) : Option (Nat × Msg) → Nat → Worker
  | none => w
  | some (dest, msg) =>
    Function.update w dest { w dest with inbox := (w dest).inbox ++ [msg] }

/-- Messages among `out` that are addressed to rank 0.  (The table procedures
send to rank 0 only; the model has no slave-to-slave channel.) -/
def toMaster (out : List (Nat × Msg)) : List Msg :=
  (out.filter (fun o => o.1 = 0)).map (fun o => o.2)

/-- One step of the system under the scheduling choice, or `none` when the
chosen process cannot move: the master has returned or waits for a message
that is not pending, the slave has left its loop or waits on an empty inbox,
or the rank is not a slave. -/
def step (world_size : Nat) (s : System) : Action → Option System
  | .master src =>
    if s.master.pc = .returned then none
    else if s.master.receiving then
      match (s.worker src).outbox with
      | [] => none
      | msg :: rest =>
        let w1 : Worker := { s.worker src with outbox := rest }
        some { master := (masterStep world_size s.master (src, msg)).1
               worker := Function.update s.worker src w1 }
    else
      let r := masterStep world_size s.master (0, ⟨0, none⟩)
      some { master := r.1, worker := deliver s.worker r.2 }
  | .slave r =>
    if 1 ≤ r ∧ r < world_size then
      let w := s.worker r
      match w.slave.pc with
      | .recv =>
        match w.inbox with
        | [] => none
        | msg :: rest =>
          let w1 : Worker := { w with slave := slaveRecv w.slave msg, inbox := rest }
          some { s with worker := Function.update s.worker r w1 }
      | .call =>
        let c := slaveCall r w.slave
        let w1 : Worker := { w with slave := c.1, outbox := w.outbox ++ toMaster c.2 }
        some { s with worker := Function.update s.worker r w1 }
      | _ => none
    else none

/-- Execute a schedule from `s`; `none` when some choice of the schedule is
not enabled at the point it is made. -/
def run (world_size : Nat) : System → List Action → Option System
  | s, [] => some s
  | s, a :: as =>
    match step world_size s a with
    | none => none
    | some s1 => run world_size s1 as

/-- The system has come to rest as intended: the master has returned, every
slave `1 .. world_size - 1` has received a `DIETAG` message and left its loop,
and no message is pending on any channel. -/
def System.final (world_size : Nat) (s : System) : Prop :=
  s.master.pc = .returned ∧
  (∀ r, 1 ≤ r → r < world_size →
    (s.worker r).slave.pc = .exited ∧ ∃ p, Event.recv 0 DIETAG p ∈ (s.worker r).slave.log) ∧
  (∀ r, (s.worker r).inbox = [] ∧ (s.worker r).outbox = [])

/-! ## Reading a history -/

/-- A send tagged `WORKTAG`. -/
def isWorkSend : Event → Bool
  | .send _ t _ => t = WORKTAG
  | _ => false

/-- A send tagged `DIETAG`. -/
def isDieSend : Event → Bool
  | .send _ t _ => t = DIETAG
  | _ => false

/-- A send tagged `WORKTAG` to rank `r`. -/
def isWorkTo (r : Nat) : Event → Bool
  | .send d t _ => d = r && t = WORKTAG
  | _ => false

/-- A send tagged `DIETAG` to rank `r`. -/
def isDieTo (r : Nat) : Event → Bool
  | .send d t _ => d = r && t = DIETAG
  | _ => false

/-- A receive whose source is rank `r`. -/
def isRecvFrom (r : Nat) : Event → Bool
  | .recv s _ _ => s = r
  | _ => false

/-- Number of `WORKTAG` messages sent. -/
def workCount (log : List Event) : Nat := log.countP isWorkSend

/-- Number of `DIETAG` messages sent. -/
def dieCount (log : List Event) : Nat := log.countP isDieSend

/-- Number of `WORKTAG` messages sent to rank `r`. -/
def workTo (r : Nat) (log : List Event) : Nat := log.countP (isWorkTo r)

/-- Number of `DIETAG` messages sent to rank `r`. -/
def dieTo (r : Nat) (log : List Event) : Nat := log.countP (isDieTo r)

/-- Number of messages received from rank `r`. -/
def recvFrom (r : Nat) (log : List Event) : Nat := log.countP (isRecvFrom r)

/-- Destination and payload of the `WORKTAG` sends of a history, in send order. -/
def workSends : List Event → List (Nat × Option Int)
  | [] => []
  | .send d t p :: l => if t = WORKTAG then (d, p) :: workSends l else workSends l
  | _ :: l => workSends l

/-! ## Invariants of the master -/

/-- Counters of the master at each program point, for `world_size = ws` and
`NUM_WORK_REQS = W`. -/
def CountInv (ws W : Nat) (m : Master) : Prop :=
  (workCount m.log : Int) = W - 1 - m.work ∧ (-1 ≤ m.work ∨ (W : Int) - ws ≤ m.work) ∧
  match m.pc with
  | .initTest => 1 ≤ m.rank ∧ m.rank ≤ ws ∧ m.work = W - m.rank ∧
      dieCount m.log = 0 ∧ recvCount m.log = 0
  | .initSend => 1 ≤ m.rank ∧ m.rank < ws ∧ m.work = W - m.rank ∧
      dieCount m.log = 0 ∧ recvCount m.log = 0
  | .workTest => m.work ≤ W - ws ∧ dieCount m.log = 0 ∧
      (recvCount m.log : Int) = W - ws - m.work
  | .workRecv => 0 ≤ m.work ∧ m.work ≤ W - ws ∧ dieCount m.log = 0 ∧
      (recvCount m.log : Int) = W - ws - m.work
  | .workSend => 0 ≤ m.work ∧ m.work ≤ W - ws ∧ dieCount m.log = 0 ∧
      (recvCount m.log : Int) = W - ws - m.work + 1
  | .drainTest => m.work < 0 ∧ m.work ≤ W - ws ∧ 1 ≤ m.rank ∧ m.rank ≤ ws ∧
      dieCount m.log + 1 = m.rank ∧
      (recvCount m.log : Int) = W - ws - m.work + m.rank - 1
  | .drainRecv => m.work < 0 ∧ m.work ≤ W - ws ∧ 1 ≤ m.rank ∧ m.rank < ws ∧
      dieCount m.log + 1 = m.rank ∧
      (recvCount m.log : Int) = W - ws - m.work + m.rank - 1
  | .drainSend => m.work < 0 ∧ m.work ≤ W - ws ∧ 1 ≤ m.rank ∧ m.rank < ws ∧
      dieCount m.log + 1 = m.rank ∧
      (recvCount m.log : Int) = W - ws - m.work + m.rank
  | .returned => m.work < 0 ∧ m.work ≤ W - ws ∧ dieCount m.log + 1 = ws ∧
      (recvCount m.log : Int) = W - 1 - m.work

/-- Number of ranks the initial round has served so far, plus one: `rank`
while the initial round runs, `ws` afterwards. -/
def served (ws : Nat) (m : Master) : Nat :=
  match m.pc with
  | .initTest | .initSend => m.rank
  | _ => ws

/-- Whether the master has just received from `r` and not answered yet. -/
def held (m : Master) (r : Nat) : Int :=
  match m.pc with
  | .workSend | .drainSend => if m.source = r then 1 else 0
  | _ => 0

/-- Whether the initial round has sent rank `r` its first item. -/
def started (ws : Nat) (m : Master) (r : Nat) : Int :=
  if 1 ≤ r ∧ r < served ws m then 1 else 0

/-- Balance of the traffic with each rank `r`: what the master has sent to
`r`, plus the answer it still owes, equals what it has received from `r` plus
the first item of the initial round. -/
def BalInv (ws : Nat) (m : Master) : Prop :=
  ∀ r, (workTo r m.log : Int) + (dieTo r m.log : Int) + held m r =
    (recvFrom r m.log : Int) + started ws m r

/-- The `WORKTAG` sends so far carry `W - 1, W - 2, ...` in this order, and
those of the initial round go to the ranks `1, 2, ...` in this order. -/
def OrderInv (ws W : Nat) (m : Master) : Prop :=
  (workSends m.log).map (fun x => x.2) =
    (List.range (workCount m.log)).map (fun (i : Nat) => some ((W : Int) - 1 - (i : Int))) ∧
  (workSends m.log).take (served ws m - 1) =
    (List.range (served ws m - 1)).map (fun (i : Nat) => (i + 1, some ((W : Int) - 1 - (i : Int))))

/-- All three invariants of the master together. -/
def MasterInv (ws W : Nat) (m : Master) : Prop :=
  CountInv ws W m ∧ BalInv ws m ∧ OrderInv ws W m

/-- Steps the master still has to take, a send counting three.  It is the
master's share of the termination measure of the system. -/
def masterFuel (ws : Nat) (m : Master) : Nat :=
  let fuelDrain (rank : Nat) : Nat := 5 * (ws - rank) + 1
  let fuelWork (work : Int) : Nat := 5 * (work + 1).toNat + 1 + fuelDrain 1
  let fuelInit (rank : Nat) (work : Int) : Nat :=
    4 * (ws - rank) + 1 + fuelWork (work - ((ws - rank : Nat) : Int))
  match m.pc with
  | .initTest => fuelInit m.rank m.work
  | .initSend => 3 + fuelInit (m.rank + 1) (m.work - 1)
  | .workTest => fuelWork m.work
  | .workRecv => 4 + fuelWork (m.work - 1)
  | .workSend => 3 + fuelWork (m.work - 1)
  | .drainTest => fuelDrain m.rank
  | .drainRecv => 4 + fuelDrain (m.rank + 1)
  | .drainSend => 3 + fuelDrain (m.rank + 1)
  | .returned => 0

/-- A slave with nothing in flight: no item, no result, waiting in its receive. -/
def Quiet (w : Worker) : Prop :=
  w.inbox = [] ∧ w.slave.pc = .recv ∧ w.outbox = []

/-- A slave with exactly one item in flight: the `WORKTAG` message is in its
inbox, or it is between the receive and the end of the call (or has faulted in
the call), or its answer is in its outbox. -/
def Busy (w : Worker) : Prop :=
  ((∃ v, w.inbox = [⟨WORKTAG, some v⟩]) ∧ w.slave.pc = .recv ∧ w.outbox = []) ∨
  (w.inbox = [] ∧ (w.slave.pc = .call ∨ w.slave.pc = .fault) ∧ w.outbox = []) ∨
  (w.inbox = [] ∧ w.slave.pc = .recv ∧ ∃ msg, w.outbox = [msg])

/-- A slave that has been told to stop: the `DIETAG` message is in its inbox,
or it has received it and left its loop. -/
def Dying (w : Worker) : Prop :=
  w.outbox = [] ∧
  ((w.inbox = [⟨DIETAG, none⟩] ∧ w.slave.pc = .recv) ∨
   (w.inbox = [] ∧ w.slave.pc = .exited ∧ ∃ p, Event.recv 0 DIETAG p ∈ w.slave.log))

/-- The state of the worker of rank `r` matches the master's history `log`. -/
def ShapeAt (log : List Event) (w : Worker) (r : Nat) : Prop :=
  (dieTo r log = 0 ∧ workTo r log = recvFrom r log + 1 ∧ Busy w) ∨
  (dieTo r log = 0 ∧ workTo r log = recvFrom r log ∧ Quiet w) ∨
  (dieTo r log = 1 ∧ workTo r log = recvFrom r log ∧ Dying w)

/-- Every worker matches the master's history. -/
def ShapeInv (s : System) : Prop :=
  ∀ r, ShapeAt s.master.log (s.worker r) r

/-- A message the master of a well-sized run puts on the wire: the stop
message, or an item whose ordinal indexes the dispatch table. -/
def GoodMsg (msg : Msg) : Prop :=
  msg = ⟨DIETAG, none⟩ ∨ ∃ v, msg = ⟨WORKTAG, some v⟩ ∧ 0 ≤ v ∧ v ≤ 4

/-- A worker that cannot fault: every pending message is good, and a slave
about to call holds an ordinal inside the table. -/
def RangeAt (w : Worker) : Prop :=
  (∀ msg ∈ w.inbox, GoodMsg msg) ∧
  (w.slave.pc = .call → ∃ v, w.slave.work = some v ∧ 0 ≤ v ∧ v ≤ 4) ∧
  w.slave.pc ≠ .fault

/-- No worker can fault. -/
def RangeInv (s : System) : Prop := ∀ r, RangeAt (s.worker r)

/-- Steps a slave still has to take for what is already on its side: two per
pending message (the receive and the call), one for a call that is due. -/
def workerFuel (w : Worker) : Nat :=
  2 * w.inbox.length + (if w.slave.pc = .call then 1 else 0)

/-- Termination measure of the system. -/
def systemFuel (ws : Nat) (s : System) : Nat :=
  masterFuel ws s.master + ((List.range ws).map (fun r => workerFuel (s.worker r))).sum

/-- Every `DIETAG` message in the history goes to a rank all of whose items
have been answered by then, and no item is given to that rank afterwards. -/
def DieAfterResults (log : List Event) : Prop :=
  ∀ (pre post : List Event) (r : Nat) (p : Option Int),
    log = pre ++ Event.send r DIETAG p :: post →
    recvFrom r pre = workTo r pre ∧ workTo r post = 0

/-- Invariant of the system, for any communicator size and any `W`. -/
def SysInv (ws W : Nat) (s : System) : Prop :=
  MasterInv ws W s.master ∧ ShapeInv s ∧ DieAfterResults s.master.log

/-- A call through the dispatch table. -/
def isCall : Event → Bool
  | .call _ => true
  | _ => false

/-- A send, whatever its tag. -/
def isSend : Event → Bool
  | .send _ _ _ => true
  | _ => false

/-- The messages of `msgs` that come before the first one tagged `DIETAG`. -/
def beforeDie (msgs : List Msg) : List Msg :=
  msgs.takeWhile (fun m => m.tag ≠ DIETAG)

/-- The first message tagged `DIETAG` and everything after it. -/
def fromDie (msgs : List Msg) : List Msg :=
  msgs.dropWhile (fun m => m.tag ≠ DIETAG)

/-- History of a slave that serves each of `items` in turn: receive the item,
call the table entry of its ordinal, send that ordinal to rank 0 with tag 0. -/
def itemsTrace : List Msg → List Event
  | [] => []
  | m :: ms =>
    Event.recv 0 m.tag m.payload :: Event.call (m.payload.getD 0) ::
      Event.send 0 0 m.payload :: itemsTrace ms

/-- History of the receive of the stop message, if there is one. -/
def dieTrace : List Msg → List Event
  | [] => []
  | d :: _ => [Event.recv 0 d.tag d.payload]

/-- A complete schedule of the system with two slaves (`world_size = 3`) and
`NUM_WORK_REQS = 5`: slave 1 serves the items 4, 2, 1, 0 and slave 2 the item 3. -/
def demoSchedule : List Action :=
  [.master 0, .master 0, .slave 1, .slave 1, .master 0, .master 0, .slave 2, .slave 2,
   .master 0, .master 0, .master 1, .master 0, .slave 1, .slave 1, .master 0, .master 1,
   .master 0, .slave 1, .slave 1, .master 0, .master 1, .master 0, .slave 1, .slave 1,
   .master 0, .master 0, .master 1, .master 0, .slave 1, .master 0, .master 2, .master 0,
   .slave 2, .master 0]

/-- The state `demoSchedule` leads to. -/
def demoFinal : System :=
  (run 3 (System.init NUM_WORK_REQS) demoSchedule).getD (System.init NUM_WORK_REQS)

/-- An answer stream for the master run on its own: the receives are answered
by the ranks 1, 2, 3, 4, 1, ... in turn. -/
def demoAnswers : Nat → Nat × Msg := fun i => (i % 4 + 1, ⟨0, some 0⟩)

/-- A message sequence for one slave: two items, the stop message, and an item
that arrives too late. -/
def demoMsgs : List Msg :=
  [⟨WORKTAG, some 3⟩, ⟨WORKTAG, some 0⟩, ⟨DIETAG, none⟩, ⟨WORKTAG, some 2⟩]

/-! ## The exchanges of the work loop and the drain loop -/

/-- One exchange of the master after the initial round: a receive from
`source` and the send that follows it. -/
structure Exchange where
  source : Nat
  rtag : Int
  rpayload : Option Int
  stag : Int
  spayload : Option Int
deriving DecidableEq, Repr

/-- History of a sequence of exchanges: for each, the receive and then the
send, which goes to the source of the receive. -/
def exchangeLog : List Exchange → List Event
  | [] => []
  | x :: xs =>
    Event.recv x.source x.rtag x.rpayload :: Event.send x.source x.stag x.spayload ::
      exchangeLog xs

/-- History of the first `n` sends of the initial round: rank `r` is sent the
ordinal `W - r`. -/
def initLog (W : Nat) : Nat → List Event
  | 0 => []
  | n + 1 => initLog W n ++ [Event.send (n + 1) WORKTAG (some ((W : Int) - 1 - (n : Int)))]

/-- The `i`-th exchange of a run with `ws` ranks and `W` items whose `i`-th
receive is answered by `answers i`: among the first `W + 1 - ws` exchanges the
send carries the next ordinal with `WORKTAG`, afterwards it is the empty
`DIETAG` message. -/
def exchangeAt (ws W : Nat) (answers : Nat → Nat × Msg) (i : Nat) : Exchange :=
  { source := (answers i).1
    rtag := (answers i).2.tag
    rpayload := (answers i).2.payload
    stag := if i < W + 1 - ws then WORKTAG else DIETAG
    spayload := if i < W + 1 - ws then some ((W : Int) - (ws : Int) - (i : Int)) else none }

/-- Destinations of the `DIETAG` sends of a history, in send order. -/
def dieDests : List Event → List Nat
  | [] => []
  | .send d t _ :: l => if t = DIETAG then d :: dieDests l else dieDests l
  | _ :: l => dieDests l

/-- Sources of the receives of a history, in order. -/
def recvSources : List Event → List Nat
  | [] => []
  | .recv s _ _ :: l => s :: recvSources l
  | _ :: l => recvSources l

/-- Whether a history is a sequence of pairs, each a receive followed at once
by a send to the source of that receive. -/
def alternates : List Event → Bool
  | [] => true
  | .recv s _ _ :: .send d _ _ :: l => d == s && alternates l
  | _ => false

/-- Shape of the master's history at each program point, in a run whose
receives are answered by `answers`. -/
def ExchInv (ws W : Nat) (answers : Nat → Nat × Msg) (m : Master) : Prop :=
  dieDests m.log =
    (List.range (dieCount m.log)).map (fun i => (answers (W + 1 - ws + i)).1) ∧
  recvSources m.log = (List.range (recvCount m.log)).map (fun i => (answers i).1) ∧
  match m.pc with
  | .initTest | .initSend => m.log = initLog W (m.rank - 1)
  | .workSend | .drainSend =>
    1 ≤ recvCount m.log ∧ m.source = (answers (recvCount m.log - 1)).1 ∧
    m.log = initLog W (ws - 1) ++
      exchangeLog ((List.range (recvCount m.log - 1)).map (exchangeAt ws W answers)) ++
      [Event.recv (answers (recvCount m.log - 1)).1 (answers (recvCount m.log - 1)).2.tag
        (answers (recvCount m.log - 1)).2.payload]
  | _ =>
    m.log = initLog W (ws - 1) ++
      exchangeLog ((List.range (recvCount m.log)).map (exchangeAt ws W answers))

/-- Answers under which slave 2 is the first to answer in the drain loop of a
run with two slaves and five items. -/
def lateAnswers : Nat → Nat × Msg := fun i => (if i = 3 then 2 else 1, ⟨0, some 0⟩)

/-- A schedule that lets the master run its initial round up to the send to
the rank `NUM_WORK_REQS + 1` and then lets that slave receive and make its
call. -/
def faultSchedule : List Action :=
  List.replicate (2 * (NUM_WORK_REQS + 1)) (Action.master 0) ++
    [Action.slave (NUM_WORK_REQS + 1), Action.slave (NUM_WORK_REQS + 1)]

/-- State of a rank `r` that was handed an ordinal below 0: nothing of it is
on the way to the master, the messages waiting for it carry negative ordinals,
a call that is due goes outside the table, and the master has received nothing
from it, has sent it no `DIETAG`, and is not about to send to it. -/
def Mute (s : System) (r : Nat) : Prop :=
  (s.worker r).outbox = [] ∧
  (∀ msg ∈ (s.worker r).inbox, ∃ v, msg = ⟨WORKTAG, some v⟩ ∧ v < 0) ∧
  ((s.worker r).slave.pc = .call → ∃ v, (s.worker r).slave.work = some v ∧ v < 0) ∧
  dieTo r s.master.log = 0 ∧ recvFrom r s.master.log = 0 ∧
  ((s.master.pc = .workSend ∨ s.master.pc = .drainSend) → s.master.source ≠ r)

/-- A schedule for seven ranks: the initial round, the five slaves that hold
an item answer, the master receives the five answers and stops these slaves,
the slave of rank 6 makes its call. -/
def hangSchedule : List Action :=
  List.replicate 14 (Action.master 0) ++
  [.slave 1, .slave 1, .slave 2, .slave 2, .slave 3, .slave 3, .slave 4, .slave 4,
   .slave 5, .slave 5,
   .master 0, .master 1, .master 0, .master 0, .master 2, .master 0,
   .master 0, .master 3, .master 0, .master 0, .master 4, .master 0,
   .master 0, .master 5, .master 0, .master 0,
   .slave 1, .slave 2, .slave 3, .slave 4, .slave 5, .slave 6, .slave 6]

/-- The state `hangSchedule` ends in. -/
def hangFinal : System :=
  (run 7 (System.init NUM_WORK_REQS) hangSchedule).getD (System.init NUM_WORK_REQS)

end MasterSlave

namespace MatrixSum

/-! ## `src/mpi/a09_e02_matrix_sum.c`

A matrix is a function from the row and column index to the entry; only the
entries `[i][j]` with `i < ROWS`, `j < COLS` exist in the source and only they
are read or written.  The entries stay far below the limits of `int` (the
largest is 24), so integers are unbounded.  Of the output only the final
`print_matrix(&result, ...)` of `task4` and the existence of its progress
lines are modelled. -/

/-- Source: `#define MASTER_RANK 0`. -/
def MASTER_RANK : Nat := 0

/-- Source: `#define TASK1_RANK 1`. -/
def TASK1_RANK : Nat := 1

/-- Source: `#define TASK2_RANK 2`. -/
def TASK2_RANK : Nat := 2

/-- Source: `#define TASK3_RANK 3`. -/
def TASK3_RANK : Nat := 3

/-- Source: `const int ROWS = 3;`. -/
def ROWS : Nat := 3

/-- Source: `const int COLS = 3;`. -/
def COLS : Nat := 3

/-- A matrix or a row buffer of the source. -/
abbrev Row := Nat → Int

/-- A matrix of the source, `m i j` being `m[i][j]`. -/
abbrev Matrix := Nat → Row

/-- A message `MPI_Bsend(buf, count, MPI_INT, dest, tag, ...)` puts on the wire,
`data` being the `count` ints starting at `buf`. -/
structure RowMsg where
  dest : Nat
  tag : Nat
  data : List Int
deriving DecidableEq, Repr

/-- The `COLS` ints starting at `row`, as sent by `MPI_Bsend(row, COLS, ...)`. -/
def rowData (row : Row) : List Int := (List.range COLS).map row

/-- The loop `for (j = 0; j < COLS; ++j) row[j] = f(row[j]);` on one row. -/
def forCols (f : Int → Int) (row : Row) : Row :=
  (List.range COLS).foldl (fun r j => Function.update r j (f (r j))) row

/-- The initialisation loops of a producer: `m[i][j] = v` for all `i < ROWS`,
`j < COLS`. -/
def fill (v : Int) (m : Matrix) : Matrix :=
  (List.range ROWS).foldl (fun m i => Function.update m i (forCols (fun _ => v) (m i))) m

/-- State of a producer: its matrix and the messages it has sent, oldest
first. -/
structure Producer where
  m : Matrix
  sent : List RowMsg

/-- One iteration of the second loop of a producer, for the row `i`: update
the entries of the row with `upd i`, then `MPI_Bsend` the row to `MASTER_RANK`
with tag `i`. -/
def produceRow (upd : Nat → Int → Int) (st : Producer) (i : Nat) : Producer :=
  let m1 := Function.update st.m i (forCols (upd i) (st.m i))
  { m := m1, sent := st.sent ++ [⟨MASTER_RANK, i, rowData (m1 i)⟩] }

/-- The first `n` iterations of the second loop of a producer. -/
def produceRows (upd : Nat → Int → Int) (st : Producer) (n : Nat) : Producer :=
  (List.range n).foldl (produceRow upd) st

/-- The stack garbage a local matrix holds before it is initialised; no entry
of it survives the initialisation. -/
def junk : Matrix := fun _ _ => 0

/-- Source: `task1`, lines 109-128, after `n` iterations of its second loop:
`mX[i][j] = 1`, then row by row `mX[i][j] = mX[i][j] * 10` followed by the
send. -/
def task1After (n : Nat) : Producer :=
  produceRows (fun _ x => x * 10) ⟨fill 1 junk, []⟩ n

/-- Source: `task2`, lines 133-152: `mY[i][j] = 2`, then `mY[i][j] + 3`. -/
def task2After (n : Nat) : Producer :=
  produceRows (fun _ x => x + 3) ⟨fill 2 junk, []⟩ n

/-- Source: `task3`, lines 157-176: `mZ[i][j] = 3`, then `mZ[i][j] + 3 * i`. -/
def task3After (n : Nat) : Producer :=
  produceRows (fun i x => x + 3 * (i : Int)) ⟨fill 3 junk, []⟩ n

/-- The complete run of `task1`. -/
def task1 : Producer := task1After ROWS

/-- The complete run of `task2`. -/
def task2 : Producer := task2After ROWS

/-- The complete run of `task3`. -/
def task3 : Producer := task3After ROWS

/-- What `task4` does that can be observed: a progress line of `printf`, a
completed `MPI_Recv` from `source` with `tag`, and the final `print_matrix` of
`result`, given as its rows. -/
inductive AggEvent where
  | progress
  | recv (source tag : Nat)
  | printResult (rows : List (List Int))
deriving DecidableEq, Repr

/-- Local state of `task4`: the three receive buffers, `result`, and the
history of what it did, oldest first. -/
structure Aggregator where
  rowX : Row
  rowY : Row
  rowZ : Row
  result : Matrix
  trace : List AggEvent

/-- Effect of `MPI_Recv(buf, COLS, MPI_INT, ...)` completing with a message of
the ints `data`: they overwrite the start of the buffer. -/
def recvRow (buf : Row) (data : List Int) : Row :=
  fun j => data.getD j (buf j)

/-- One iteration of the loop of `task4`, lines 190-205, for the row `i`.
`delivered source tag` is the content of the message that the receive from
`source` with `tag` completes with. -/
def task4Row (delivered : Nat → Nat → List Int) (st : Aggregator) (i : Nat) : Aggregator :=
  let rowX := recvRow st.rowX (delivered TASK1_RANK i)
  let rowY := recvRow st.rowY (delivered TASK2_RANK i)
  let rowZ := recvRow st.rowZ (delivered TASK3_RANK i)
  let resRow := (List.range COLS).foldl
    (fun r j => Function.update r j (rowX j + rowY j + rowZ j)) (st.result i)
  { rowX := rowX, rowY := rowY, rowZ := rowZ
    result := Function.update st.result i resRow
    trace := st.trace ++ [.progress, .recv TASK1_RANK i, .progress, .recv TASK2_RANK i,
                          .progress, .recv TASK3_RANK i, .progress] }

/-- The first `n` iterations of the loop of `task4`. -/
def task4Rows (delivered : Nat → Nat → List Int) (n : Nat) : Aggregator :=
  (List.range n).foldl (task4Row delivered) ⟨junk 0, junk 0, junk 0, junk, []⟩

/-- The rows of a matrix as `print_matrix(m, ROWS, COLS)` prints them. -/
def printed (m : Matrix) : List (List Int) := (List.range ROWS).map (fun i => rowData (m i))

/-- Source: `task4`, lines 181-208. -/
def task4 (delivered : Nat → Nat → List Int) : Aggregator :=
  let st := task4Rows delivered ROWS
  { st with trace := st.trace ++ [.printResult (printed st.result)] }

/-- Content of the first message with tag `tag` among `sent`, which is what a
receive for that tag from the sender completes with (nothing if there is
none). -/
def matching (sent : List RowMsg) (tag : Nat) : List Int :=
  match sent.find? (fun msg => msg.dest = MASTER_RANK ∧ msg.tag = tag) with
  | some msg => msg.data
  | none => []

/-- What the receives of `task4` complete with when the senders are `task1`,
`task2` and `task3` on the ranks 1, 2 and 3. -/
def fromProducers (source tag : Nat) : List Int :=
  if source = TASK1_RANK then matching task1.sent tag
  else if source = TASK2_RANK then matching task2.sent tag
  else if source = TASK3_RANK then matching task3.sent tag
  else []

/-- The receives of a history, as pairs of source and tag. -/
def recvsOf : List AggEvent → List (Nat × Nat)
  | [] => []
  | .recv s t :: l => (s, t) :: recvsOf l
  | _ :: l => recvsOf l

/-- Whether an event is the print of the result. -/
def isPrint : AggEvent → Bool
  | .printResult _ => true
  | _ => false

end MatrixSum

namespace MatrixMul

/-! ## `src/mpi/a10_e03_matrix_multiplication.c`, `task_master`

The `float` entries are taken as exact rationals.  A vector or matrix is a
function from the indices to the entry; only the indices below `N` exist in
the source.  `N` is a parameter `n` of the definitions, the program ships
`N = 2`. -/

/-- Source: `const int N = 2;`. -/
def N : Nat := 2

/-- A row buffer of the source (`float row[N]`). -/
abbrev Vec := Nat → ℚ

/-- A matrix of the source (`float m[N][N]`), `m i j` being `m[i][j]`. -/
abbrev Mat := Nat → Nat → ℚ

/-- The assignment `m[i][j] = v`. -/
def setEntry (m : Mat) (i j : Nat) (v : ℚ) : Mat :=
  Function.update m i (Function.update (m i) j v)

/-- Source: lines 104-109, the initialisation of `mT`:
`mT[i][j] = 0.0; if (i == j) mT[i][j] = 1.0;` for all `i, j < N`. -/
def initT (n : Nat) (mT : Mat) : Mat :=
  (List.range n).foldl (fun m i =>
    (List.range n).foldl (fun m j =>
      let m1 := setEntry m i j 0
      if i = j then setEntry m1 i j 1 else m1) m) mT

/-- Source: lines 135-138, the first loop of the transform step:
`row[j] = rowX[j] + rowY[j] + rowZ[j]; mW[i][j] = 0;` for all `j < N`.  The
state is the pair of `row` and the row `mW[i]`. -/
def sumRows (n : Nat) (rowX rowY rowZ : Vec) (row mWi : Vec) : Vec × Vec :=
  (List.range n).foldl (fun st j =>
    (Function.update st.1 j (rowX j + rowY j + rowZ j), Function.update st.2 j 0)) (row, mWi)

/-- Source: lines 141-145, the second loop of the transform step:
`mW[i][j] += row[j] * mT[k][j];` for all `j < N` and, inside, all `k < N`. -/
def multiplyRow (n : Nat) (mT : Mat) (row mWi : Vec) : Vec :=
  (List.range n).foldl (fun w j =>
    (List.range n).foldl (fun w k => Function.update w j (w j + row j * mT k j)) w) mWi

/-- Local state of `task_master` in its main loop. -/
structure MasterState where
  row : Vec
  mW : Mat

/-- Source: `task_master`, lines 91-150: the matrix `mW` it prints.
`delivered source tag` is what the receive buffer holds after the `MPI_Wait`
for the `MPI_Irecv` from `source` with `tag`.  Uninitialised locals are taken
as zero; every entry that is read has been written before. -/
def task_master (n : Nat) (delivered : Nat → Nat → Vec) : Mat :=
  let mT := initT n (fun _ _ => 0)
  ((List.range n).foldl (fun (st : MasterState) i =>
    let rowX := delivered 1 i
    let rowY := delivered 2 i
    let rowZ := delivered 3 i
    let s1 := sumRows n rowX rowY rowZ st.row (st.mW i)
    { row := s1.1, mW := Function.update st.mW i (multiplyRow n mT s1.1 s1.2) })
    ⟨fun _ => 0, fun _ _ => 0⟩).mW

/-- The vector-matrix product the header comment announces: entry `j` of
`v * mT`. -/
def vecMul (n : Nat) (v : Vec) (mT : Mat) (j : Nat) : ℚ :=
  Finset.sum (Finset.range n) (fun k => v k * mT k j)

/-- Rows for the examples: rank `r` delivers `[r + i, 10 * r + j]`-like values. -/
def demoDelivered : Nat → Nat → Vec := fun r i j => (r : ℚ) + 10 * (i : ℚ) + 100 * (j : ℚ)

end MatrixMul

namespace ArrayMax

/-! ## `src/mpi/a08_e01_array_max.c`

Arrays are functions from the index to the element; only the indices below the
array's size are ever read or written.  Sizes, counts and displacements are
non-negative C `int`s, modelled as natural numbers: `displacement` never
exceeds `ary_size` and `elements_per_process + 1` is computed only when
`world_size ≥ 2`, so nothing overflows. -/

/-- Source: `INT_MIN` of `<limits.h>` for a 32 bit `int`. -/
def INT_MIN : Int := -2147483648

/-- Source: `const int ARRAY_SIZE = 10;` in `main`. -/
def ARRAY_SIZE : Nat := 10

/-- Source: `array_max`, lines 23-29: `max = INT_MIN`, then for `i` from 0 to
`size - 1`, `if (ary[i] > max) max = ary[i]`. -/
def array_max (ary : Nat → Int) (size : Nat) : Int :=
  (List.range size).foldl (fun max i => if ary i > max then ary i else max) INT_MIN

/-- Local variables and output arrays of `calculate_for_scatterv`. -/
structure Scatter where
  displacement : Nat
  sendcounts : Nat → Nat
  displacements : Nat → Nat

/-- Body of the loop of lines 62-73 for the index `i`. -/
def scatterBody (elements_per_process remainder world_size : Nat) (st : Scatter) (i : Nat) :
    Scatter :=
  let count := if i < world_size - remainder then elements_per_process
               else elements_per_process + 1
  { sendcounts := Function.update st.sendcounts i count
    displacements := Function.update st.displacements i st.displacement
    displacement := st.displacement + count }

/-- Source: `calculate_for_scatterv`, lines 51-74, for `world_size ≥ 1`.  The
arrays passed in are the callers' (uninitialised) `sendcounts` and
`displacements`. -/
def calculate_for_scatterv (ary_size world_size : Nat) (sendcounts displacements : Nat → Nat) :
    Scatter :=
  (List.range world_size).foldl
    (scatterBody (ary_size / world_size) (ary_size % world_size) world_size)
    ⟨0, sendcounts, displacements⟩

/-- What `MPI_Scatterv` leaves in `splitbuf` of rank `r`: the `sendcounts[r]`
elements of `array` from index `displacements[r]` on. -/
def splitbuf (array : Nat → Int) (sc : Scatter) (r : Nat) : Nat → Int :=
  fun k => array (sc.displacements r + k)

/-- Result of `MPI_Reduce` with `MPI_MAX` over the ranks `0 .. world_size - 1`:
the maximum of their contributions (for `world_size ≥ 1`). -/
def reduceMax (contrib : Nat → Int) (world_size : Nat) : Int :=
  (List.range world_size).foldl (fun acc r => max acc (contrib r)) (contrib 0)

/-- Source: `main`, lines 101-138: the value `global_max` at the root for the
array `array` of `ARRAY_SIZE` elements and `world_size` processes.  The
uninitialised arrays returned by `malloc` are taken as all zeros. -/
def global_max (array : Nat → Int) (world_size : Nat) : Int :=
  let sc := calculate_for_scatterv ARRAY_SIZE world_size (fun _ => 0) (fun _ => 0)
  reduceMax (fun r => array_max (splitbuf array sc r) (sc.sendcounts r)) world_size

/-- Number of elements rank `i` is given. -/
def countOf (ary_size world_size i : Nat) : Nat :=
  if i < world_size - ary_size % world_size then ary_size / world_size
  else ary_size / world_size + 1

/-- Sum of the counts of the ranks below `n`. -/
def countsBelow (ary_size world_size : Nat) : Nat → Nat
  | 0 => 0
  | n + 1 => countsBelow ary_size world_size n + countOf ary_size world_size n

/-- An array of ten elements for the examples. -/
def demoArray : Nat → Int := fun i => [3, 1, 4, 1, 5, 9, 2, 6, 5, 3].getD i 0

/-- Source: `main`, lines 120 and 123-124: the number of ints `splitbuf` is
allocated for, `(ARRAY_SIZE / world_size) + 1`, which is also the `recvcount`
given to `MPI_Scatterv`. -/
def splitbuf_len (world_size : Nat) : Nat := ARRAY_SIZE / world_size + 1

end ArrayMax

namespace FindElement

/-! ## `src/mpi/a10_e01_find_element.c` -/

/-- Source: `const int ARRAY_SIZE = 20;`. -/
def ARRAY_SIZE : Nat := 20

/-- The search loop of lines 60-65 from index `i` on, with `n` indices left to
look at: the value of `occurrence_idx` when the loop is left, by the `break`
at the first `i` with `local_array[i] == target`, or at the end with the
initial `-1`. -/
def searchFrom (local_array : Nat → Int) (target : Int) : Nat → Nat → Int
  | 0, _ => -1
  | n + 1, i => if local_array i = target then (i : Int) else searchFrom local_array target n (i + 1)

/-- Source: `main`, lines 59-65: `occurrence_idx` after the search loop. -/
def occurrence_idx (local_array : Nat → Int) (target : Int) : Int :=
  searchFrom local_array target ARRAY_SIZE 0

/-- An array of twenty elements for the examples. -/
def demoLocal : Nat → Int :=
  fun i => [7, 42, 3, 42, 0, 99, 15, 8, 23, 4, 16, 42, 77, 1, 2, 5, 9, 11, 13, 17].getD i 0

end FindElement

namespace PiOmp

/-! ## `src/openmp/pi_omp_v1_false_sharing.c`, `pi_omp_v2_synchronization.c`, `pi_omp_v3_reduction.c`

The three programs integrate `4 / (1 + x * x)` over `[0, 1]` by the midpoint
rule with `num_steps` intervals.  The `double` values are taken as exact
rationals.  The loop counter `i` is a 32 bit `int`.  An addition that leaves
the range of `int` is undefined in C; the model gives it the result of the
two's complement hardware, which wraps around modulo `2 ^ 32`.  `num_steps` is
a `long` that is not negative, the comparison `i < num_steps` is made in
`long`.
`num_steps` and the team size `nthrds` that `omp_get_num_threads()` returns
are parameters. -/

/-- Source: `INT_MAX` of `<limits.h>` for a 32 bit `int`. -/
def INT_MAX : Nat := 2147483647

/-- The value an `int` holds after an addition whose exact result is `x`:
`x` itself inside `-INT_MAX - 1 .. INT_MAX`, and `x` modulo `2 ^ 32` brought
into that range outside of it. -/
def wrap (x : Int) : Int :=
  (x + ((INT_MAX : Int) + 1)) % (2 * ((INT_MAX : Int) + 1)) - ((INT_MAX : Int) + 1)

/-- Source: `step = 1.0 / (double)num_steps;`. -/
def step (num_steps : Nat) : ℚ := 1 / (num_steps : ℚ)

/-- Source: the body of the loop of all three versions,
`x = (i + 0.5) * step;` and the term `4.0 / (1.0 + x * x)` it adds. -/
def term (stp : ℚ) (i : Int) : ℚ :=
  let x := ((i : ℚ) + 1 / 2) * stp
  4 / (1 + x * x)

/-- State of the loop of one thread in versions 1 and 2: the counter `i`, the
accumulator (`sum[id]` in version 1, `local_sum` in version 2), and the
values of `i` for which the body has run, oldest first. -/
structure Loop where
  i : Int
  sum : ℚ
  visited : List Int

/-- Source: `for (i = id; i < num_steps; i += nthrds) { x = (i + 0.5) * step;
sum += 4.0 / (1.0 + x * x); }` of versions 1 and 2, run from the state `st`
for at most `fuel` iterations: `none` when the loop has not ended by then. -/
def cyclicLoop (num_steps nthrds : Nat) (stp : ℚ) : Nat → Loop → Option Loop
  | 0, st => if st.i < (num_steps : Int) then none else some st
  | fuel + 1, st =>
    if st.i < (num_steps : Int) then
      cyclicLoop num_steps nthrds stp fuel
        ⟨wrap (st.i + (nthrds : Int)), st.sum + term stp st.i, st.visited ++ [st.i]⟩
    else some st

/-- The loop of the thread `id` of a team of `nthrds`, from `i = id` and an
accumulator of `0.0`, given `num_steps` iterations to end, the most a loop
makes whose counter does not wrap around. -/
def threadLoop (num_steps nthrds : Nat) (stp : ℚ) (id : Nat) : Option Loop :=
  cyclicLoop num_steps nthrds stp num_steps ⟨(id : Int), 0, []⟩

/-- Values of `i` the thread `id` runs the body for, in order. -/
def visitedBy (num_steps nthrds : Nat) (stp : ℚ) (id : Nat) : List Int :=
  match threadLoop num_steps nthrds stp id with
  | some st => st.visited
  | none => []

/-- The partial sum of the thread `id`: `sum[id]` of version 1, `local_sum` of
version 2, when its loop has ended. -/
def local_sum (num_steps nthrds : Nat) (stp : ℚ) (id : Nat) : ℚ :=
  match threadLoop num_steps nthrds stp id with
  | some st => st.sum
  | none => 0

/-- The statement `pi += sum * step` for the partial sum of the thread `id`:
`pi += sum[i] * step` in version 1, `pi += local_sum * step` in version 2.
There is no value when the loop of that thread has not ended. -/
def addLocal (num_steps nthrds : Nat) (pi : Option ℚ) (id : Nat) : Option ℚ :=
  match pi, threadLoop num_steps nthrds (step num_steps) id with
  | some p, some st => some (p + st.sum * step num_steps)
  | _, _ => none

/-- Source: `main` of `pi_omp_v1_false_sharing.c` for a team of `nthrds`
threads: every thread fills its `sum[id]`, then
`for (i = 0, pi = 0.0; i < nthreads; ++i) pi += sum[i] * step;`. -/
def pi_v1 (num_steps nthrds : Nat) : Option ℚ :=
  (List.range nthrds).foldl (addLocal num_steps nthrds) (some 0)

/-- Source: `main` of `pi_omp_v2_synchronization.c` for a team of `nthrds`
threads: `pi = 0.0`, and every thread adds `local_sum * step` inside the
critical section; `order` is the order in which the threads enter it. -/
def pi_v2 (num_steps nthrds : Nat) (order : List Nat) : Option ℚ :=
  order.foldl (addLocal num_steps nthrds) (some 0)

/-- Source: the loop of `pi_omp_v3_reduction.c`,
`for (i = 0; i < num_steps; ++i) { x = (i + 0.5) * step;
sum += 4.0 / (1.0 + x * x); }` from `sum = 0.0`, when the `int i` can count
up to `num_steps`.  When `num_steps` exceeds `INT_MAX` the number of
iterations of the work-shared loop does not fit its variable and there is no
value. -/
def sum_v3 (num_steps : Nat) (stp : ℚ) : Option ℚ :=
  if num_steps ≤ INT_MAX then
    some ((List.range num_steps).foldl (fun sum (i : Nat) => sum + term stp (i : Int)) 0)
  else none

/-- The same loop under `#pragma omp parallel for reduction (+:sum)` in a team
of `nthrds` threads, iteration `i` being given to the thread `owner i`: every
thread adds the terms of its iterations to a private copy that starts at 0,
and the private copies are added to the original `sum = 0.0`. -/
def reduction_v3 (num_steps nthrds : Nat) (owner : Nat → Nat) (stp : ℚ) : Option ℚ :=
  if num_steps ≤ INT_MAX then
    some ((List.range nthrds).foldl (fun sum t => sum +
      ((List.range num_steps).filter (fun i => owner i = t)).foldl
        (fun s (i : Nat) => s + term stp (i : Int)) 0) 0)
  else none

/-- Source: `pi = step * sum;` of `pi_omp_v3_reduction.c`. -/
def pi_v3 (num_steps : Nat) : Option ℚ :=
  (sum_v3 num_steps (step num_steps)).map (fun sum => step num_steps * sum)

end PiOmp

/-! # Proofs -/

namespace MasterSlave

/-! ## The master on its own -/

theorem CountInv_init (ws W : Nat) (h : 1 ≤ ws) : CountInv ws W (Master.init W) := by
  simp [CountInv, Master.init, workCount, dieCount, recvCount]
  omega

theorem CountInv_step (ws W : Nat) (hws : 1 ≤ ws) (m : Master) (inp : Nat × Msg)
    (h : CountInv ws W m) : CountInv ws W (masterStep ws m inp).1 := by
  obtain ⟨pc, rank, work, result, source, log⟩ := m
  obtain ⟨h1, h2, h3⟩ := h
  cases pc <;> simp only [CountInv, masterStep] at h1 h2 h3 ⊢
  all_goals (try split)
  all_goals simp [-List.countP_eq_zero, workCount, dieCount, recvCount, isRecv, isWorkSend,
    isDieSend, List.countP_append, WORKTAG, DIETAG] at h1 h2 h3 ⊢
  all_goals omega

theorem BalInv_init (ws W : Nat) : BalInv ws (Master.init W) := by
  intro r
  simp [Master.init, workTo, dieTo, recvFrom, held, started, served]
  omega

theorem BalInv_step (ws W : Nat) (m : Master) (inp : Nat × Msg)
    (hc : CountInv ws W m) (h : BalInv ws m) : BalInv ws (masterStep ws m inp).1 := by
  intro r
  have hr := h r
  obtain ⟨pc, rank, work, result, source, log⟩ := m
  obtain ⟨-, -, h3⟩ := hc
  cases pc <;> simp only [CountInv, masterStep, held, started, served] at h3 hr ⊢
  all_goals (try split)
  all_goals simp only [workTo, dieTo, recvFrom, isWorkTo, isDieTo, isRecvFrom,
    List.countP_append, List.countP_cons, List.countP_nil, WORKTAG, DIETAG] at hr ⊢
  all_goals simp at hr ⊢
  all_goals split_ifs at hr ⊢
  all_goals omega

theorem workSends_append (l1 l2 : List Event) :
    workSends (l1 ++ l2) = workSends l1 ++ workSends l2 := by
  induction l1 with
  | nil => simp [workSends]
  | cons e l ih =>
    cases e with
    | send d t p => by_cases ht : t = WORKTAG <;> simp [workSends, ht, ih]
    | recv a b c => simpa [workSends] using ih
    | call a => simpa [workSends] using ih

theorem workSends_length (l : List Event) : (workSends l).length = workCount l := by
  induction l with
  | nil => simp [workSends, workCount]
  | cons e l ih =>
    cases e with
    | send d t p =>
      by_cases ht : t = WORKTAG <;>
        simp [workSends, workCount, List.countP_cons, isWorkSend, ht] at ih ⊢ <;> exact ih
    | recv a b c => simpa [workSends, workCount, List.countP_cons, isWorkSend] using ih
    | call a => simpa [workSends, workCount, List.countP_cons, isWorkSend] using ih

theorem OrderInv_init (ws W : Nat) : OrderInv ws W (Master.init W) := by
  simp [OrderInv, Master.init, workSends, workCount, served]

theorem OrderInv_step (ws W : Nat) (m : Master) (inp : Nat × Msg)
    (hc : CountInv ws W m) (h : OrderInv ws W m) : OrderInv ws W (masterStep ws m inp).1 := by
  obtain ⟨pc, rank, work, result, source, log⟩ := m
  obtain ⟨h1, h2⟩ := h
  obtain ⟨c1, -, c3⟩ := hc
  have hlen := workSends_length log
  cases pc <;> simp only [CountInv, OrderInv, masterStep, served] at h1 h2 c1 c3 ⊢
  case initTest =>
    split
    · exact ⟨h1, h2⟩
    · have : rank = ws := by omega
      subst this
      exact ⟨h1, h2⟩
  case initSend =>
    have hn : workCount log = rank - 1 := by omega
    have hw : work = (W : Int) - 1 - ((rank - 1 : Nat) : Int) := by omega
    have hr : rank + 1 - 1 = (rank - 1) + 1 := by omega
    have hc1 : workCount (log ++ [Event.send rank WORKTAG (some work)]) = workCount log + 1 := by
      simp [workCount, List.countP_append, isWorkSend]
    rw [hc1, hr]
    simp only [workSends_append, workSends, if_true, List.map_append, List.range_succ,
      List.map_cons, List.map_nil, h1]
    refine ⟨by rw [hn, hw], ?_⟩
    rw [List.take_of_length_le (by simp; omega)]
    rw [List.take_of_length_le (by omega)] at h2
    rw [h2, hw, show rank - 1 + 1 = rank by omega]
  case workTest =>
    split <;> exact ⟨h1, h2⟩
  case workRecv =>
    simpa [workSends_append, workSends, workCount, List.countP_append, isWorkSend] using ⟨h1, h2⟩
  case workSend =>
    have hw : work = (W : Int) - 1 - ((workCount log : Nat) : Int) := by omega
    have hc1 : workCount (log ++ [Event.send source WORKTAG (some work)]) = workCount log + 1 := by
      simp [workCount, List.countP_append, isWorkSend]
    rw [hc1]
    simp only [workSends_append, workSends, if_true, List.map_append, List.range_succ,
      List.map_cons, List.map_nil, h1]
    refine ⟨by rw [← hw], ?_⟩
    rw [List.take_append_of_le_length (by omega)]
    exact h2
  case drainTest =>
    split <;> exact ⟨h1, h2⟩
  case drainRecv =>
    simpa [workSends_append, workSends, workCount, List.countP_append, isWorkSend] using ⟨h1, h2⟩
  case drainSend =>
    simpa [workSends_append, workSends, workCount, List.countP_append, isWorkSend, WORKTAG,
      DIETAG] using ⟨h1, h2⟩
  case returned => exact ⟨h1, h2⟩


theorem masterFuel_step (ws : Nat) (m : Master) (inp : Nat × Msg) (h : m.pc ≠ .returned) :
    masterFuel ws (masterStep ws m inp).1 + (if (masterStep ws m inp).2 = none then 1 else 3)
      ≤ masterFuel ws m := by
  obtain ⟨pc, rank, work, result, source, log⟩ := m
  by_cases h1 : rank < ws <;> by_cases h2 : 0 ≤ work <;> cases pc <;>
    simp [masterStep, masterFuel, h1, h2] at h ⊢ <;> omega

theorem masterStep_returned (ws : Nat) (m : Master) (inp : Nat × Msg) (h : m.pc = .returned) :
    (masterStep ws m inp).1 = m := by
  simp [masterStep, h]

theorem masterRun_returned (ws : Nat) (answers : Nat → Nat × Msg) (n : Nat) (m : Master)
    (h : m.pc = .returned) : masterRun ws answers n m = m := by
  induction n with
  | zero => rfl
  | succ n ih => simp [masterRun, masterStep_returned ws m _ h, ih]

theorem masterRun_finishes (ws : Nat) (answers : Nat → Nat × Msg) :
    ∀ (n : Nat) (m : Master), masterFuel ws m ≤ n → (masterRun ws answers n m).pc = .returned := by
  intro n
  induction n with
  | zero =>
    intro m hm
    obtain ⟨pc, rank, work, result, source, log⟩ := m
    cases pc <;> simp [masterFuel, masterRun] at hm ⊢
  | succ n ih =>
    intro m hm
    by_cases hp : m.pc = .returned
    · rw [masterRun_returned ws answers _ m hp]; exact hp
    · simp only [masterRun]
      apply ih
      have := masterFuel_step ws m (answers (recvCount m.log)) hp
      split at this <;> omega

theorem masterRun_inv (ws : Nat) (answers : Nat → Nat × Msg) (P : Master → Prop)
    (hstep : ∀ m inp, P m → P (masterStep ws m inp).1) :
    ∀ (n : Nat) (m : Master), P m → P (masterRun ws answers n m) := by
  intro n
  induction n with
  | zero => intro m h; exact h
  | succ n ih => intro m h; exact ih _ (hstep m _ h)

theorem MasterInv_init (ws W : Nat) (h : 1 ≤ ws) : MasterInv ws W (Master.init W) :=
  ⟨CountInv_init ws W h, BalInv_init ws W, OrderInv_init ws W⟩

theorem MasterInv_step (ws W : Nat) (hws : 1 ≤ ws) (m : Master) (inp : Nat × Msg)
    (h : MasterInv ws W m) : MasterInv ws W (masterStep ws m inp).1 :=
  ⟨CountInv_step ws W hws m inp h.1, BalInv_step ws W m inp h.1 h.2.1,
    OrderInv_step ws W m inp h.1 h.2.2⟩

theorem MasterInv_run (ws W : Nat) (hws : 1 ≤ ws) (answers : Nat → Nat × Msg) (n : Nat) :
    MasterInv ws W (masterRun ws answers n (Master.init W)) :=
  masterRun_inv ws answers (MasterInv ws W) (fun m inp h => MasterInv_step ws W hws m inp h) n _
    (MasterInv_init ws W hws)

/-- Counters of a master that has returned: as many `WORKTAG` sends and as many
receives as the larger of `W` and the number of slaves, one `DIETAG` per slave. -/
theorem returned_counts (ws W : Nat) (m : Master) (h : CountInv ws W m)
    (hp : m.pc = .returned) :
    workCount m.log = max W (ws - 1) ∧ dieCount m.log = ws - 1 ∧
      recvCount m.log = max W (ws - 1) := by
  obtain ⟨pc, rank, work, result, source, log⟩ := m
  obtain ⟨h1, h2, h3⟩ := h
  simp only at hp
  subst hp
  simp only [CountInv] at h1 h2 h3 ⊢
  omega

theorem master_returns (ws W : Nat) (answers : Nat → Nat × Msg) :
    (masterRun ws answers (masterFuel ws (Master.init W)) (Master.init W)).pc = .returned :=
  masterRun_finishes ws answers _ _ (le_refl _)

theorem step_cases (ws : Nat) (s s1 : System) (a : Action) (h : step ws s a = some s1) :
    (∃ src, a = .master src ∧ s.master.pc ≠ .returned ∧ s.master.receiving = false ∧
      s1 = ⟨(masterStep ws s.master (0, ⟨0, none⟩)).1,
            deliver s.worker (masterStep ws s.master (0, ⟨0, none⟩)).2⟩) ∨
    (∃ src msg rest, a = .master src ∧ s.master.receiving = true ∧
      (s.worker src).outbox = msg :: rest ∧
      s1 = ⟨(masterStep ws s.master (src, msg)).1,
            Function.update s.worker src { s.worker src with outbox := rest }⟩) ∨
    (∃ r msg rest, a = .slave r ∧ 1 ≤ r ∧ r < ws ∧ (s.worker r).slave.pc = .recv ∧
      (s.worker r).inbox = msg :: rest ∧
      s1 = ⟨s.master, Function.update s.worker r
            { s.worker r with slave := slaveRecv (s.worker r).slave msg, inbox := rest }⟩) ∨
    (∃ r, a = .slave r ∧ 1 ≤ r ∧ r < ws ∧ (s.worker r).slave.pc = .call ∧
      s1 = ⟨s.master, Function.update s.worker r
            { s.worker r with
                slave := (slaveCall r (s.worker r).slave).1
                outbox := (s.worker r).outbox ++ toMaster (slaveCall r (s.worker r).slave).2 }⟩) := by
  cases a with
  | master src =>
    simp only [step] at h
    split at h
    · exact absurd h (by simp)
    · rename_i hpc
      split at h
      · rename_i hrecv
        split at h
        · exact absurd h (by simp)
        · rename_i msg rest hout
          right; left
          exact ⟨src, msg, rest, rfl, hrecv, hout, by simpa using h.symm⟩
      · rename_i hrecv
        left
        exact ⟨src, rfl, hpc, by simpa using hrecv, by simpa using h.symm⟩
  | slave r =>
    simp only [step] at h
    split at h
    · rename_i hr
      split at h
      · rename_i hpc
        split at h
        · exact absurd h (by simp)
        · rename_i msg rest hin
          right; right; left
          exact ⟨r, msg, rest, rfl, hr.1, hr.2, hpc, hin, by simpa using h.symm⟩
      · rename_i hpc
        right; right; right
        exact ⟨r, rfl, hr.1, hr.2, hpc, by simpa using h.symm⟩
      · exact absurd h (by simp)
    · exact absurd h (by simp)

theorem ShapeAt_other (log : List Event) (e : Event) (w : Worker) (r : Nat)
    (h1 : isWorkTo r e = false) (h2 : isDieTo r e = false) (h3 : isRecvFrom r e = false)
    (h : ShapeAt log w r) : ShapeAt (log ++ [e]) w r := by
  simpa [-List.countP_eq_zero, ShapeAt, workTo, dieTo, recvFrom, List.countP_append,
    List.countP_cons, h1, h2, h3] using h

theorem ShapeAt_quiet (log : List Event) (w : Worker) (r : Nat) (h : ShapeAt log w r)
    (hb : workTo r log + dieTo r log ≤ recvFrom r log) :
    dieTo r log = 0 ∧ workTo r log = recvFrom r log ∧ Quiet w := by
  rcases h with ⟨h1, h2, -⟩ | h | ⟨h1, h2, -⟩
  · omega
  · exact h
  · omega

theorem ShapeAt_send_work (log : List Event) (w : Worker) (r : Nat) (v : Int)
    (hq : dieTo r log = 0 ∧ workTo r log = recvFrom r log ∧ Quiet w) :
    ShapeAt (log ++ [Event.send r WORKTAG (some v)])
      { w with inbox := w.inbox ++ [⟨WORKTAG, some v⟩] } r := by
  obtain ⟨h1, h2, h3, h4, h5⟩ := hq
  left
  refine ⟨?_, ?_, Or.inl ⟨⟨v, by simp [h3]⟩, h4, h5⟩⟩
  · simpa [-List.countP_eq_zero, dieTo, List.countP_append, isDieTo, WORKTAG, DIETAG] using h1
  · simpa [workTo, recvFrom, List.countP_append, isWorkTo, isRecvFrom] using h2

theorem ShapeAt_send_die (log : List Event) (w : Worker) (r : Nat)
    (hq : dieTo r log = 0 ∧ workTo r log = recvFrom r log ∧ Quiet w) :
    ShapeAt (log ++ [Event.send r DIETAG none])
      { w with inbox := w.inbox ++ [⟨DIETAG, none⟩] } r := by
  obtain ⟨h1, h2, h3, h4, h5⟩ := hq
  right; right
  refine ⟨?_, ?_, h5, Or.inl ⟨by simp [h3], h4⟩⟩
  · simpa [-List.countP_eq_zero, dieTo, List.countP_append, isDieTo] using h1
  · simpa [workTo, recvFrom, List.countP_append, isWorkTo, isRecvFrom, WORKTAG, DIETAG] using h2

theorem ShapeAt_master_recv (log : List Event) (w : Worker) (r : Nat) (msg : Msg)
    (rest : List Msg) (t : Int) (p : Option Int) (h : ShapeAt log w r)
    (hout : w.outbox = msg :: rest) :
    (dieTo r log = 0 ∧ workTo r log = recvFrom r log + 1) ∧
    ShapeAt (log ++ [Event.recv r t p]) { w with outbox := rest } r := by
  rcases h with ⟨h1, h2, h3⟩ | ⟨-, -, -, -, h3⟩ | ⟨-, -, h3, -⟩
  · rcases h3 with ⟨-, -, h3⟩ | ⟨-, -, h3⟩ | ⟨h3, h4, m1, h5⟩
    · simp [h3] at hout
    · simp [h3] at hout
    · refine ⟨⟨h1, h2⟩, Or.inr (Or.inl ⟨?_, ?_, h3, h4, ?_⟩)⟩
      · simpa [-List.countP_eq_zero, dieTo, List.countP_append, isDieTo] using h1
      · simpa [workTo, recvFrom, List.countP_append, isWorkTo, isRecvFrom] using h2
      · rw [h5] at hout
        simp at hout
        simp [hout.2]
  · simp [h3] at hout
  · simp [h3] at hout

theorem ShapeAt_slave_recv (log : List Event) (w : Worker) (r : Nat) (msg : Msg)
    (rest : List Msg) (h : ShapeAt log w r) (hin : w.inbox = msg :: rest) :
    ShapeAt log { w with slave := slaveRecv w.slave msg, inbox := rest } r := by
  rcases h with ⟨h1, h2, h3⟩ | ⟨-, -, h3, -, -⟩ | ⟨h1, h2, h3, h4⟩
  · rcases h3 with ⟨⟨v, h3⟩, -, h5⟩ | ⟨h3, -, -⟩ | ⟨h3, -, -⟩
    · rw [h3] at hin
      simp at hin
      obtain ⟨rfl, rfl⟩ := hin
      exact Or.inl ⟨h1, h2, Or.inr (Or.inl ⟨rfl, by simp [slaveRecv, WORKTAG, DIETAG], h5⟩)⟩
    · simp [h3] at hin
    · simp [h3] at hin
  · simp [h3] at hin
  · rcases h4 with ⟨h4, -⟩ | ⟨h4, -, -⟩
    · rw [h4] at hin
      simp at hin
      obtain ⟨rfl, rfl⟩ := hin
      exact Or.inr (Or.inr ⟨h1, h2, h3, Or.inr ⟨rfl, by simp [slaveRecv], none,
        by simp [slaveRecv]⟩⟩)
    · simp [h4] at hin

theorem tab_func_sends (w : Int) (f : Proc) (h : tab_func w = some f) (rank : Nat) (s : Slave) :
    0 ≤ w ∧ w ≤ 4 ∧ f rank s = [(0, ⟨0, some w⟩)] := by
  unfold tab_func at h
  split_ifs at h <;> simp at h <;> subst h <;> simp_all [func0, func1, func2, func3, func4]

theorem tab_func_in_range (w : Int) (h0 : 0 ≤ w) (h4 : w ≤ 4) : ∃ f, tab_func w = some f := by
  have : w = 0 ∨ w = 1 ∨ w = 2 ∨ w = 3 ∨ w = 4 := by omega
  rcases this with rfl | rfl | rfl | rfl | rfl <;> simp [tab_func]

theorem slaveCall_cases (rank : Nat) (s : Slave) :
    ((slaveCall rank s).1.pc = .fault ∧ (slaveCall rank s).2 = [] ∧
      (slaveCall rank s).1.log = s.log ∧ (slaveCall rank s).1.work = s.work ∧
      ∀ v, s.work = some v → ¬ (0 ≤ v ∧ v ≤ 4)) ∨
    (∃ v, s.work = some v ∧ 0 ≤ v ∧ v ≤ 4 ∧ (slaveCall rank s).1.pc = .recv ∧
      (slaveCall rank s).2 = [(0, ⟨0, some v⟩)] ∧ (slaveCall rank s).1.work = s.work ∧
      (slaveCall rank s).1.log = s.log ++ [Event.call v, Event.send 0 0 (some v)]) := by
  unfold slaveCall
  cases hw : s.work with
  | none => left; simp
  | some v =>
    cases hf : tab_func v with
    | none =>
      left
      refine ⟨by simp [hf], by simp [hf], by simp [hf], by simp [hf], ?_⟩
      intro v1 hv1 hr
      simp at hv1
      subst hv1
      obtain ⟨f, hf1⟩ := tab_func_in_range v hr.1 hr.2
      simp [hf1] at hf
    | some f =>
      right
      obtain ⟨h0, h4, hout⟩ := tab_func_sends v f hf rank s
      exact ⟨v, rfl, h0, h4, by simp [hf], by simp [hf, hout], by simp [hf],
        by simp [hf, hout, sendEvents]⟩

theorem ShapeAt_slave_call (log : List Event) (w : Worker) (r : Nat) (h : ShapeAt log w r)
    (hpc : w.slave.pc = .call) :
    ShapeAt log { w with slave := (slaveCall r w.slave).1,
                         outbox := w.outbox ++ toMaster (slaveCall r w.slave).2 } r := by
  rcases h with ⟨h1, h2, h3⟩ | ⟨-, -, -, h3, -⟩ | ⟨-, -, -, h4⟩
  · rcases h3 with ⟨-, h3, -⟩ | ⟨h3, -, h5⟩ | ⟨-, h3, -⟩
    · simp [h3] at hpc
    · refine Or.inl ⟨h1, h2, ?_⟩
      rcases slaveCall_cases r w.slave with ⟨c1, c2, -⟩ | ⟨v, -, -, -, c1, c2, -⟩
      · exact Or.inr (Or.inl ⟨h3, Or.inr c1, by simp [c2, h5, toMaster]⟩)
      · exact Or.inr (Or.inr ⟨h3, c1, ⟨0, some v⟩, by simp [c2, h5, toMaster]⟩)
    · simp [h3] at hpc
  · simp [h3] at hpc
  · rcases h4 with ⟨-, h4⟩ | ⟨-, h4, -⟩ <;> simp [h4] at hpc

theorem ShapeInv_step (ws : Nat) (s s1 : System) (a : Action)
    (hb : BalInv ws s.master) (h : ShapeInv s) (hs : step ws s a = some s1) : ShapeInv s1 := by
  rcases step_cases ws s s1 a hs with ⟨src, -, hpc, hrecv, rfl⟩ | ⟨src, msg, rest, -, hrecv, hout, rfl⟩ |
    ⟨r0, msg, rest, -, -, -, hpc, hin, rfl⟩ | ⟨r0, -, -, -, hpc, rfl⟩
  · -- the master takes a step that is not a receive
    obtain ⟨m, wk⟩ := s
    obtain ⟨pc, rank, work, result, source, log⟩ := m
    intro r
    have hr := h r
    have hbr := hb r
    simp only at hr hbr hpc hrecv
    cases pc
    case initTest =>
      by_cases hlt : rank < ws <;> simpa [masterStep, deliver, hlt] using hr
    case workTest =>
      by_cases hlt : 0 ≤ work <;> simpa [masterStep, deliver, hlt] using hr
    case drainTest =>
      by_cases hlt : rank < ws <;> simpa [masterStep, deliver, hlt] using hr
    case returned => exact absurd rfl hpc
    case workRecv => simp [Master.receiving] at hrecv
    case drainRecv => simp [Master.receiving] at hrecv
    case initSend =>
      simp only [masterStep, deliver]
      by_cases hrr : r = rank
      · subst hrr
        simp only [Function.update_same]
        apply ShapeAt_send_work
        apply ShapeAt_quiet _ _ _ hr
        simp [held, started, served] at hbr
        omega
      · rw [Function.update_noteq hrr]
        apply ShapeAt_other _ _ _ _ _ _ _ hr <;> simp [isWorkTo, isDieTo, isRecvFrom, Ne.symm hrr]
    case workSend =>
      simp only [masterStep, deliver]
      by_cases hrr : r = source
      · subst hrr
        simp only [Function.update_same]
        apply ShapeAt_send_work
        apply ShapeAt_quiet _ _ _ hr
        simp [held, started, served] at hbr
        split_ifs at hbr <;> omega
      · rw [Function.update_noteq hrr]
        apply ShapeAt_other _ _ _ _ _ _ _ hr <;> simp [isWorkTo, isDieTo, isRecvFrom, Ne.symm hrr]
    case drainSend =>
      simp only [masterStep, deliver]
      by_cases hrr : r = source
      · subst hrr
        simp only [Function.update_same]
        apply ShapeAt_send_die
        apply ShapeAt_quiet _ _ _ hr
        simp [held, started, served] at hbr
        split_ifs at hbr <;> omega
      · rw [Function.update_noteq hrr]
        apply ShapeAt_other _ _ _ _ _ _ _ hr <;> simp [isWorkTo, isDieTo, isRecvFrom, Ne.symm hrr]
  · -- the master receives from `src`
    obtain ⟨m, wk⟩ := s
    obtain ⟨pc, rank, work, result, source, log⟩ := m
    intro r
    have hr := h r
    simp only at hr hrecv hout
    have key : ShapeAt (log ++ [Event.recv src msg.tag msg.payload])
        (Function.update wk src { wk src with outbox := rest } r) r := by
      by_cases hrr : r = src
      · subst hrr
        simp only [Function.update_same]
        exact (ShapeAt_master_recv _ _ _ _ _ _ _ hr hout).2
      · rw [Function.update_noteq hrr]
        apply ShapeAt_other _ _ _ _ _ _ _ hr <;> simp [isWorkTo, isDieTo, isRecvFrom, Ne.symm hrr]
    cases pc <;> simp [Master.receiving] at hrecv
    · simpa [masterStep] using key
    · simpa [masterStep] using key
  · -- a slave receives
    intro r
    have hr := h r
    simp only
    by_cases hrr : r = r0
    · subst hrr
      simp only [Function.update_same]
      exact ShapeAt_slave_recv _ _ _ _ _ hr hin
    · rw [Function.update_noteq hrr]; exact hr
  · -- a slave calls
    intro r
    have hr := h r
    simp only
    by_cases hrr : r = r0
    · subst hrr
      simp only [Function.update_same]
      exact ShapeAt_slave_call _ _ _ hr hpc
    · rw [Function.update_noteq hrr]; exact hr

theorem step_master (ws : Nat) (s s1 : System) (a : Action) (hs : step ws s a = some s1) :
    s1.master = s.master ∨ ∃ inp, s1.master = (masterStep ws s.master inp).1 := by
  rcases step_cases ws s s1 a hs with ⟨src, -, -, -, rfl⟩ | ⟨src, msg, rest, -, -, -, rfl⟩ |
    ⟨r0, msg, rest, -, -, -, -, -, rfl⟩ | ⟨r0, -, -, -, -, rfl⟩
  · exact Or.inr ⟨_, rfl⟩
  · exact Or.inr ⟨_, rfl⟩
  · exact Or.inl rfl
  · exact Or.inl rfl

theorem MasterInv_sys_step (ws W : Nat) (hws : 1 ≤ ws) (s s1 : System) (a : Action)
    (h : MasterInv ws W s.master) (hs : step ws s a = some s1) : MasterInv ws W s1.master := by
  rcases step_master ws s s1 a hs with h1 | ⟨inp, h1⟩
  · rw [h1]; exact h
  · rw [h1]; exact MasterInv_step ws W hws _ _ h

theorem RangeAt_push (w : Worker) (msg : Msg) (h : RangeAt w) (hg : GoodMsg msg) :
    RangeAt { w with inbox := w.inbox ++ [msg] } := by
  refine ⟨?_, h.2.1, h.2.2⟩
  intro m1 hm1
  simp only [List.mem_append, List.mem_singleton] at hm1
  rcases hm1 with hm1 | rfl
  · exact h.1 m1 hm1
  · exact hg

theorem RangeInv_step (ws W : Nat) (hws : 1 ≤ ws) (hK : ws ≤ W + 1) (hW : W ≤ 5)
    (s s1 : System) (a : Action)
    (hc : CountInv ws W s.master) (h : RangeInv s) (hs : step ws s a = some s1) :
    RangeInv s1 := by
  rcases step_cases ws s s1 a hs with ⟨src, -, hpc, hrecv, rfl⟩ | ⟨src, msg, rest, -, hrecv, hout, rfl⟩ |
    ⟨r0, msg, rest, -, -, -, hpc, hin, rfl⟩ | ⟨r0, -, -, -, hpc, rfl⟩
  · obtain ⟨m, wk⟩ := s
    obtain ⟨pc, rank, work, result, source, log⟩ := m
    intro r
    have hr := h r
    obtain ⟨-, -, c3⟩ := hc
    simp only [CountInv] at hr c3
    cases pc
    case initTest =>
      by_cases hlt : rank < ws <;> simpa [masterStep, deliver, hlt] using hr
    case workTest =>
      by_cases hlt : 0 ≤ work <;> simpa [masterStep, deliver, hlt] using hr
    case drainTest =>
      by_cases hlt : rank < ws <;> simpa [masterStep, deliver, hlt] using hr
    case returned => simpa [masterStep, deliver] using hr
    case workRecv => simp [Master.receiving] at hrecv
    case drainRecv => simp [Master.receiving] at hrecv
    case initSend =>
      simp only [masterStep, deliver]
      by_cases hrr : r = rank
      · subst hrr
        simp only [Function.update_same]
        exact RangeAt_push _ _ hr (Or.inr ⟨work, rfl, by omega, by omega⟩)
      · rw [Function.update_noteq hrr]; exact hr
    case workSend =>
      simp only [masterStep, deliver]
      by_cases hrr : r = source
      · subst hrr
        simp only [Function.update_same]
        exact RangeAt_push _ _ hr (Or.inr ⟨work, rfl, by omega, by omega⟩)
      · rw [Function.update_noteq hrr]; exact hr
    case drainSend =>
      simp only [masterStep, deliver]
      by_cases hrr : r = source
      · subst hrr
        simp only [Function.update_same]
        exact RangeAt_push _ _ hr (Or.inl rfl)
      · rw [Function.update_noteq hrr]; exact hr
  · intro r
    have hr := h r
    simp only
    by_cases hrr : r = src
    · subst hrr
      simp only [Function.update_same]
      exact hr
    · rw [Function.update_noteq hrr]; exact hr
  · intro r
    have hr := h r
    simp only
    by_cases hrr : r = r0
    · subst hrr
      simp only [Function.update_same]
      obtain ⟨h1, -, -⟩ := hr
      rw [hin] at h1
      refine ⟨fun m1 hm1 => h1 m1 (List.mem_cons_of_mem _ hm1), ?_, ?_⟩
      · rcases h1 msg (List.mem_cons_self _ _) with rfl | ⟨v, rfl, h0, h4⟩
        · simp [slaveRecv]
        · intro _
          exact ⟨v, by simp [slaveRecv, recvInto], h0, h4⟩
      · simp only [slaveRecv]
        split <;> simp
    · rw [Function.update_noteq hrr]; exact hr
  · intro r
    have hr := h r
    simp only
    by_cases hrr : r = r0
    · subst hrr
      simp only [Function.update_same]
      obtain ⟨h1, h2, -⟩ := hr
      obtain ⟨v, hv, h0, h4⟩ := h2 hpc
      rcases slaveCall_cases r (s.worker r).slave with ⟨-, -, -, -, c5⟩ | ⟨v1, -, -, -, c1, -⟩
      · exact absurd ⟨h0, h4⟩ (c5 v hv)
      · exact ⟨h1, by simp [c1], by simp [c1]⟩
    · rw [Function.update_noteq hrr]; exact hr

theorem sum_range_update (f g : Nat → Nat) (r0 : Nat) (hfg : ∀ r, r ≠ r0 → g r = f r) (n : Nat) :
    ((List.range n).map g).sum + (if r0 < n then f r0 else 0) =
      ((List.range n).map f).sum + (if r0 < n then g r0 else 0) := by
  induction n with
  | zero => simp
  | succ n ih =>
    simp only [List.range_succ, List.map_append, List.sum_append, List.map_cons, List.map_nil,
      List.sum_cons, List.sum_nil]
    by_cases h1 : r0 < n
    · have h2 : r0 < n + 1 := by omega
      have h3 : n ≠ r0 := by omega
      simp only [h1, h2, if_true] at ih ⊢
      rw [hfg n h3]
      omega
    · by_cases h2 : r0 = n
      · subst h2
        simp at ih ⊢
        omega
      · have h3 : ¬ r0 < n + 1 := by omega
        simp only [h1, h3, if_false] at ih ⊢
        rw [hfg n (Ne.symm h2)]
        omega

theorem sum_range_congr (f g : Nat → Nat) (hfg : ∀ r, g r = f r) (n : Nat) :
    ((List.range n).map g).sum = ((List.range n).map f).sum := by
  have : g = f := funext hfg
  rw [this]

theorem step_decreases (ws : Nat) (s s1 : System) (a : Action) (hs : step ws s a = some s1) :
    systemFuel ws s1 < systemFuel ws s := by
  rcases step_cases ws s s1 a hs with ⟨src, -, hpc, hrecv, rfl⟩ | ⟨src, msg, rest, -, hrecv, hout, rfl⟩ |
    ⟨r0, msg, rest, -, -, hr0, hpc, hin, rfl⟩ | ⟨r0, -, -, hr0, hpc, rfl⟩
  · have hm := masterFuel_step ws s.master (0, ⟨0, none⟩) hpc
    simp only [systemFuel]
    cases hout : (masterStep ws s.master (0, ⟨0, none⟩)).2 with
    | none =>
      simp only [hout, if_true, deliver] at hm ⊢
      omega
    | some dm =>
      obtain ⟨d, m1⟩ := dm
      simp only [hout, deliver] at hm ⊢
      have hsum := sum_range_update (fun r => workerFuel (s.worker r))
        (fun r => workerFuel (Function.update s.worker d
          { s.worker d with inbox := (s.worker d).inbox ++ [m1] } r)) d
        (fun r hr => by simp [Function.update_noteq hr]) ws
      simp only [Function.update_same, workerFuel, List.length_append, List.length_singleton]
        at hsum ⊢
      simp at hm
      split_ifs at hsum <;> omega
  · have hpc : s.master.pc ≠ .returned := by
      intro h; simp [Master.receiving, h] at hrecv
    have hm := masterFuel_step ws s.master (src, msg) hpc
    simp only [systemFuel]
    rw [sum_range_congr (fun r => workerFuel (s.worker r))
      (fun r => workerFuel (Function.update s.worker src { s.worker src with outbox := rest } r))]
    · split_ifs at hm <;> omega
    · intro r
      by_cases hr : r = src
      · subst hr; simp [workerFuel]
      · simp [Function.update_noteq hr]
  · simp only [systemFuel]
    have hsum := sum_range_update (fun r => workerFuel (s.worker r))
      (fun r => workerFuel (Function.update s.worker r0
        { s.worker r0 with slave := slaveRecv (s.worker r0).slave msg, inbox := rest } r)) r0
      (fun r hr => by simp [Function.update_noteq hr]) ws
    simp only [Function.update_same, hr0, if_true] at hsum
    have e1 : workerFuel { s.worker r0 with
        slave := slaveRecv (s.worker r0).slave msg, inbox := rest } + 1 ≤
        workerFuel (s.worker r0) := by
      simp only [workerFuel, hin, hpc, List.length_cons]
      split_ifs <;> simp at * <;> omega
    dsimp only at hsum e1 ⊢
    omega
  · simp only [systemFuel]
    have hsum := sum_range_update (fun r => workerFuel (s.worker r))
      (fun r => workerFuel (Function.update s.worker r0
        { s.worker r0 with
            slave := (slaveCall r0 (s.worker r0).slave).1
            outbox := (s.worker r0).outbox ++ toMaster (slaveCall r0 (s.worker r0).slave).2 } r)) r0
      (fun r hr => by simp [Function.update_noteq hr]) ws
    simp only [Function.update_same, hr0, if_true] at hsum
    have hne : (slaveCall r0 (s.worker r0).slave).1.pc ≠ .call := by
      rcases slaveCall_cases r0 (s.worker r0).slave with ⟨c1, -⟩ | ⟨v, -, -, -, c1, -⟩ <;>
        simp [c1]
    have e1 : workerFuel { s.worker r0 with
        slave := (slaveCall r0 (s.worker r0).slave).1
        outbox := (s.worker r0).outbox ++ toMaster (slaveCall r0 (s.worker r0).slave).2 } + 1 ≤
        workerFuel (s.worker r0) := by
      simp only [workerFuel, hpc, hne, if_true, if_false]
      omega
    dsimp only at hsum e1 ⊢
    omega

theorem snoc_eq_split (log pre post : List Event) (e x : Event)
    (h : log ++ [e] = pre ++ x :: post) :
    (post = [] ∧ pre = log ∧ e = x) ∨ (∃ q, post = q ++ [e] ∧ log = pre ++ x :: q) := by
  rcases List.eq_nil_or_concat post with rfl | ⟨q, e1, rfl⟩
  · left
    have := List.append_inj' h (by simp)
    simp at this
    exact ⟨rfl, this.1.symm, this.2⟩
  · right
    have h1 : log ++ [e] = (pre ++ x :: q) ++ [e1] := by simpa using h
    have := List.append_inj' h1 (by simp)
    simp at this
    exact ⟨q, by simp [this.2], this.1⟩

theorem dieCount_pos_of_mem (pre post : List Event) (r : Nat) (p : Option Int) :
    0 < dieCount (pre ++ Event.send r DIETAG p :: post) := by
  simp [dieCount, List.countP_append, List.countP_cons, isDieSend]

theorem DieAfterResults_step (ws W : Nat) (m : Master) (inp : Nat × Msg)
    (hc : CountInv ws W m)
    (hq : m.pc = .drainSend → recvFrom m.source m.log = workTo m.source m.log)
    (h : DieAfterResults m.log) : DieAfterResults (masterStep ws m inp).1.log := by
  obtain ⟨pc, rank, work, result, source, log⟩ := m
  obtain ⟨-, -, c3⟩ := hc
  simp only [CountInv] at c3 hq h
  cases pc <;> simp only [masterStep]
  case initTest => by_cases hlt : rank < ws <;> simpa [hlt] using h
  case workTest => by_cases hlt : 0 ≤ work <;> simpa [hlt] using h
  case drainTest => by_cases hlt : rank < ws <;> simpa [hlt] using h
  case returned => exact h
  case initSend =>
    intro pre post r p heq
    rcases snoc_eq_split _ _ _ _ _ heq with ⟨-, -, h3⟩ | ⟨q, -, h2⟩
    · simp [WORKTAG, DIETAG] at h3
    · have := dieCount_pos_of_mem pre q r p
      rw [← h2] at this
      omega
  case workSend =>
    intro pre post r p heq
    rcases snoc_eq_split _ _ _ _ _ heq with ⟨-, -, h3⟩ | ⟨q, -, h2⟩
    · simp [WORKTAG, DIETAG] at h3
    · have := dieCount_pos_of_mem pre q r p
      rw [← h2] at this
      omega
  case workRecv =>
    intro pre post r p heq
    rcases snoc_eq_split _ _ _ _ _ heq with ⟨-, -, h3⟩ | ⟨q, h1, h2⟩
    · simp at h3
    · have := dieCount_pos_of_mem pre q r p
      rw [← h2] at this
      omega
  case drainRecv =>
    intro pre post r p heq
    rcases snoc_eq_split _ _ _ _ _ heq with ⟨-, -, h3⟩ | ⟨q, h1, h2⟩
    · simp at h3
    · obtain ⟨i1, i2⟩ := h pre q r p h2
      refine ⟨i1, ?_⟩
      rw [h1]
      simpa [-List.countP_eq_zero, workTo, List.countP_append, isWorkTo] using i2
  case drainSend =>
    intro pre post r p heq
    rcases snoc_eq_split _ _ _ _ _ heq with ⟨h1, h2, h3⟩ | ⟨q, h1, h2⟩
    · simp at h3
      obtain ⟨rfl, -⟩ := h3
      subst h1 h2
      exact ⟨hq rfl, by simp [workTo]⟩
    · obtain ⟨i1, i2⟩ := h pre q r p h2
      refine ⟨i1, ?_⟩
      rw [h1]
      simpa [-List.countP_eq_zero, workTo, List.countP_append, isWorkTo, WORKTAG, DIETAG]
        using i2

theorem sum_range_le_one (f : Nat → Nat) (h0 : f 0 = 0) (h1 : ∀ r, f r ≤ 1) (n : Nat) :
    ((List.range (n + 1)).map f).sum ≤ n ∧
    (((List.range (n + 1)).map f).sum = n → ∀ r, 1 ≤ r → r < n + 1 → f r = 1) := by
  induction n with
  | zero => exact ⟨by simp [List.range_succ, h0], fun _ r h1 h2 => by omega⟩
  | succ n ih =>
    rw [List.range_succ, List.map_append, List.sum_append]
    simp only [List.map_cons, List.map_nil, List.sum_cons, List.sum_nil, Nat.add_zero]
    have hn := h1 (n + 1)
    refine ⟨by omega, ?_⟩
    intro hs r hr1 hr2
    by_cases hrn : r = n + 1
    · subst hrn; omega
    · exact ih.2 (by omega) r hr1 (by omega)

theorem sum_range_all_one (f : Nat → Nat) (h0 : f 0 = 0) (n : Nat)
    (h1 : ∀ r, 1 ≤ r → r < n + 1 → f r = 1) : ((List.range (n + 1)).map f).sum = n := by
  induction n with
  | zero => simp [List.range_succ, h0]
  | succ n ih =>
    rw [List.range_succ, List.map_append, List.sum_append]
    simp only [List.map_cons, List.map_nil, List.sum_cons, List.sum_nil, Nat.add_zero]
    rw [ih (fun r hr1 hr2 => h1 r hr1 (by omega)), h1 (n + 1) (by omega) (by omega)]

theorem sum_range_indicator (d n : Nat) :
    ((List.range n).map (fun r => if d = r then 1 else 0)).sum = if d < n then 1 else 0 := by
  induction n with
  | zero => simp
  | succ n ih =>
    rw [List.range_succ, List.map_append, List.sum_append, ih]
    simp only [List.map_cons, List.map_nil, List.sum_cons, List.sum_nil, Nat.add_zero]
    split_ifs <;> omega

theorem dieCount_eq_sum (ws : Nat) (log : List Event) (h : ∀ r, ws ≤ r → dieTo r log = 0) :
    dieCount log = ((List.range ws).map (fun r => dieTo r log)).sum := by
  induction log with
  | nil => simp [dieCount, dieTo]
  | cons e l ih =>
    have hl : ∀ r, ws ≤ r → dieTo r l = 0 := by
      intro r hr
      have := h r hr
      simp only [dieTo, List.countP_cons] at this ⊢
      omega
    have hsplit : ((List.range ws).map (fun r => dieTo r (e :: l))).sum =
        ((List.range ws).map (fun r => dieTo r l)).sum +
        ((List.range ws).map (fun r => if isDieTo r e = true then 1 else 0)).sum := by
      rw [← List.sum_map_add]
      simp [dieTo, List.countP_cons]
    rw [hsplit, ← ih hl]
    simp only [dieCount, List.countP_cons]
    congr 1
    cases e with
    | send d t p =>
      by_cases ht : t = DIETAG
      · have hd : d < ws := by
          by_contra hd
          have := h d (by omega)
          simp [dieTo, List.countP_cons, isDieTo, ht] at this
        simp [isDieSend, isDieTo, ht, sum_range_indicator, hd]
      · simp [isDieSend, isDieTo, ht]
    | recv a b c => simp [isDieSend, isDieTo]
    | call a => simp [isDieSend, isDieTo]

theorem SysInv_init (ws W : Nat) (hws : 1 ≤ ws) : SysInv ws W (System.init W) := by
  refine ⟨MasterInv_init ws W hws, ?_, ?_⟩
  · intro r
    right; left
    simp [System.init, Master.init, dieTo, workTo, recvFrom, Quiet, Slave.init]
  · intro pre post r p h
    simp [System.init, Master.init] at h

theorem RangeInv_init (W : Nat) : RangeInv (System.init W) := by
  intro r
  simp [System.init, RangeAt, Slave.init]

/-- A rank the master owes an answer to, or has not served yet, has nothing in
flight. -/
theorem quiet_of_balance (ws : Nat) (s : System) (hb : BalInv ws s.master) (h : ShapeInv s)
    (r : Nat) (hr : started ws s.master r ≤ held s.master r) :
    dieTo r s.master.log = 0 ∧ workTo r s.master.log = recvFrom r s.master.log ∧
      Quiet (s.worker r) := by
  apply ShapeAt_quiet _ _ _ (h r)
  have := hb r
  omega

theorem SysInv_step (ws W : Nat) (hws : 1 ≤ ws) (s s1 : System) (a : Action)
    (h : SysInv ws W s) (hs : step ws s a = some s1) : SysInv ws W s1 := by
  obtain ⟨hm, hsh, hd⟩ := h
  refine ⟨MasterInv_sys_step ws W hws s s1 a hm hs, ShapeInv_step ws s s1 a hm.2.1 hsh hs, ?_⟩
  rcases step_master ws s s1 a hs with h1 | ⟨inp, h1⟩
  · rw [h1]; exact hd
  · rw [h1]
    apply DieAfterResults_step ws W _ _ hm.1 _ hd
    intro hpc
    have := quiet_of_balance ws s hm.2.1 hsh s.master.source
      (by simp [held, hpc, started]; split_ifs <;> omega)
    exact this.2.1.symm

theorem SysInv_run (ws W : Nat) (hws : 1 ≤ ws) (acts : List Action) :
    ∀ s s1, SysInv ws W s → run ws s acts = some s1 → SysInv ws W s1 := by
  induction acts with
  | nil =>
    intro s s1 h hr
    simp [run] at hr
    subst hr
    exact h
  | cons a acts ih =>
    intro s s1 h hr
    simp only [run] at hr
    cases hst : step ws s a with
    | none => simp [hst] at hr
    | some s2 =>
      simp only [hst] at hr
      exact ih s2 s1 (SysInv_step ws W hws s s2 a h hst) hr

theorem RangeInv_run (ws W : Nat) (hws : 1 ≤ ws) (hK : ws ≤ W + 1) (hW : W ≤ 5)
    (acts : List Action) :
    ∀ s s1, SysInv ws W s → RangeInv s → run ws s acts = some s1 → RangeInv s1 := by
  induction acts with
  | nil =>
    intro s s1 _ h hr
    simp [run] at hr
    subst hr
    exact h
  | cons a acts ih =>
    intro s s1 hi h hr
    simp only [run] at hr
    cases hst : step ws s a with
    | none => simp [hst] at hr
    | some s2 =>
      simp only [hst] at hr
      exact ih s2 s1 (SysInv_step ws W hws s s2 a hi hst)
        (RangeInv_step ws W hws hK hW s s2 a hi.1.1 h hst) hr

theorem run_fuel (ws : Nat) (acts : List Action) :
    ∀ s s1, run ws s acts = some s1 → systemFuel ws s1 + acts.length ≤ systemFuel ws s := by
  induction acts with
  | nil =>
    intro s s1 hr
    simp [run] at hr
    subst hr
    simp
  | cons a acts ih =>
    intro s s1 hr
    simp only [run] at hr
    cases hst : step ws s a with
    | none => simp [hst] at hr
    | some s2 =>
      simp only [hst] at hr
      have h1 := ih s2 s1 hr
      have h2 := step_decreases ws s s2 a hst
      simp only [List.length_cons]
      omega

theorem dieTo_le_dieCount (r : Nat) (log : List Event) : dieTo r log ≤ dieCount log := by
  induction log with
  | nil => simp [dieTo, dieCount]
  | cons e l ih =>
    simp only [dieTo, dieCount, List.countP_cons] at ih ⊢
    cases e with
    | send d t p =>
      by_cases h1 : d = r <;> by_cases h2 : t = DIETAG <;> simp [isDieTo, isDieSend, h1, h2] <;>
        omega
    | recv a b c => simpa [isDieTo, isDieSend] using ih
    | call a => simpa [isDieTo, isDieSend] using ih

/-- A worker with an item in flight can move, or the master can receive from
it. -/
theorem busy_enabled (ws : Nat) (s : System) (r : Nat) (hr1 : 1 ≤ r) (hr2 : r < ws)
    (hrecv : s.master.receiving = true) (hpc : s.master.pc ≠ .returned)
    (hb : Busy (s.worker r)) (hf : (s.worker r).slave.pc ≠ .fault) :
    ∃ a, step ws s a ≠ none := by
  rcases hb with ⟨⟨v, h1⟩, h2, -⟩ | ⟨-, h2, -⟩ | ⟨-, -, msg, h3⟩
  · exact ⟨.slave r, by simp [step, hr1, hr2, h1, h2]⟩
  · rcases h2 with h2 | h2
    · exact ⟨.slave r, by simp [step, hr1, hr2, h2]⟩
    · exact absurd h2 hf
  · exact ⟨.master r, by simp [step, hpc, hrecv, h3]⟩

theorem dieTo_le_one (s : System) (h : ShapeInv s) (r : Nat) : dieTo r s.master.log ≤ 1 := by
  rcases h r with ⟨h1, -⟩ | ⟨h1, -⟩ | ⟨h1, -⟩ <;> omega

/-- Outside the ranks of the slaves nothing is ever in flight. -/
theorem outside_quiet (ws W : Nat) (s : System) (h : SysInv ws W s) (r : Nat)
    (hr : r = 0 ∨ ws ≤ r) :
    dieTo r s.master.log = 0 ∧ workTo r s.master.log = recvFrom r s.master.log ∧
      Quiet (s.worker r) := by
  apply quiet_of_balance ws s h.1.2.1 h.2.1
  have hst : started ws s.master r = 0 := by
    obtain ⟨⟨-, -, c3⟩, -, -⟩ := h.1
    obtain ⟨m, wk⟩ := s
    obtain ⟨pc, rank, work, result, source, log⟩ := m
    simp only [CountInv] at c3
    cases pc <;> simp only [started, served] at c3 ⊢ <;> split_ifs <;> omega
  have hh : 0 ≤ held s.master r := by
    unfold held
    split <;> (try split_ifs) <;> omega
  omega

theorem CountInv_returned (ws W : Nat) (m : Master) (h : CountInv ws W m)
    (hpc : m.pc = .returned) : dieCount m.log + 1 = ws := by
  obtain ⟨pc, rank, work, result, source, log⟩ := m
  obtain ⟨-, -, c3⟩ := h
  simp only at hpc
  subst hpc
  simp only [CountInv] at c3 ⊢
  omega

theorem CountInv_receiving (ws W : Nat) (m : Master) (h : CountInv ws W m)
    (hpc : m.receiving = true) : dieCount m.log + 1 < ws ∨ dieCount m.log = 0 := by
  obtain ⟨pc, rank, work, result, source, log⟩ := m
  obtain ⟨-, -, c3⟩ := h
  cases pc <;> simp [Master.receiving] at hpc <;> simp only [CountInv] at c3 ⊢
  · right; omega
  · left; omega

theorem receiving_started (ws : Nat) (m : Master) (hpc : m.receiving = true) (r : Nat)
    (hr1 : 1 ≤ r) (hr2 : r < ws) : started ws m r = 1 ∧ held m r = 0 := by
  obtain ⟨pc, rank, work, result, source, log⟩ := m
  cases pc <;> simp [Master.receiving] at hpc <;> simp [started, served, held] <;> omega

/-- Once the master has returned every slave has been sent its `DIETAG`. -/
theorem all_died (ws W : Nat) (hws : 1 ≤ ws) (s : System) (h : SysInv ws W s)
    (hpc : s.master.pc = .returned) (r : Nat) (hr1 : 1 ≤ r) (hr2 : r < ws) :
    dieTo r s.master.log = 1 := by
  have hsum := dieCount_eq_sum ws s.master.log
    (fun r hr => (outside_quiet ws W s h r (Or.inr hr)).1)
  have h0 := (outside_quiet ws W s h 0 (Or.inl rfl)).1
  have h1 := dieTo_le_one s h.2.1
  have hle := sum_range_le_one (fun r => dieTo r s.master.log) h0 h1 (ws - 1)
  rw [show ws - 1 + 1 = ws by omega] at hle
  have hc := CountInv_returned ws W s.master h.1.1 hpc
  exact hle.2 (by omega) r hr1 hr2

/-- While fewer than `ws - 1` stop messages have been sent, some slave has not
been sent one. -/
theorem some_alive (ws W : Nat) (hws : 1 ≤ ws) (s : System) (h : SysInv ws W s)
    (hlt : dieCount s.master.log + 1 < ws) : ∃ r, 1 ≤ r ∧ r < ws ∧ dieTo r s.master.log = 0 := by
  have hsum := dieCount_eq_sum ws s.master.log
    (fun r hr => (outside_quiet ws W s h r (Or.inr hr)).1)
  have h0 := (outside_quiet ws W s h 0 (Or.inl rfl)).1
  have h1 := dieTo_le_one s h.2.1
  by_contra hcon
  have hall : ∀ r, 1 ≤ r → r < (ws - 1) + 1 → dieTo r s.master.log = 1 := by
    intro r hr1 hr2
    have := h1 r
    by_contra hne
    exact hcon ⟨r, hr1, by omega, by omega⟩
  have := sum_range_all_one (fun r => dieTo r s.master.log) h0 (ws - 1) hall
  rw [show ws - 1 + 1 = ws by omega] at this
  omega

/-- While the master has not returned, some process can move. -/
theorem exists_enabled (ws W : Nat) (hws : 2 ≤ ws) (s : System) (h : SysInv ws W s)
    (hr : RangeInv s) (hpc : s.master.pc ≠ .returned) : ∃ a, step ws s a ≠ none := by
  by_cases hrecv : s.master.receiving = true
  · -- find a worker with an item in flight
    have hbusy : ∃ r, 1 ≤ r ∧ r < ws ∧ dieTo r s.master.log = 0 := by
      rcases CountInv_receiving ws W s.master h.1.1 hrecv with hlt | hz
      · exact some_alive ws W (by omega) s h hlt
      · have := dieTo_le_dieCount 1 s.master.log
        exact ⟨1, le_refl _, by omega, by omega⟩
    obtain ⟨r, hr1, hr2, hd⟩ := hbusy
    obtain ⟨hst, hh⟩ := receiving_started ws s.master hrecv r hr1 hr2
    have hb := h.1.2.1 r
    rw [hd, hst, hh] at hb
    rcases h.2.1 r with ⟨-, -, h3⟩ | ⟨-, h2, -⟩ | ⟨h1, -⟩
    · exact busy_enabled ws s r hr1 hr2 hrecv hpc h3 (hr r).2.2
    · omega
    · omega
  · exact ⟨.master 0, by simp [step, hpc, hrecv]⟩

theorem stuck_final (ws W : Nat) (hws : 2 ≤ ws) (s : System) (h : SysInv ws W s)
    (hr : RangeInv s) (hstuck : ∀ a, step ws s a = none) : s.final ws := by
  have hpc : s.master.pc = .returned := by
    by_contra hpc
    obtain ⟨a, ha⟩ := exists_enabled ws W hws s h hr hpc
    exact ha (hstuck a)
  have hdying : ∀ r, 1 ≤ r → r < ws → Dying (s.worker r) := by
    intro r hr1 hr2
    have hd := all_died ws W (by omega) s h hpc r hr1 hr2
    rcases h.2.1 r with ⟨h1, -⟩ | ⟨h1, -⟩ | ⟨-, -, h3⟩
    · omega
    · omega
    · exact h3
  refine ⟨hpc, ?_, ?_⟩
  · intro r hr1 hr2
    obtain ⟨-, h4⟩ := hdying r hr1 hr2
    rcases h4 with ⟨h4, h5⟩ | ⟨-, h5, h6⟩
    · have := hstuck (.slave r)
      simp [step, hr1, hr2, h4, h5] at this
    · exact ⟨h5, h6⟩
  · intro r
    by_cases hin : 1 ≤ r ∧ r < ws
    · obtain ⟨h3, h4⟩ := hdying r hin.1 hin.2
      rcases h4 with ⟨h4, h5⟩ | ⟨h4, -, -⟩
      · have := hstuck (.slave r)
        simp [step, hin.1, hin.2, h4, h5] at this
      · exact ⟨h4, h3⟩
    · have := outside_quiet ws W s h r (by omega)
      exact ⟨this.2.2.1, this.2.2.2.2⟩

theorem final_stuck (ws : Nat) (s : System) (h : s.final ws) (a : Action) :
    step ws s a = none := by
  obtain ⟨h1, h2, -⟩ := h
  cases a with
  | master src => simp [step, h1]
  | slave r =>
    by_cases hr : 1 ≤ r ∧ r < ws
    · simp [step, hr, (h2 r hr.1 hr.2).1]
    · simp [step, hr]

theorem reach_final (ws W : Nat) (hws : 2 ≤ ws) (hK : ws ≤ W + 1) (hW : W ≤ 5) (n : Nat) :
    ∀ s, systemFuel ws s ≤ n → SysInv ws W s → RangeInv s →
      ∃ acts s1, run ws s acts = some s1 ∧ s1.final ws := by
  induction n with
  | zero =>
    intro s hn h hr
    refine ⟨[], s, rfl, stuck_final ws W hws s h hr ?_⟩
    intro a
    cases hst : step ws s a with
    | none => rfl
    | some s2 =>
      have := step_decreases ws s s2 a hst
      omega
  | succ n ih =>
    intro s hn h hr
    by_cases hstuck : ∀ a, step ws s a = none
    · exact ⟨[], s, rfl, stuck_final ws W hws s h hr hstuck⟩
    · push_neg at hstuck
      obtain ⟨a, ha⟩ := hstuck
      cases hst : step ws s a with
      | none => exact absurd hst ha
      | some s2 =>
        have hdec := step_decreases ws s s2 a hst
        obtain ⟨acts, s1, hrun, hfin⟩ := ih s2 (by omega)
          (SysInv_step ws W (by omega) s s2 a h hst)
          (RangeInv_step ws W (by omega) hK hW s s2 a h.1.1 hr hst)
        exact ⟨a :: acts, s1, by simp [run, hst, hrun], hfin⟩

theorem slaveRun_not_recv (rank : Nat) (s : Slave) (msgs : List Msg) (h : s.pc ≠ .recv) :
    slaveRun rank s msgs = s := by
  cases msgs with
  | nil => rfl
  | cons m ms =>
    unfold slaveRun
    split
    · rename_i hpc; exact absurd hpc h
    · rfl

theorem slaveRun_die (rank : Nat) (s : Slave) (hs : s.pc = .recv) (p : Option Int)
    (later : List Msg) :
    slaveRun rank s (⟨DIETAG, p⟩ :: later) =
      ⟨.exited, recvInto s.work p, s.log ++ [Event.recv 0 DIETAG p]⟩ := by
  have h1 : (slaveRecv s ⟨DIETAG, p⟩).pc = .exited := by simp [slaveRecv]
  rw [slaveRun]
  simp only [hs, h1]
  rw [slaveRun_not_recv _ _ _ (by simp [slaveRecv])]
  simp [slaveRecv]

theorem slaveRun_work (rank : Nat) (s : Slave) (hs : s.pc = .recv) (t : Int) (ht : t ≠ DIETAG)
    (p : Option Int) (later : List Msg) :
    (slaveRecv s ⟨t, p⟩).pc = .call ∧
    slaveRun rank s (⟨t, p⟩ :: later) =
      slaveRun rank (slaveCall rank (slaveRecv s ⟨t, p⟩)).1 later := by
  have h1 : (slaveRecv s ⟨t, p⟩).pc = .call := by simp [slaveRecv, ht]
  refine ⟨h1, ?_⟩
  rw [slaveRun]
  simp only [hs, h1]

theorem slaveRun_trace (rank : Nat) (msgs : List Msg) :
    ∀ s : Slave, s.pc = .recv →
    (∀ m ∈ msgs, m.tag ≠ DIETAG → ∃ v, m.payload = some v ∧ 0 ≤ v ∧ v ≤ 4) →
    (slaveRun rank s msgs).log = s.log ++ itemsTrace (beforeDie msgs) ++ dieTrace (fromDie msgs) ∧
    (slaveRun rank s msgs).pc = (if fromDie msgs = [] then .recv else .exited) := by
  induction msgs with
  | nil =>
    intro s hs _
    simp [slaveRun, beforeDie, fromDie, itemsTrace, dieTrace, hs]
  | cons m ms ih =>
    intro s hs h
    obtain ⟨t, p⟩ := m
    by_cases ht : t = DIETAG
    · subst ht
      rw [slaveRun_die rank s hs]
      simp [beforeDie, fromDie, itemsTrace, dieTrace]
    · obtain ⟨v, hv, h0, h4⟩ := h ⟨t, p⟩ (List.mem_cons_self _ _) ht
      simp only at hv
      subst hv
      rw [(slaveRun_work rank s hs t ht (some v) ms).2]
      rcases slaveCall_cases rank (slaveRecv s ⟨t, some v⟩) with ⟨-, -, -, -, c5⟩ |
        ⟨v1, c0, -, -, c1, -, -, c4⟩
      · exact absurd ⟨h0, h4⟩ (c5 v (by simp [slaveRecv, recvInto]))
      · have hv1 : v1 = v := by
          simp [slaveRecv, recvInto] at c0
          exact c0.symm
        subst hv1
        obtain ⟨i1, i2⟩ := ih _ c1 (fun m hm => h m (List.mem_cons_of_mem _ hm))
        rw [i1, i2, c4]
        simp [beforeDie, fromDie, itemsTrace, ht, slaveRecv, List.takeWhile_cons,
          List.dropWhile_cons]

theorem itemsTrace_counts (l : List Msg) :
    (itemsTrace l).countP isCall = l.length ∧ (itemsTrace l).countP isSend = l.length := by
  induction l with
  | nil => simp [itemsTrace]
  | cons m ms ih => simp [itemsTrace, List.countP_cons, isCall, isSend, ih.1, ih.2]

theorem dieTrace_counts (l : List Msg) :
    (dieTrace l).countP isCall = 0 ∧ (dieTrace l).countP isSend = 0 := by
  cases l <;> simp [dieTrace, isCall, isSend]

theorem beforeDie_all_work (msgs : List Msg)
    (h : ∀ m ∈ msgs, m.tag = DIETAG ∨ m.tag = WORKTAG) :
    ∀ m ∈ beforeDie msgs, m.tag = WORKTAG := by
  intro m hm
  have h1 : m ∈ msgs := List.takeWhile_subset _ hm
  have h2 := List.mem_takeWhile_imp hm
  simp at h2
  rcases h m h1 with h3 | h3
  · exact absurd h3 h2
  · exact h3

theorem send_preceded (l : List Msg) (tail : List Event) (ht : ∀ e ∈ tail, isSend e = false) :
    ∀ (pre post : List Event) (d : Nat) (t : Int) (p : Option Int),
    itemsTrace l ++ tail = pre ++ Event.send d t p :: post →
    ∃ pre1 m, m ∈ l ∧ pre = pre1 ++ [Event.recv 0 m.tag m.payload, Event.call (m.payload.getD 0)] ∧
      d = 0 ∧ t = 0 ∧ p = m.payload := by
  induction l with
  | nil =>
    intro pre post d t p h
    have : Event.send d t p ∈ tail := by
      simp only [itemsTrace, List.nil_append] at h
      rw [h]; simp
    have := ht _ this
    simp [isSend] at this
  | cons m ms ih =>
    intro pre post d t p h
    simp only [itemsTrace, List.cons_append] at h
    match pre, h with
    | [], h => simp at h
    | [_], h => simp at h
    | [a, b], h =>
      simp at h
      obtain ⟨rfl, rfl, ⟨rfl, rfl, rfl⟩, -⟩ := h
      exact ⟨[], m, List.mem_cons_self _ _, by simp, rfl, rfl, rfl⟩
    | a :: b :: c :: pre4, h =>
      simp at h
      obtain ⟨rfl, rfl, rfl, h⟩ := h
      obtain ⟨pre1, m1, hm1, hpre, hd, ht1, hp⟩ := ih pre4 post d t p h
      exact ⟨Event.recv 0 m.tag m.payload :: Event.call (m.payload.getD 0) ::
        Event.send 0 0 m.payload :: pre1, m1, List.mem_cons_of_mem _ hm1, by simp [hpre], hd, ht1, hp⟩

theorem masterStep_log (ws : Nat) (m : Master) (inp : Nat × Msg) :
    (masterStep ws m inp).1.log = m.log ∨
    ∃ e, (masterStep ws m inp).1.log = m.log ++ [e] ∧
      ∀ r, isWorkTo r e = true → isRecvFrom r e = false := by
  obtain ⟨pc, rank, work, result, source, log⟩ := m
  by_cases h1 : rank < ws <;> by_cases h2 : 0 ≤ work <;> cases pc <;>
    simp [masterStep, h1, h2, isWorkTo, isRecvFrom]

theorem countP_range_eq (n k : Nat) :
    (List.range n).countP (fun i => decide (i = k)) = if k < n then 1 else 0 := by
  induction n with
  | zero => simp
  | succ n ih =>
    rw [List.range_succ, List.countP_append, ih]
    simp only [List.countP_cons, List.countP_nil]
    by_cases h1 : n = k
    · subst h1; simp
    · by_cases h2 : k < n
      · have h3 : k < n + 1 := by omega
        simp [h1, h2, h3]
      · have h3 : ¬ k < n + 1 := by omega
        simp [h1, h2, h3]

theorem flow_bounds (ws W : Nat) (s : System) (h : SysInv ws W s) (r : Nat) :
    recvFrom r s.master.log ≤ workTo r s.master.log ∧
    workTo r s.master.log ≤ recvFrom r s.master.log + 1 := by
  rcases h.2.1 r with ⟨-, h2, -⟩ | ⟨-, h2, -⟩ | ⟨-, h2, -⟩ <;> omega

theorem send_needs_answer (ws W : Nat) (hws : 1 ≤ ws) (s s1 : System) (a : Action)
    (h : SysInv ws W s) (hs : step ws s a = some s1) (r : Nat)
    (hw : workTo r s1.master.log = workTo r s.master.log + 1) :
    workTo r s.master.log = recvFrom r s.master.log := by
  have b0 := flow_bounds ws W s h r
  have b1 := flow_bounds ws W s1 (SysInv_step ws W hws s s1 a h hs) r
  rcases step_master ws s s1 a hs with h1 | ⟨inp, h1⟩
  · rw [h1] at hw; omega
  · rw [h1] at hw b1
    rcases masterStep_log ws s.master inp with h2 | ⟨e, h2, h3⟩
    · rw [h2] at hw; omega
    · rw [h2] at hw b1
      simp only [workTo, recvFrom, List.countP_append, List.countP_cons, List.countP_nil] at hw b1 b0 ⊢
      by_cases he : isWorkTo r e = true
      · have := h3 r he
        simp [he, this] at hw b1
        omega
      · simp [he] at hw

/-! ## The history in closed form -/

theorem exchangeLog_snoc (xs : List Exchange) (x : Exchange) :
    exchangeLog (xs ++ [x]) = exchangeLog xs ++
      [Event.recv x.source x.rtag x.rpayload, Event.send x.source x.stag x.spayload] := by
  induction xs with
  | nil => simp [exchangeLog]
  | cons y ys ih => simp [exchangeLog, ih]

theorem dieDests_append (l1 l2 : List Event) : dieDests (l1 ++ l2) = dieDests l1 ++ dieDests l2 := by
  induction l1 with
  | nil => simp [dieDests]
  | cons e l ih =>
    cases e with
    | send d t p => by_cases ht : t = DIETAG <;> simp [dieDests, ht, ih]
    | recv a b c => simpa [dieDests] using ih
    | call a => simpa [dieDests] using ih

theorem recvSources_append (l1 l2 : List Event) :
    recvSources (l1 ++ l2) = recvSources l1 ++ recvSources l2 := by
  induction l1 with
  | nil => simp [recvSources]
  | cons e l ih =>
    cases e with
    | send d t p => simpa [recvSources] using ih
    | recv a b c => simp [recvSources, ih]
    | call a => simpa [recvSources] using ih

theorem ExchInv_init (ws W : Nat) (answers : Nat → Nat × Msg) :
    ExchInv ws W answers (Master.init W) := by
  simp [ExchInv, Master.init, dieDests, recvSources, dieCount, recvCount, initLog]

theorem ExchInv_step (ws W : Nat) (answers : Nat → Nat × Msg) (m : Master)
    (hc : CountInv ws W m) (h : ExchInv ws W answers m) :
    ExchInv ws W answers (masterStep ws m (answers (recvCount m.log))).1 := by
  obtain ⟨pc, rank, work, result, source, log⟩ := m
  obtain ⟨c1, c2, c3⟩ := hc
  obtain ⟨h1, h2, h3⟩ := h
  cases pc <;> simp only [CountInv, ExchInv, masterStep] at c1 c2 c3 h1 h2 h3 ⊢
  case initTest =>
    by_cases hlt : rank < ws
    · simp only [hlt, if_true]
      exact ⟨h1, h2, h3⟩
    · simp only [hlt, if_false]
      refine ⟨h1, h2, ?_⟩
      have : rank = ws := by omega
      subst this
      rw [c3.2.2.2.2]
      simpa [exchangeLog] using h3
  case initSend =>
    have hd : dieCount (log ++ [Event.send rank WORKTAG (some work)]) = dieCount log := by
      simp [dieCount, List.countP_append, isDieSend, WORKTAG, DIETAG]
    have hr : recvCount (log ++ [Event.send rank WORKTAG (some work)]) = recvCount log := by
      simp [recvCount, List.countP_append, isRecv]
    rw [hd, hr, dieDests_append, recvSources_append]
    refine ⟨by simpa [dieDests, WORKTAG, DIETAG] using h1, by simpa [recvSources] using h2, ?_⟩
    rw [h3, show rank + 1 - 1 = (rank - 1) + 1 by omega]
    simp only [initLog]
    rw [show rank - 1 + 1 = rank by omega, show work = (W : Int) - 1 - ((rank - 1 : Nat) : Int) by omega]
  case workTest =>
    by_cases hlt : 0 ≤ work
    · simp only [hlt, if_true]; exact ⟨h1, h2, h3⟩
    · simp only [hlt, if_false]; exact ⟨h1, h2, h3⟩
  case drainTest =>
    by_cases hlt : rank < ws
    · simp only [hlt, if_true]; exact ⟨h1, h2, h3⟩
    · simp only [hlt, if_false]; exact ⟨h1, h2, h3⟩
  case returned => exact ⟨h1, h2, h3⟩
  case workRecv =>
    have hd : dieCount (log ++ [Event.recv (answers (recvCount log)).1
        (answers (recvCount log)).2.tag (answers (recvCount log)).2.payload]) = dieCount log := by
      simp [dieCount, List.countP_append, isDieSend]
    have hr : recvCount (log ++ [Event.recv (answers (recvCount log)).1
        (answers (recvCount log)).2.tag (answers (recvCount log)).2.payload]) =
        recvCount log + 1 := by
      simp [recvCount, List.countP_append, isRecv]
    rw [hd, hr, dieDests_append, recvSources_append]
    refine ⟨by simpa [dieDests] using h1, ?_, by omega, ?_, ?_⟩
    · rw [h2, List.range_succ, List.map_append]
      simp [recvSources]
    · simp
    · simp only [Nat.add_sub_cancel]
      rw [← h3]
  case drainRecv =>
    have hd : dieCount (log ++ [Event.recv (answers (recvCount log)).1
        (answers (recvCount log)).2.tag (answers (recvCount log)).2.payload]) = dieCount log := by
      simp [dieCount, List.countP_append, isDieSend]
    have hr : recvCount (log ++ [Event.recv (answers (recvCount log)).1
        (answers (recvCount log)).2.tag (answers (recvCount log)).2.payload]) =
        recvCount log + 1 := by
      simp [recvCount, List.countP_append, isRecv]
    rw [hd, hr, dieDests_append, recvSources_append]
    refine ⟨by simpa [dieDests] using h1, ?_, by omega, ?_, ?_⟩
    · rw [h2, List.range_succ, List.map_append]
      simp [recvSources]
    · simp
    · simp only [Nat.add_sub_cancel]
      rw [← h3]
  case workSend =>
    obtain ⟨h3a, h3b, h3c⟩ := h3
    have hd : dieCount (log ++ [Event.send source WORKTAG (some work)]) = dieCount log := by
      simp [dieCount, List.countP_append, isDieSend, WORKTAG, DIETAG]
    have hr : recvCount (log ++ [Event.send source WORKTAG (some work)]) = recvCount log := by
      simp [recvCount, List.countP_append, isRecv]
    rw [hd, hr, dieDests_append, recvSources_append]
    refine ⟨by simpa [dieDests, WORKTAG, DIETAG] using h1, by simpa [recvSources] using h2, ?_⟩
    have hlt : recvCount log - 1 < W + 1 - ws := by omega
    have hw : work = (W : Int) - (ws : Int) - ((recvCount log - 1 : Nat) : Int) := by omega
    have hx : exchangeAt ws W answers (recvCount log - 1) =
        ⟨source, (answers (recvCount log - 1)).2.tag, (answers (recvCount log - 1)).2.payload,
          WORKTAG, some work⟩ := by
      simp only [exchangeAt, hlt, if_true, ← h3b, ← hw]
    conv_rhs => rw [show recvCount log = (recvCount log - 1) + 1 by omega]
    rw [List.range_succ, List.map_append, List.map_singleton, exchangeLog_snoc, hx]
    conv_lhs => rw [h3c]
    simp [h3b]
  case drainSend =>
    obtain ⟨h3a, h3b, h3c⟩ := h3
    have hd : dieCount (log ++ [Event.send source DIETAG none]) = dieCount log + 1 := by
      simp [dieCount, List.countP_append, isDieSend]
    have hr : recvCount (log ++ [Event.send source DIETAG none]) = recvCount log := by
      simp [recvCount, List.countP_append, isRecv]
    have hidx : recvCount log - 1 = W + 1 - ws + dieCount log := by omega
    rw [hd, hr, dieDests_append, recvSources_append]
    refine ⟨?_, by simpa [recvSources] using h2, ?_⟩
    · rw [h1, List.range_succ, List.map_append]
      simp [dieDests, h3b, hidx]
    have hlt : ¬ recvCount log - 1 < W + 1 - ws := by omega
    have hx : exchangeAt ws W answers (recvCount log - 1) =
        ⟨source, (answers (recvCount log - 1)).2.tag, (answers (recvCount log - 1)).2.payload,
          DIETAG, none⟩ := by
      simp only [exchangeAt, hlt, if_false, ← h3b]
    conv_rhs => rw [show recvCount log = (recvCount log - 1) + 1 by omega]
    rw [List.range_succ, List.map_append, List.map_singleton, exchangeLog_snoc, hx]
    conv_lhs => rw [h3c]
    simp [h3b]

theorem ExchInv_run (ws W : Nat) (hws : 1 ≤ ws) (answers : Nat → Nat × Msg) :
    ∀ (n : Nat) (m : Master), CountInv ws W m → ExchInv ws W answers m →
      CountInv ws W (masterRun ws answers n m) ∧ ExchInv ws W answers (masterRun ws answers n m) := by
  intro n
  induction n with
  | zero => intro m hc h; exact ⟨hc, h⟩
  | succ n ih =>
    intro m hc h
    exact ih _ (CountInv_step ws W hws m _ hc) (ExchInv_step ws W answers m hc h)

theorem initLog_length (W n : Nat) : (initLog W n).length = n := by
  induction n with
  | zero => rfl
  | succ n ih => simp [initLog, ih]

theorem alternates_exchangeLog (xs : List Exchange) : alternates (exchangeLog xs) = true := by
  induction xs with
  | nil => rfl
  | cons x xs ih => simp [exchangeLog, alternates, ih]

theorem drop_map_range (f : Nat → Nat) (n k : Nat) :
    ((List.range n).map f).drop k = (List.range (n - k)).map (fun i => f (k + i)) := by
  apply List.ext_getElem
  · simp
  · intro i h1 h2
    simp

/-- The master's history when it has returned, in closed form. -/
theorem returned_log (ws W : Nat) (hws : 1 ≤ ws) (answers : Nat → Nat × Msg) (n : Nat)
    (hn : (masterRun ws answers n (Master.init W)).pc = .returned) :
    (masterRun ws answers n (Master.init W)).log =
      initLog W (ws - 1) ++
        exchangeLog ((List.range (max W (ws - 1))).map (exchangeAt ws W answers)) ∧
    dieDests (masterRun ws answers n (Master.init W)).log =
      (List.range (ws - 1)).map (fun i => (answers (W + 1 - ws + i)).1) ∧
    recvSources (masterRun ws answers n (Master.init W)).log =
      (List.range (max W (ws - 1))).map (fun i => (answers i).1) := by
  obtain ⟨hc, h1, h2, h3⟩ := ExchInv_run ws W hws answers n (Master.init W)
    (CountInv_init ws W hws) (ExchInv_init ws W answers)
  obtain ⟨-, hd, hr⟩ := returned_counts ws W _ hc hn
  rw [hn] at h3
  simp only at h3
  rw [hd] at h1
  rw [hr] at h2 h3
  exact ⟨h3, h1, h2⟩

/-! ## The range of the ordinals -/

theorem mem_workSends (log : List Event) (d : Nat) (p : Option Int)
    (h : Event.send d WORKTAG p ∈ log) : (d, p) ∈ workSends log := by
  induction log with
  | nil => simp at h
  | cons e l ih =>
    rcases List.mem_cons.1 h with h1 | h1
    · subst h1
      simp [workSends]
    · have := ih h1
      cases e with
      | send d1 t1 p1 =>
        simp only [workSends]
        split_ifs
        · exact List.mem_cons_of_mem _ this
        · exact this
      | recv s1 t1 p1 => simpa [workSends] using this
      | call idx => simpa [workSends] using this

/-- In a run with at most `W` slaves every `WORKTAG` message of the master
carries an ordinal between `0` and `W - 1`. -/
theorem work_payload_bounds (ws W : Nat) (hK : ws ≤ W + 1) (m : Master)
    (h : MasterInv ws W m) (d : Nat) (p : Option Int)
    (hp : Event.send d WORKTAG p ∈ m.log) :
    ∃ w : Int, p = some w ∧ 0 ≤ w ∧ w ≤ (W : Int) - 1 := by
  obtain ⟨⟨c1, c2, -⟩, -, o1, -⟩ := h
  have h1 : p ∈ (workSends m.log).map (fun x => x.2) :=
    List.mem_map.2 ⟨(d, p), mem_workSends m.log d p hp, rfl⟩
  rw [o1] at h1
  obtain ⟨i, hi, rfl⟩ := List.mem_map.1 h1
  have hi2 := List.mem_range.1 hi
  exact ⟨_, rfl, by omega, by omega⟩

theorem mem_initLog (W n k : Nat) (hk : k < n) :
    Event.send (k + 1) WORKTAG (some ((W : Int) - 1 - (k : Int))) ∈ initLog W n := by
  induction n with
  | zero => omega
  | succ n ih =>
    simp only [initLog, List.mem_append, List.mem_singleton]
    by_cases h : k = n
    · subst h; exact Or.inr rfl
    · exact Or.inl (ih (by omega))

/-- With more than `NUM_WORK_REQS` slaves the schedule `faultSchedule` can be
run, and it ends with the slave of rank `NUM_WORK_REQS + 1` holding the
ordinal `-1` and stopped by the call through `tab_func[-1]`. -/
theorem faultSchedule_faults (K : Nat) (hK : NUM_WORK_REQS < K) :
    ∃ s, run (K + 1) (System.init NUM_WORK_REQS) faultSchedule = some s ∧
      (s.worker (NUM_WORK_REQS + 1)).slave.work = some (-1) ∧
      (s.worker (NUM_WORK_REQS + 1)).slave.pc = .fault := by
  obtain ⟨j, rfl⟩ : ∃ j, K = 6 + j := ⟨K - 6, by simp only [NUM_WORK_REQS] at hK; omega⟩
  have h1 : 1 < 6 + j + 1 := by omega
  have h2 : 2 < 6 + j + 1 := by omega
  have h3 : 3 < 6 + j + 1 := by omega
  have h4 : 4 < 6 + j + 1 := by omega
  have h5 : 5 < 6 + j + 1 := by omega
  have h6 : 6 < 6 + j + 1 := by omega
  simp [faultSchedule, List.replicate, run, step, masterStep, System.init, Master.init,
    NUM_WORK_REQS, Master.receiving, deliver, slaveRecv, slaveCall, tab_func, recvInto,
    Slave.init, WORKTAG, DIETAG, toMaster, h1, h2, h3, h4, h5, h6]

/-! ## Ranks that never answer -/

theorem Mute_init (W r : Nat) : Mute (System.init W) r := by
  simp [Mute, System.init, Master.init, Slave.init, dieTo, recvFrom]

theorem Mute_step (ws W : Nat) (r : Nat) (hr : W < r) (s s1 : System) (a : Action)
    (hc : CountInv ws W s.master) (h : Mute s r) (hs : step ws s a = some s1) :
    Mute s1 r := by
  rcases step_cases ws s s1 a hs with ⟨src, -, hpc, hrecv, rfl⟩ |
    ⟨src, msg, rest, -, hrecv, hout, rfl⟩ |
    ⟨r0, msg, rest, -, -, -, hpc, hin, rfl⟩ | ⟨r0, -, -, -, hpc, rfl⟩
  · obtain ⟨m, wk⟩ := s
    obtain ⟨pc, rank, work, result, source, log⟩ := m
    obtain ⟨-, -, c3⟩ := hc
    obtain ⟨h1, h2, h3, h4, h5, h6⟩ := h
    simp only [CountInv] at c3 h1 h2 h3 h4 h5 h6
    cases pc
    case initTest =>
      by_cases hlt : rank < ws <;>
        simpa [Mute, masterStep, deliver, hlt] using ⟨h1, h2, h3, h4, h5⟩
    case workTest =>
      by_cases hlt : 0 ≤ work <;>
        simpa [Mute, masterStep, deliver, hlt] using ⟨h1, h2, h3, h4, h5⟩
    case drainTest =>
      by_cases hlt : rank < ws <;>
        simpa [Mute, masterStep, deliver, hlt] using ⟨h1, h2, h3, h4, h5⟩
    case returned => simpa [Mute, masterStep, deliver] using ⟨h1, h2, h3, h4, h5⟩
    case workRecv => simp [Master.receiving] at hrecv
    case drainRecv => simp [Master.receiving] at hrecv
    case initSend =>
      have hd : dieTo r (log ++ [Event.send rank WORKTAG (some work)]) = 0 := by
        simpa [dieTo, List.countP_append, isDieTo, WORKTAG, DIETAG] using h4
      have hv : recvFrom r (log ++ [Event.send rank WORKTAG (some work)]) = 0 := by
        simpa [recvFrom, List.countP_append, isRecvFrom] using h5
      simp only [Mute, masterStep, deliver]
      by_cases hrr : r = rank
      · subst hrr
        simp only [Function.update_same]
        refine ⟨h1, ?_, h3, hd, hv, by simp⟩
        intro msg hmsg
        rcases List.mem_append.1 hmsg with hm | hm
        · exact h2 msg hm
        · exact ⟨work, by simpa using hm, by omega⟩
      · rw [Function.update_noteq hrr]
        exact ⟨h1, h2, h3, hd, hv, by simp⟩
    case workSend =>
      have hne : r ≠ source := fun e => h6 (Or.inl rfl) e.symm
      have hd : dieTo r (log ++ [Event.send source WORKTAG (some work)]) = 0 := by
        simpa [dieTo, List.countP_append, isDieTo, WORKTAG, DIETAG] using h4
      have hv : recvFrom r (log ++ [Event.send source WORKTAG (some work)]) = 0 := by
        simpa [recvFrom, List.countP_append, isRecvFrom] using h5
      simp only [Mute, masterStep, deliver]
      rw [Function.update_noteq hne]
      exact ⟨h1, h2, h3, hd, hv, by simp⟩
    case drainSend =>
      have hne : r ≠ source := fun e => h6 (Or.inr rfl) e.symm
      have hd : dieTo r (log ++ [Event.send source DIETAG none]) = 0 := by
        simpa [dieTo, List.countP_append, isDieTo, Ne.symm hne] using h4
      have hv : recvFrom r (log ++ [Event.send source DIETAG none]) = 0 := by
        simpa [recvFrom, List.countP_append, isRecvFrom] using h5
      simp only [Mute, masterStep, deliver]
      rw [Function.update_noteq hne]
      exact ⟨h1, h2, h3, hd, hv, by simp⟩
  · obtain ⟨h1, h2, h3, h4, h5, h6⟩ := h
    have hne : r ≠ src := by
      intro e
      subst e
      rw [h1] at hout
      exact absurd hout (by simp)
    obtain ⟨m, wk⟩ := s
    obtain ⟨pc, rank, work, result, source, log⟩ := m
    simp only at h1 h2 h3 h4 h5 h6 hout
    have hd : dieTo r (log ++ [Event.recv src msg.tag msg.payload]) = 0 := by
      simpa [dieTo, List.countP_append, isDieTo] using h4
    have hv : recvFrom r (log ++ [Event.recv src msg.tag msg.payload]) = 0 := by
      simpa [recvFrom, List.countP_append, isRecvFrom, Ne.symm hne] using h5
    cases pc <;> simp [Master.receiving] at hrecv
    · simp only [Mute, masterStep]
      rw [Function.update_noteq hne]
      exact ⟨h1, h2, h3, hd, hv, fun _ => Ne.symm hne⟩
    · simp only [Mute, masterStep]
      rw [Function.update_noteq hne]
      exact ⟨h1, h2, h3, hd, hv, fun _ => Ne.symm hne⟩
  · obtain ⟨h1, h2, h3, h4, h5, h6⟩ := h
    simp only [Mute]
    by_cases hrr : r = r0
    · subst hrr
      simp only [Function.update_same]
      rw [hin] at h2
      obtain ⟨v, rfl, hv⟩ := h2 msg (List.mem_cons_self _ _)
      refine ⟨h1, fun m1 hm1 => h2 m1 (List.mem_cons_of_mem _ hm1), ?_, h4, h5, h6⟩
      intro _
      exact ⟨v, by simp [slaveRecv, recvInto], hv⟩
    · rw [Function.update_noteq hrr]
      exact ⟨h1, h2, h3, h4, h5, h6⟩
  · obtain ⟨h1, h2, h3, h4, h5, h6⟩ := h
    simp only [Mute]
    by_cases hrr : r = r0
    · subst hrr
      simp only [Function.update_same]
      obtain ⟨v, hv, hneg⟩ := h3 hpc
      rcases slaveCall_cases r (s.worker r).slave with ⟨c1, c2, -, -, -⟩ | ⟨v1, c1, c2, -⟩
      · refine ⟨by simp [c2, toMaster, h1], h2, ?_, h4, h5, h6⟩
        intro hcall
        rw [c1] at hcall
        exact absurd hcall (by simp)
      · rw [hv] at c1
        have : v = v1 := by simpa using c1
        omega
    · rw [Function.update_noteq hrr]
      exact ⟨h1, h2, h3, h4, h5, h6⟩

theorem Mute_run (ws W : Nat) (hws : 1 ≤ ws) (r : Nat) (hr : W < r) (acts : List Action) :
    ∀ s s1, SysInv ws W s → Mute s r → run ws s acts = some s1 → Mute s1 r := by
  induction acts with
  | nil =>
    intro s s1 _ h hrun
    simp [run] at hrun
    subst hrun
    exact h
  | cons a acts ih =>
    intro s s1 hi h hrun
    simp only [run] at hrun
    cases hst : step ws s a with
    | none => simp [hst] at hrun
    | some s2 =>
      simp only [hst] at hrun
      exact ih s2 s1 (SysInv_step ws W hws s s2 a hi hst)
        (Mute_step ws W r hr s s2 a hi.1.1 h hst) hrun

/-- With more slaves than items the master never returns: the slave of rank
`W + 1` never answers, and the master returns only after it has stopped every
slave, each after an answer of that slave. -/
theorem never_returns (K W : Nat) (hKW : W < K) (acts : List Action) (s : System)
    (h : run (K + 1) (System.init W) acts = some s) : s.master.pc ≠ .returned := by
  intro hret
  have hinv := SysInv_run (K + 1) W (by omega) acts _ s (SysInv_init (K + 1) W (by omega)) h
  have hm := Mute_run (K + 1) W (by omega) (W + 1) (by omega) acts _ s
    (SysInv_init (K + 1) W (by omega)) (Mute_init W (W + 1)) h
  have := all_died (K + 1) W (by omega) s hinv hret (W + 1) (by omega) (by omega)
  have := hm.2.2.2.1
  omega

/-! # The claims -/

/-- C1: in a full run of `master()` with `W` work items and `K ≤ W` slaves
(`world_size = K + 1`), whichever rank answers each wildcard receive and with
whatever message, the master returns, and when it has returned it has sent
exactly `W` messages tagged `WORKTAG` and exactly `K` messages tagged `DIETAG`. -/
theorem master_sends_W_work_and_K_die (K W : Nat) (hKW : K ≤ W) (answers : Nat → Nat × Msg) :
    (∃ n, (masterRun (K + 1) answers n (Master.init W)).pc = .returned) ∧
    ∀ n, (masterRun (K + 1) answers n (Master.init W)).pc = .returned →
      workCount (masterRun (K + 1) answers n (Master.init W)).log = W ∧
      dieCount (masterRun (K + 1) answers n (Master.init W)).log = K := by
  refine ⟨⟨_, master_returns (K + 1) W answers⟩, ?_⟩
  intro n hn
  have := returned_counts (K + 1) W _ (MasterInv_run (K + 1) W (by omega) answers n).1 hn
  omega

/-- Witness for C1: four slaves, five items, the run of 26 steps. -/
theorem master_sends_W_work_and_K_die_witness :
    workCount (masterRun 5 demoAnswers 26 (Master.init 5)).log = 5 ∧
    dieCount (masterRun 5 demoAnswers 26 (Master.init 5)).log = 4 :=
  (master_sends_W_work_and_K_die 4 5 (by decide) demoAnswers).2 26 (by decide)

/-- C2: in every reachable state of the system of `master()` and `K` slaves,
for any `K` and any `W`, and for every rank `r`, the `WORKTAG` messages sent to
`r` exceed the messages received from `r` by at most one (and are never fewer);
and a step that sends `WORKTAG` to `r` starts from a state where `r` has
nothing outstanding. -/
theorem at_most_one_item_in_flight (K W : Nat) (acts : List Action) (s : System)
    (h : run (K + 1) (System.init W) acts = some s) (r : Nat) :
    recvFrom r s.master.log ≤ workTo r s.master.log ∧
    workTo r s.master.log ≤ recvFrom r s.master.log + 1 ∧
    ∀ a s1, step (K + 1) s a = some s1 →
      workTo r s1.master.log = workTo r s.master.log + 1 →
      workTo r s.master.log = recvFrom r s.master.log := by
  have hinv := SysInv_run (K + 1) W (by omega) acts _ s (SysInv_init (K + 1) W (by omega)) h
  have hb := flow_bounds (K + 1) W s hinv r
  exact ⟨hb.1, hb.2, fun a s1 hs hw => send_needs_answer (K + 1) W (by omega) s s1 a hinv hs r hw⟩

/-- Witness for C2: the first ten steps of `demoSchedule`, rank 1. -/
theorem at_most_one_item_in_flight_witness :
    recvFrom 1 ((run 3 (System.init 5) (demoSchedule.take 10)).getD (System.init 5)).master.log ≤
      workTo 1 ((run 3 (System.init 5) (demoSchedule.take 10)).getD (System.init 5)).master.log ∧
    workTo 1 ((run 3 (System.init 5) (demoSchedule.take 10)).getD (System.init 5)).master.log ≤
      recvFrom 1 ((run 3 (System.init 5) (demoSchedule.take 10)).getD (System.init 5)).master.log + 1 :=
  have h := at_most_one_item_in_flight 2 5 (demoSchedule.take 10)
    ((run 3 (System.init 5) (demoSchedule.take 10)).getD (System.init 5)) rfl 1
  ⟨h.1, h.2.1⟩

/-- C3: in every complete run of the system (the master has returned), every
slave `1..K` has been sent exactly one `DIETAG` message, `K` in all, and each
`DIETAG` message to a rank `r` comes after the master has received an answer to
every item it gave to `r`, none being given to `r` afterwards. -/
theorem each_slave_gets_one_die (K W : Nat) (acts : List Action) (s : System)
    (h : run (K + 1) (System.init W) acts = some s) (hret : s.master.pc = .returned) :
    (∀ r, 1 ≤ r → r ≤ K → dieTo r s.master.log = 1) ∧
    dieCount s.master.log = K ∧
    ∀ (pre post : List Event) (r : Nat) (p : Option Int),
      s.master.log = pre ++ Event.send r DIETAG p :: post →
      recvFrom r pre = workTo r pre ∧ workTo r post = 0 := by
  have hinv := SysInv_run (K + 1) W (by omega) acts _ s (SysInv_init (K + 1) W (by omega)) h
  refine ⟨fun r hr1 hr2 => all_died (K + 1) W (by omega) s hinv hret r hr1 (by omega), ?_,
    hinv.2.2⟩
  have := CountInv_returned (K + 1) W s.master hinv.1.1 hret
  omega

/-- Witness for C3: the complete run `demoSchedule`. -/
theorem each_slave_gets_one_die_witness :
    dieTo 1 demoFinal.master.log = 1 ∧ dieTo 2 demoFinal.master.log = 1 ∧
    dieCount demoFinal.master.log = 2 :=
  have h := each_slave_gets_one_die 2 5 demoSchedule demoFinal rfl (by decide)
  ⟨h.1 1 (by decide) (by decide), h.1 2 (by decide) (by decide), h.2.1⟩

/-- C4, the code with seven ranks and `NUM_WORK_REQS = 5`: the initial round
of `master()` sends six `WORKTAG` messages, one to every slave, the sixth
carrying the ordinal `-1`, which is outside the dispatch table; it does not
stop at `min 6 5 = 5` messages. -/
theorem initial_round_sends_to_every_slave (answers : Nat → Nat × Msg) :
    masterRun 7 answers 13 (Master.init NUM_WORK_REQS) =
      ⟨.workTest, 7, -2, none, 0,
        [Event.send 1 WORKTAG (some 4), Event.send 2 WORKTAG (some 3),
         Event.send 3 WORKTAG (some 2), Event.send 4 WORKTAG (some 1),
         Event.send 5 WORKTAG (some 0), Event.send 6 WORKTAG (some (-1))]⟩ ∧
    workCount (masterRun 7 answers 13 (Master.init NUM_WORK_REQS)).log = 6 ∧
    tab_func (-1) = none := by
  have h : masterRun 7 answers 13 (Master.init NUM_WORK_REQS) =
      ⟨.workTest, 7, -2, none, 0,
        [Event.send 1 WORKTAG (some 4), Event.send 2 WORKTAG (some 3),
         Event.send 3 WORKTAG (some 2), Event.send 4 WORKTAG (some 1),
         Event.send 5 WORKTAG (some 0), Event.send 6 WORKTAG (some (-1))]⟩ := by
    simp [masterRun, masterStep, Master.init, NUM_WORK_REQS]
  refine ⟨h, ?_, by simp [tab_func]⟩
  rw [h]
  decide

/-- C5: when `master()` has returned from a run with `K ≤ W` slaves, the
payloads of its `WORKTAG` sends are, in send order, `W - 1, W - 2, ..., 0`; the
first `K` of them went to the ranks `1, ..., K` in this order (rank `r` got
`W - r`); and every ordinal `j < W` was sent exactly once. -/
theorem master_work_payloads_descend (K W : Nat) (hKW : K ≤ W) (answers : Nat → Nat × Msg)
    (n : Nat) (hret : (masterRun (K + 1) answers n (Master.init W)).pc = .returned) :
    (workSends (masterRun (K + 1) answers n (Master.init W)).log).map (fun x => x.2) =
      (List.range W).map (fun (i : Nat) => some ((W : Int) - 1 - (i : Int))) ∧
    (workSends (masterRun (K + 1) answers n (Master.init W)).log).take K =
      (List.range K).map (fun (i : Nat) => (i + 1, some ((W : Int) - 1 - (i : Int)))) ∧
    ∀ j : Nat, j < W →
      ((workSends (masterRun (K + 1) answers n (Master.init W)).log).map
        (fun x => x.2)).countP (fun q => q = some (j : Int)) = 1 := by
  have hinv := MasterInv_run (K + 1) W (by omega) answers n
  have hc := returned_counts (K + 1) W _ hinv.1 hret
  obtain ⟨o1, o2⟩ := hinv.2.2
  have hs : served (K + 1) (masterRun (K + 1) answers n (Master.init W)) = K + 1 := by
    simp [served, hret]
  rw [hs] at o2
  rw [hc.1, show max W (K + 1 - 1) = W by omega] at o1
  refine ⟨o1, by simpa using o2, ?_⟩
  intro j hj
  rw [o1, List.countP_map]
  have hfun : ((fun q => decide (q = some (j : Int))) ∘
      fun (i : Nat) => some ((W : Int) - 1 - (i : Int))) =
      fun (i : Nat) => decide (i = W - 1 - j) := by
    funext i
    simp only [Function.comp, Option.some.injEq, decide_eq_decide]
    omega
  rw [hfun, countP_range_eq]
  simp
  omega

/-- Witness for C5: four slaves, five items; the initial round hands 4, 3, 2, 1
to the ranks 1, 2, 3, 4. -/
theorem master_work_payloads_descend_witness :
    (workSends (masterRun 5 demoAnswers 26 (Master.init 5)).log).take 4 =
      [(1, some 4), (2, some 3), (3, some 2), (4, some 1)] :=
  (master_work_payloads_descend 4 5 (by decide) demoAnswers 26 (by decide)).2.1

/-- C6: in every execution of the system of `master()` and `K` slaves, for
every `K`, when the master has returned it has completed exactly
`NUM_WORK_REQS` receives (work loop and drain loop together), and then
`K ≤ NUM_WORK_REQS`.  With `K > NUM_WORK_REQS` the master never returns: the
slaves beyond `NUM_WORK_REQS` were handed ordinals below 0 and never answer,
so the master receives nothing from them and stays in a receive of the drain
loop. -/
theorem master_receives_one_result_per_item (K : Nat) (acts : List Action) (s : System)
    (h : run (K + 1) (System.init NUM_WORK_REQS) acts = some s) :
    (s.master.pc = .returned →
      recvCount s.master.log = NUM_WORK_REQS ∧ K ≤ NUM_WORK_REQS) ∧
    (NUM_WORK_REQS < K →
      s.master.pc ≠ .returned ∧
      ∀ r, NUM_WORK_REQS < r → recvFrom r s.master.log = 0 ∧ (s.worker r).outbox = []) := by
  have hinv := SysInv_run (K + 1) NUM_WORK_REQS (by omega) acts _ s
    (SysInv_init (K + 1) NUM_WORK_REQS (by omega)) h
  refine ⟨fun hret => ?_, fun hK => ⟨never_returns K NUM_WORK_REQS hK acts s h, fun r hr => ?_⟩⟩
  · have hle : K ≤ NUM_WORK_REQS := by
      by_contra hlt
      exact never_returns K NUM_WORK_REQS (by omega) acts s h hret
    have := (returned_counts (K + 1) NUM_WORK_REQS _ hinv.1.1 hret).2.2
    exact ⟨by omega, hle⟩
  · have hm := Mute_run (K + 1) NUM_WORK_REQS (by omega) r hr acts _ s
      (SysInv_init (K + 1) NUM_WORK_REQS (by omega)) (Mute_init NUM_WORK_REQS r) h
    exact ⟨hm.2.2.2.2.1, hm.1⟩

/-- Witness for C6: the complete run `demoSchedule` of two slaves ends with
five receives; the run `hangSchedule` of six slaves leaves the master in the
sixth receive of the drain loop after five receives, rank 6 having faulted. -/
theorem master_receives_one_result_per_item_witness :
    recvCount demoFinal.master.log = 5 ∧
    hangFinal.master.pc = .drainRecv ∧ recvCount hangFinal.master.log = 5 ∧
    (hangFinal.worker 6).slave.pc = .fault ∧ hangFinal.master.pc ≠ .returned :=
  ⟨((master_receives_one_result_per_item 2 demoSchedule demoFinal rfl).1 (by decide)).1,
   by decide, by decide, by decide,
   ((master_receives_one_result_per_item 6 hangSchedule hangFinal rfl).2 (by decide)).1⟩

/-- C7: a fresh `slave()` fed any finite sequence of messages tagged `WORKTAG`
or `DIETAG`, the `WORKTAG` ones carrying an ordinal in `0..4`, serves exactly
the messages before the first `DIETAG`: its history is, for each of them in
turn, the receive, one call of the table entry of the ordinal and one send of
the ordinal to rank 0, followed by the receive of the `DIETAG` message if there
is one.  So it calls once per `WORKTAG` message received before the first
`DIETAG`, sends once per call, and every send comes right after the call that
comes right after the receive of a `WORKTAG` message. -/
theorem slave_serves_each_item_once (rank : Nat) (msgs : List Msg)
    (h : ∀ m ∈ msgs, m.tag = DIETAG ∨
      (m.tag = WORKTAG ∧ ∃ v, m.payload = some v ∧ 0 ≤ v ∧ v ≤ 4)) :
    (slaveRun rank Slave.init msgs).log =
      itemsTrace (beforeDie msgs) ++ dieTrace (fromDie msgs) ∧
    (slaveRun rank Slave.init msgs).log.countP isCall =
      (beforeDie msgs).countP (fun m => m.tag = WORKTAG) ∧
    (slaveRun rank Slave.init msgs).log.countP isSend =
      (slaveRun rank Slave.init msgs).log.countP isCall ∧
    ∀ (pre post : List Event) (d : Nat) (t : Int) (p : Option Int),
      (slaveRun rank Slave.init msgs).log = pre ++ Event.send d t p :: post →
      d = 0 ∧ t = 0 ∧ ∃ pre1 v, p = some v ∧
        pre = pre1 ++ [Event.recv 0 WORKTAG (some v), Event.call v] := by
  have htr := (slaveRun_trace rank msgs Slave.init rfl (by
    intro m hm hne
    rcases h m hm with h1 | ⟨-, h2⟩
    · exact absurd h1 hne
    · exact h2)).1
  have htr : (slaveRun rank Slave.init msgs).log =
      itemsTrace (beforeDie msgs) ++ dieTrace (fromDie msgs) := by
    simpa [Slave.init] using htr
  have hall := beforeDie_all_work msgs (fun m hm => (h m hm).imp id (fun x => x.1))
  have hcnt : (beforeDie msgs).countP (fun m => m.tag = WORKTAG) = (beforeDie msgs).length := by
    rw [List.countP_eq_length]
    intro m hm
    simpa using hall m hm
  refine ⟨htr, ?_, ?_, ?_⟩
  · rw [htr, List.countP_append, (itemsTrace_counts _).1, (dieTrace_counts _).1, hcnt]
    rfl
  · rw [htr, List.countP_append, List.countP_append, (itemsTrace_counts _).1,
      (itemsTrace_counts _).2, (dieTrace_counts _).1, (dieTrace_counts _).2]
  · intro pre post d t p hlog
    rw [htr] at hlog
    obtain ⟨pre1, m, hm, hpre, hd, ht, hp⟩ := send_preceded (beforeDie msgs) _
      (by intro e he; cases hf : fromDie msgs <;> simp [hf, dieTrace] at he; simp [he, isSend])
      pre post d t p hlog
    have hm1 : m ∈ msgs := List.takeWhile_subset _ hm
    rcases h m hm1 with h1 | ⟨-, v, hv, -, -⟩
    · have := hall m hm
      simp [WORKTAG, DIETAG, this] at h1
    · exact ⟨hd, ht, pre1, v, by rw [hp, hv], by rw [hpre, hall m hm, hv]; rfl⟩

/-- Witness for C7: two items, the stop message, and an item that comes too
late; the slave calls twice. -/
theorem slave_serves_each_item_once_witness :
    (slaveRun 1 Slave.init demoMsgs).log.countP isCall = 2 :=
  (slave_serves_each_item_once 1 demoMsgs (by decide)).2.1

/-- C8: a slave waiting in its receive that gets a message tagged `DIETAG`,
whatever the payload and whatever its own past, leaves the loop: its history
gains the receive and nothing else (no call, no send), its program counter is
`exited` whatever the payload, and the messages that follow are not looked at.
A message with any other tag takes it to the call of line 131. -/
theorem die_message_stops_slave (rank : Nat) (s : Slave) (hs : s.pc = .recv) (p : Option Int)
    (later : List Msg) :
    slaveRun rank s (⟨DIETAG, p⟩ :: later) =
      ⟨.exited, recvInto s.work p, s.log ++ [Event.recv 0 DIETAG p]⟩ ∧
    (∀ p1 later1, (slaveRun rank s (⟨DIETAG, p1⟩ :: later1)).pc = .exited ∧
      (slaveRun rank s (⟨DIETAG, p1⟩ :: later1)).log.countP isCall = s.log.countP isCall ∧
      (slaveRun rank s (⟨DIETAG, p1⟩ :: later1)).log.countP isSend = s.log.countP isSend) ∧
    ∀ t, t ≠ DIETAG →
      (slaveRecv s ⟨t, p⟩).pc = .call ∧
      slaveRun rank s (⟨t, p⟩ :: later) =
        slaveRun rank (slaveCall rank (slaveRecv s ⟨t, p⟩)).1 later := by
  refine ⟨slaveRun_die rank s hs p later, ?_, fun t ht => slaveRun_work rank s hs t ht p later⟩
  intro p1 later1
  rw [slaveRun_die rank s hs p1 later1]
  simp [List.countP_append, isCall, isSend]

/-- Witness for C8: a fresh slave that gets the empty `DIETAG` message of the
master first and an item afterwards. -/
theorem die_message_stops_slave_witness :
    slaveRun 1 Slave.init [⟨DIETAG, none⟩, ⟨WORKTAG, some 3⟩] =
      ⟨.exited, none, [Event.recv 0 DIETAG none]⟩ :=
  (die_message_stops_slave 1 Slave.init rfl none [⟨WORKTAG, some 3⟩]).1

/-- C9: for every ordinal `i` in `0..4` the table entry `tab_func[i]` exists
and sends exactly one message, to rank 0 with tag 0 and payload `i`, whatever
the rank and the local state of the caller; so the call made by any two slaves
holding the same ordinal sends the same message. -/
theorem table_entry_sends_its_ordinal (i : Int) (h0 : 0 ≤ i) (h4 : i ≤ 4) :
    (∃ f, tab_func i = some f ∧
      ∀ (rank : Nat) (s : Slave), f rank s = [(0, ⟨0, some i⟩)]) ∧
    ∀ (rank1 rank2 : Nat) (s1 s2 : Slave), s1.work = some i → s2.work = some i →
      (slaveCall rank1 s1).2 = [(0, ⟨0, some i⟩)] ∧
      (slaveCall rank1 s1).2 = (slaveCall rank2 s2).2 := by
  obtain ⟨f, hf⟩ := tab_func_in_range i h0 h4
  have hout : ∀ (rank : Nat) (s : Slave), s.work = some i →
      (slaveCall rank s).2 = [(0, ⟨0, some i⟩)] := by
    intro rank s hw
    simp [slaveCall, hw, hf, (tab_func_sends i f hf rank s).2.2]
  refine ⟨⟨f, hf, fun rank s => (tab_func_sends i f hf rank s).2.2⟩, ?_⟩
  intro rank1 rank2 s1 s2 hw1 hw2
  exact ⟨hout rank1 s1 hw1, by rw [hout rank1 s1 hw1, hout rank2 s2 hw2]⟩

/-- Witness for C9: the entry of ordinal 3. -/
theorem table_entry_sends_its_ordinal_witness :
    ∃ f, tab_func 3 = some f ∧
      ∀ (rank : Nat) (s : Slave), f rank s = [(0, ⟨0, some 3⟩)] :=
  (table_entry_sends_its_ordinal 3 (by decide) (by decide)).1

/-- C10: with `1 ≤ K ≤ W ≤ 5` (the table has five entries; the program ships
`W = 5`), every execution of the system of `master()` and `K` slaves has at
most `4 * K + 5 * W + 3` steps; a reachable state where no process can move is
exactly a final state (master returned, every slave has received `DIETAG` and
left its loop, no message pending); and from every reachable state a final
state can be reached. -/
theorem system_terminates_without_deadlock (K W : Nat) (hK : 1 ≤ K) (hKW : K ≤ W) (hW : W ≤ 5)
    (acts : List Action) (s : System) (h : run (K + 1) (System.init W) acts = some s) :
    acts.length ≤ 4 * K + 5 * W + 3 ∧
    ((∀ a, step (K + 1) s a = none) ↔ s.final (K + 1)) ∧
    ∃ more s1, run (K + 1) s more = some s1 ∧ s1.final (K + 1) := by
  have hinv := SysInv_run (K + 1) W (by omega) acts _ s (SysInv_init (K + 1) W (by omega)) h
  have hrng := RangeInv_run (K + 1) W (by omega) (by omega) hW acts _ s
    (SysInv_init (K + 1) W (by omega)) (RangeInv_init W) h
  refine ⟨?_, ⟨stuck_final (K + 1) W (by omega) s hinv hrng, final_stuck (K + 1) s⟩,
    reach_final (K + 1) W (by omega) (by omega) hW _ s (le_refl _) hinv hrng⟩
  have hfuel := run_fuel (K + 1) acts _ s h
  have h0 : systemFuel (K + 1) (System.init W) = 4 * K + 5 * W + 3 := by
    have hz : ((List.range (K + 1)).map
        (fun r => workerFuel ((System.init W).worker r))).sum = 0 := by
      simp [System.init, workerFuel, Slave.init]
    simp only [systemFuel, hz]
    simp [System.init, Master.init, masterFuel]
    omega
  omega

/-- Witness for C10: the complete run `demoSchedule`, 34 steps for two slaves
and five items. -/
theorem system_terminates_without_deadlock_witness :
    demoSchedule.length ≤ 4 * 2 + 5 * 5 + 3 :=
  (system_terminates_without_deadlock 2 5 (by decide) (by decide) (by decide) demoSchedule
    demoFinal rfl).1

/-- C19: the master returns, and its history is then the `world_size - 1` sends
of the initial round followed by pairs of one receive and one send, the send
of each pair addressed to the source of the receive of that pair: `WORKTAG`
with the next item in the first `W + 1 - world_size` pairs (the work loop),
`DIETAG` in the pairs after them (the drain loop).  So the ranks that are sent
`DIETAG` are, in order, the sources of the receives of the drain loop. -/
theorem die_order_is_receipt_order (ws W : Nat) (hws : 1 ≤ ws) (answers : Nat → Nat × Msg) :
    (masterRun ws answers (masterFuel ws (Master.init W)) (Master.init W)).pc = .returned ∧
    (masterRun ws answers (masterFuel ws (Master.init W)) (Master.init W)).log =
      initLog W (ws - 1) ++
        exchangeLog ((List.range (max W (ws - 1))).map (exchangeAt ws W answers)) ∧
    alternates ((masterRun ws answers (masterFuel ws (Master.init W)) (Master.init W)).log.drop
      (ws - 1)) = true ∧
    dieDests (masterRun ws answers (masterFuel ws (Master.init W)) (Master.init W)).log =
      (recvSources (masterRun ws answers (masterFuel ws (Master.init W))
        (Master.init W)).log).drop (W + 1 - ws) := by
  have hret := master_returns ws W answers
  obtain ⟨h1, h2, h3⟩ := returned_log ws W hws answers _ hret
  refine ⟨hret, h1, ?_, ?_⟩
  · rw [h1, List.drop_left' (initLog_length W (ws - 1))]
    exact alternates_exchangeLog _
  · rw [h2, h3, drop_map_range]
    congr 2
    omega

/-- Witness for C19: two slaves and five items, slave 2 answering only once,
as the first of the drain loop: `DIETAG` goes to rank 2 before rank 1. -/
theorem die_order_is_receipt_order_witness :
    dieDests (masterRun 3 lateAnswers (masterFuel 3 (Master.init 5)) (Master.init 5)).log =
      [2, 1] ∧
    recvSources (masterRun 3 lateAnswers (masterFuel 3 (Master.init 5)) (Master.init 5)).log =
      [1, 1, 1, 2, 1] :=
  have h := die_order_is_receipt_order 3 5 (by decide) lateAnswers
  ⟨h.2.2.2.trans (by decide), by decide⟩

/-- C23: with `K ≤ NUM_WORK_REQS` slaves, at every point of every run of
`master()` each `WORKTAG` message it has sent carries an ordinal `w` with
`0 ≤ w ≤ NUM_WORK_REQS - 1 = 4`, an index of one of the five entries of
`tab_func`; and in every reachable state of the system no slave has made a call
outside the table, every pending `WORKTAG` message and every ordinal a slave is
about to call with being in `0..4`.  With `K > NUM_WORK_REQS` slaves the
initial round sends the ordinal `-1` to the rank `NUM_WORK_REQS + 1`, which is
outside the table, and there is an execution in which that slave makes the
call `tab_func[-1]`. -/
theorem work_payloads_index_table (K : Nat) :
    (K ≤ NUM_WORK_REQS →
      (∀ (answers : Nat → Nat × Msg) (n d : Nat) (p : Option Int),
        Event.send d WORKTAG p ∈
          (masterRun (K + 1) answers n (Master.init NUM_WORK_REQS)).log →
        ∃ w f, p = some w ∧ 0 ≤ w ∧ w ≤ (NUM_WORK_REQS : Int) - 1 ∧ w ≤ 4 ∧
          tab_func w = some f) ∧
      (∀ (acts : List Action) (s : System),
        run (K + 1) (System.init NUM_WORK_REQS) acts = some s → ∀ r,
          (s.worker r).slave.pc ≠ .fault ∧
          (∀ msg ∈ (s.worker r).inbox, msg.tag = WORKTAG →
            ∃ w f, msg.payload = some w ∧ 0 ≤ w ∧ w ≤ 4 ∧ tab_func w = some f) ∧
          ((s.worker r).slave.pc = .call →
            ∃ w f, (s.worker r).slave.work = some w ∧ 0 ≤ w ∧ w ≤ 4 ∧
              tab_func w = some f))) ∧
    (NUM_WORK_REQS < K →
      (∀ answers : Nat → Nat × Msg,
        Event.send (NUM_WORK_REQS + 1) WORKTAG (some (-1)) ∈
          (masterRun (K + 1) answers (masterFuel (K + 1) (Master.init NUM_WORK_REQS))
            (Master.init NUM_WORK_REQS)).log) ∧
      tab_func (-1) = none ∧
      ∃ s, run (K + 1) (System.init NUM_WORK_REQS) faultSchedule = some s ∧
        (s.worker (NUM_WORK_REQS + 1)).slave.work = some (-1) ∧
        (s.worker (NUM_WORK_REQS + 1)).slave.pc = .fault) := by
  refine ⟨fun hK => ⟨?_, ?_⟩, fun hK => ⟨?_, by simp [tab_func], faultSchedule_faults K hK⟩⟩
  · intro answers n d p hp
    obtain ⟨w, rfl, h0, h1⟩ := work_payload_bounds (K + 1) NUM_WORK_REQS (by omega) _
      (MasterInv_run (K + 1) NUM_WORK_REQS (by omega) answers n) d p hp
    have h4 : w ≤ 4 := by simp only [NUM_WORK_REQS] at h1; omega
    obtain ⟨f, hf⟩ := tab_func_in_range w h0 h4
    exact ⟨w, f, rfl, h0, h1, h4, hf⟩
  · intro acts s hrun r
    obtain ⟨g1, g2, g3⟩ := RangeInv_run (K + 1) NUM_WORK_REQS (by omega) (by omega)
      (by decide) acts _ s (SysInv_init (K + 1) NUM_WORK_REQS (by omega))
      (RangeInv_init NUM_WORK_REQS) hrun r
    refine ⟨g3, ?_, ?_⟩
    · intro msg hmsg htag
      rcases g1 msg hmsg with rfl | ⟨v, rfl, h0, h4⟩
      · simp [WORKTAG, DIETAG] at htag
      · obtain ⟨f, hf⟩ := tab_func_in_range v h0 h4
        exact ⟨v, f, rfl, h0, h4, hf⟩
    · intro hpc
      obtain ⟨v, hv, h0, h4⟩ := g2 hpc
      obtain ⟨f, hf⟩ := tab_func_in_range v h0 h4
      exact ⟨v, f, hv, h0, h4, hf⟩
  · intro answers
    have hret := master_returns (K + 1) NUM_WORK_REQS answers
    rw [(returned_log (K + 1) NUM_WORK_REQS (by omega) answers _ hret).1]
    apply List.mem_append_left
    have := mem_initLog NUM_WORK_REQS (K + 1 - 1) NUM_WORK_REQS (by omega)
    simpa [NUM_WORK_REQS] using this

/-- Witness for C23: with two slaves the ordinals of the complete run
`demoSchedule` stay in the table and no slave faults; with six slaves the
initial round sends `-1` to rank 6. -/
theorem work_payloads_index_table_witness :
    (demoFinal.worker 1).slave.pc ≠ .fault ∧ (demoFinal.worker 2).slave.pc ≠ .fault ∧
    Event.send 6 WORKTAG (some (-1)) ∈
      (masterRun 7 demoAnswers (masterFuel 7 (Master.init NUM_WORK_REQS))
        (Master.init NUM_WORK_REQS)).log :=
  ⟨(((work_payloads_index_table 2).1 (by decide)).2 demoSchedule demoFinal rfl 1).1,
   (((work_payloads_index_table 2).1 (by decide)).2 demoSchedule demoFinal rfl 2).1,
   ((work_payloads_index_table 6).2 (by decide)).1 demoAnswers⟩

end MasterSlave

namespace MatrixSum

theorem fold_update_apply (h : Nat → Int → Int) (row : Row) (n j : Nat) :
    (List.range n).foldl (fun r k => Function.update r k (h k (r k))) row j =
      if j < n then h j (row j) else row j := by
  induction n with
  | zero => simp
  | succ n ih =>
    simp only [List.range_succ, List.foldl_append, List.foldl_cons, List.foldl_nil]
    by_cases hj : j = n
    · subst hj
      simp [ih]
    · rw [Function.update_noteq hj, ih]
      clear ih
      by_cases h1 : j < n
      · simp [h1, Nat.lt_succ_of_lt h1]
      · have : ¬ j < n + 1 := by omega
        simp [h1, this]

theorem task4Rows_result (delivered : Nat → Nat → List Int)
    (hlen : ∀ r t, (delivered r t).length = COLS) (n : Nat) (i j : Nat) (hi : i < n)
    (hj : j < COLS) :
    (task4Rows delivered n).result i j =
      (delivered TASK1_RANK i).getD j 0 + (delivered TASK2_RANK i).getD j 0 +
        (delivered TASK3_RANK i).getD j 0 := by
  have hget : ∀ (buf : Row) (r t : Nat), recvRow buf (delivered r t) j = (delivered r t).getD j 0 := by
    intro buf r t
    have : j < (delivered r t).length := by rw [hlen]; exact hj
    simp [recvRow, List.getD, List.getElem?_eq_getElem this]
  induction n with
  | zero => omega
  | succ n ih =>
    simp only [task4Rows, List.range_succ, List.foldl_append, List.foldl_cons, List.foldl_nil]
    by_cases hin : i = n
    · subst hin
      simp only [task4Row, Function.update_same]
      rw [fold_update_apply (fun k _ => _) _ COLS j]
      simp only [hj, if_true, hget]
    · simp only [task4Row]
      rw [Function.update_noteq hin]
      exact ih (by omega)

/-! # The claims about `a09_e02_matrix_sum.c` -/

/-- C11: each of `task1`, `task2`, `task3` sends exactly `ROWS` messages; the
`i`-th of them goes to `MASTER_RANK`, has tag `i` and carries the `COLS`
entries of row `i` as they are right after that row's update (which is how the
row stays until the end): all 10 for `task1`, all 5 for `task2`, all `3 + 3 i`
for `task3`. -/
theorem producers_send_each_row (i : Nat) (hi : i < ROWS) :
    (task1.sent.length = ROWS ∧ task2.sent.length = ROWS ∧ task3.sent.length = ROWS) ∧
    (task1.sent.get? i = some ⟨MASTER_RANK, i, rowData ((task1After (i + 1)).m i)⟩ ∧
     task2.sent.get? i = some ⟨MASTER_RANK, i, rowData ((task2After (i + 1)).m i)⟩ ∧
     task3.sent.get? i = some ⟨MASTER_RANK, i, rowData ((task3After (i + 1)).m i)⟩) ∧
    (rowData ((task1After (i + 1)).m i) = List.replicate COLS 10 ∧
     rowData ((task2After (i + 1)).m i) = List.replicate COLS 5 ∧
     rowData ((task3After (i + 1)).m i) = List.replicate COLS (3 + 3 * (i : Int))) ∧
    (rowData (task1.m i) = rowData ((task1After (i + 1)).m i) ∧
     rowData (task2.m i) = rowData ((task2After (i + 1)).m i) ∧
     rowData (task3.m i) = rowData ((task3After (i + 1)).m i)) := by
  have h : i = 0 ∨ i = 1 ∨ i = 2 := by simp only [ROWS] at hi; omega
  rcases h with rfl | rfl | rfl <;> decide

/-- Witness for C11: the last row. -/
theorem producers_send_each_row_witness :
    task3.sent.get? 2 = some ⟨MASTER_RANK, 2, rowData ((task3After 3).m 2)⟩ ∧
    rowData ((task3After 3).m 2) = [9, 9, 9] :=
  ⟨(producers_send_each_row 2 (by decide)).2.1.2.2, by decide⟩

/-- C12: whatever the messages contain, `task4` completes exactly nine
receives, in the order rank 1, 2, 3 for tag 0, then for tag 1, then for tag 2,
and the print of `result` is the last thing it does, after all nine. -/
theorem aggregator_receives_then_prints (delivered : Nat → Nat → List Int) :
    recvsOf (task4 delivered).trace =
      [(1, 0), (2, 0), (3, 0), (1, 1), (2, 1), (3, 1), (1, 2), (2, 2), (3, 2)] ∧
    (recvsOf (task4 delivered).trace).length = 3 * ROWS ∧
    (task4 delivered).trace =
      (task4Rows delivered ROWS).trace ++
        [AggEvent.printResult (printed (task4 delivered).result)] ∧
    recvsOf (task4Rows delivered ROWS).trace = recvsOf (task4 delivered).trace ∧
    (task4Rows delivered ROWS).trace.all (fun e => !isPrint e) = true := by
  simp [task4, task4Rows, task4Row, ROWS, List.range_succ, recvsOf, isPrint, TASK1_RANK,
    TASK2_RANK, TASK3_RANK]

/-- C13: with the rows of `task1`, `task2`, `task3` delivered by tag, every
entry of `result` is the sum of the three producers' entries, which is
`18 + 3 i`; and for any delivered messages of `COLS` ints, row `i` of `result`
is the entrywise sum of the three messages with tag `i`, so two runs that agree
on those three messages agree on row `i`. -/
theorem result_is_sum_of_rows (i j : Nat) (hi : i < ROWS) (hj : j < COLS) :
    (task4 fromProducers).result i j = task1.m i j + task2.m i j + task3.m i j ∧
    (task4 fromProducers).result i j = 18 + 3 * (i : Int) ∧
    (∀ delivered : Nat → Nat → List Int, (∀ r t, (delivered r t).length = COLS) →
      (task4 delivered).result i j =
        (delivered TASK1_RANK i).getD j 0 + (delivered TASK2_RANK i).getD j 0 +
          (delivered TASK3_RANK i).getD j 0) ∧
    (∀ d1 d2 : Nat → Nat → List Int, (∀ r t, (d1 r t).length = COLS) →
      (∀ r t, (d2 r t).length = COLS) → (∀ r, d1 r i = d2 r i) →
      (task4 d1).result i j = (task4 d2).result i j) := by
  have hgen : ∀ delivered : Nat → Nat → List Int, (∀ r t, (delivered r t).length = COLS) →
      (task4 delivered).result i j =
        (delivered TASK1_RANK i).getD j 0 + (delivered TASK2_RANK i).getD j 0 +
          (delivered TASK3_RANK i).getD j 0 := by
    intro delivered hlen
    exact task4Rows_result delivered hlen ROWS i j hi hj
  refine ⟨?_, ?_, hgen, ?_⟩
  · have h : i = 0 ∨ i = 1 ∨ i = 2 := by simp only [ROWS] at hi; omega
    have h2 : j = 0 ∨ j = 1 ∨ j = 2 := by simp only [COLS] at hj; omega
    rcases h with rfl | rfl | rfl <;> rcases h2 with rfl | rfl | rfl <;> decide
  · have h : i = 0 ∨ i = 1 ∨ i = 2 := by simp only [ROWS] at hi; omega
    have h2 : j = 0 ∨ j = 1 ∨ j = 2 := by simp only [COLS] at hj; omega
    rcases h with rfl | rfl | rfl <;> rcases h2 with rfl | rfl | rfl <;> decide
  · intro d1 d2 h1 h2 heq
    rw [hgen d1 h1, hgen d2 h2, heq, heq, heq]

/-- Witness for C13: the middle entry of the last row is 24. -/
theorem result_is_sum_of_rows_witness :
    (task4 fromProducers).result 2 1 = 24 :=
  (result_is_sum_of_rows 2 1 (by decide) (by decide)).2.1

end MatrixSum

namespace MatrixMul

theorem sumRows_apply (n : Nat) (rowX rowY rowZ row mWi : Vec) (j : Nat) :
    (sumRows n rowX rowY rowZ row mWi).1 j = (if j < n then rowX j + rowY j + rowZ j else row j) ∧
    (sumRows n rowX rowY rowZ row mWi).2 j = (if j < n then 0 else mWi j) := by
  unfold sumRows
  induction n with
  | zero => simp
  | succ n ih =>
    simp only [List.range_succ, List.foldl_append, List.foldl_cons, List.foldl_nil]
    by_cases hj : j = n
    · subst hj; simp
    · rw [Function.update_noteq hj, Function.update_noteq hj, ih.1, ih.2]
      clear ih
      by_cases h1 : j < n
      · simp [h1, Nat.lt_succ_of_lt h1]
      · have : ¬ j < n + 1 := by omega
        simp [h1, this]

theorem accumulate_apply (mT : Mat) (row : Vec) (j : Nat) (n : Nat) (w : Vec) (j2 : Nat) :
    (List.range n).foldl (fun w k => Function.update w j (w j + row j * mT k j)) w j2 =
      if j2 = j then w j + row j * Finset.sum (Finset.range n) (fun k => mT k j) else w j2 := by
  induction n with
  | zero => by_cases h : j2 = j <;> simp [h]
  | succ n ih =>
    simp only [List.range_succ, List.foldl_append, List.foldl_cons, List.foldl_nil]
    by_cases h : j2 = j
    · subst h
      simp only [Function.update_same, if_true]
      have := ih
      simp only [if_true] at this
      rw [this, Finset.sum_range_succ]
      ring
    · rw [Function.update_noteq h, ih]
      simp [h]

theorem multiplyRow_apply (n : Nat) (mT : Mat) (row mWi : Vec) (j : Nat) :
    multiplyRow n mT row mWi j =
      if j < n then mWi j + row j * Finset.sum (Finset.range n) (fun k => mT k j) else mWi j := by
  unfold multiplyRow
  generalize hm : n = m
  have key : ∀ c : Nat, (List.range c).foldl (fun w j =>
      (List.range m).foldl (fun w k => Function.update w j (w j + row j * mT k j)) w) mWi j =
      if j < c then mWi j + row j * Finset.sum (Finset.range m) (fun k => mT k j) else mWi j := by
    intro c
    induction c with
    | zero => simp
    | succ c ih =>
      simp only [List.range_succ, List.foldl_append, List.foldl_cons, List.foldl_nil]
      rw [accumulate_apply]
      by_cases hj : j = c
      · subst hj
        simp only [if_true, ih]
        simp
      · simp only [hj, if_false, ih]
        by_cases h1 : j < c
        · simp [h1, Nat.lt_succ_of_lt h1]
        · have : ¬ j < c + 1 := by omega
          simp [h1, this]
  exact key m

theorem initRow_apply (i : Nat) (c : Nat) (m : Mat) (i2 j2 : Nat) :
    (List.range c).foldl (fun m j =>
      let m1 := setEntry m i j 0
      if i = j then setEntry m1 i j 1 else m1) m i2 j2 =
      if i2 = i ∧ j2 < c then (if i = j2 then 1 else 0) else m i2 j2 := by
  induction c with
  | zero => simp
  | succ c ih =>
    simp only [List.range_succ, List.foldl_append, List.foldl_cons, List.foldl_nil]
    by_cases hi : i2 = i
    · subst hi
      by_cases hj : j2 = c
      · subst hj
        by_cases hd : i2 = j2 <;> simp [setEntry, hd]
      · have e2 : ∀ (m : Mat), (if i2 = c then setEntry (setEntry m i2 c 0) i2 c 1
            else setEntry m i2 c 0) i2 j2 = m i2 j2 := by
          intro m
          split_ifs <;> simp [setEntry, Function.update_noteq hj]
        simp only [] at e2 ⊢
        rw [e2, ih]
        clear ih
        by_cases h1 : j2 < c
        · simp [h1, Nat.lt_succ_of_lt h1]
        · have : ¬ j2 < c + 1 := by omega
          simp [h1, this]
    · have e1 : ∀ (m : Mat) (v : ℚ), setEntry m i c v i2 = m i2 := by
        intro m v
        simp [setEntry, Function.update_noteq hi]
      have e2 : ∀ (m : Mat), (if i = c then setEntry (setEntry m i c 0) i c 1
          else setEntry m i c 0) i2 j2 = m i2 j2 := by
        intro m
        split_ifs <;> simp [e1]
      simp only [] at e2 ⊢
      rw [e2, ih]
      simp [hi]

theorem initT_apply (n : Nat) (m : Mat) (i j : Nat) :
    initT n m i j = if i < n ∧ j < n then (if i = j then 1 else 0) else m i j := by
  unfold initT
  generalize hm : n = c
  have key : ∀ r : Nat, (List.range r).foldl (fun m i =>
      (List.range c).foldl (fun m j =>
        let m1 := setEntry m i j 0
        if i = j then setEntry m1 i j 1 else m1) m) m i j =
      if i < r ∧ j < c then (if i = j then 1 else 0) else m i j := by
    intro r
    induction r with
    | zero => simp
    | succ r ih =>
      simp only [List.range_succ, List.foldl_append, List.foldl_cons, List.foldl_nil]
      rw [initRow_apply, ih]
      clear ih
      by_cases hi : i = r
      · subst hi
        by_cases hj : j < c <;> simp [hj]
      · by_cases h1 : i < r
        · simp [hi, h1, Nat.lt_succ_of_lt h1]
        · have : ¬ i < r + 1 := by omega
          simp [hi, h1, this]
  exact key c

theorem identity_column_sum (n : Nat) (m : Mat) (j : Nat) (hj : j < n) :
    Finset.sum (Finset.range n) (fun k => initT n m k j) = 1 := by
  have : ∀ k ∈ Finset.range n, initT n m k j = if k = j then 1 else 0 := by
    intro k hk
    rw [initT_apply]
    simp [Finset.mem_range.1 hk, hj]
  rw [Finset.sum_congr rfl this, Finset.sum_ite_eq']
  simp [hj]

theorem task_master_apply (n : Nat) (delivered : Nat → Nat → Vec) (i j : Nat) (hi : i < n)
    (hj : j < n) :
    task_master n delivered i j =
      (delivered 1 i j + delivered 2 i j + delivered 3 i j) *
        Finset.sum (Finset.range n) (fun k => initT n (fun _ _ => 0) k j) := by
  unfold task_master
  generalize hT : initT n (fun _ _ => 0) = mT
  have key : ∀ c : Nat, i < c → ((List.range c).foldl (fun (st : MasterState) i =>
      let rowX := delivered 1 i
      let rowY := delivered 2 i
      let rowZ := delivered 3 i
      let s1 := sumRows n rowX rowY rowZ st.row (st.mW i)
      { row := s1.1, mW := Function.update st.mW i (multiplyRow n mT s1.1 s1.2) })
      ⟨fun _ => 0, fun _ _ => 0⟩).mW i j =
      (delivered 1 i j + delivered 2 i j + delivered 3 i j) *
        Finset.sum (Finset.range n) (fun k => mT k j) := by
    intro c
    induction c with
    | zero => intro h; omega
    | succ c ih =>
      intro hic
      simp only [List.range_succ, List.foldl_append, List.foldl_cons, List.foldl_nil]
      by_cases hc : i = c
      · subst hc
        simp only [Function.update_same]
        rw [multiplyRow_apply, (sumRows_apply _ _ _ _ _ _ j).1, (sumRows_apply _ _ _ _ _ _ j).2]
        simp only [hj, if_true]
        ring
      · rw [Function.update_noteq hc]
        exact ih (by omega)
  exact key n hi

/-! # The claims about `a10_e03_matrix_multiplication.c` -/

/-- C20: with the `mT` that `task_master` initialises itself, for every `n` and
all `i, j < n`, the entry `mW[i][j]` is the sum of the entries `j` of the three
rows received with tag `i`. -/
theorem identity_transform_gives_sum (n : Nat) (delivered : Nat → Nat → Vec) (i j : Nat)
    (hi : i < n) (hj : j < n) :
    task_master n delivered i j = delivered 1 i j + delivered 2 i j + delivered 3 i j ∧
    (∀ k, k < n → initT n (fun _ _ => 0) k j = if k = j then 1 else 0) ∧
    task_master n delivered i j =
      vecMul n (fun k => delivered 1 i k + delivered 2 i k + delivered 3 i k)
        (initT n (fun _ _ => 0)) j := by
  have h1 : task_master n delivered i j =
      delivered 1 i j + delivered 2 i j + delivered 3 i j := by
    rw [task_master_apply n delivered i j hi hj, identity_column_sum n _ j hj, mul_one]
  have h2 : ∀ k, k < n → initT n (fun _ _ => 0) k j = if k = j then 1 else 0 := by
    intro k hk
    rw [initT_apply]
    simp [hk, hj]
  refine ⟨h1, h2, ?_⟩
  rw [h1]
  unfold vecMul
  have : ∀ k ∈ Finset.range n,
      (delivered 1 i k + delivered 2 i k + delivered 3 i k) * initT n (fun _ _ => 0) k j =
      if k = j then (delivered 1 i k + delivered 2 i k + delivered 3 i k) else 0 := by
    intro k hk
    rw [h2 k (Finset.mem_range.1 hk)]
    split_ifs <;> simp
  rw [Finset.sum_congr rfl this, Finset.sum_ite_eq']
  simp [hj]

/-- Witness for C20: the shipped `N = 2`, entry `[1][0]`. -/
theorem identity_transform_gives_sum_witness :
    task_master N demoDelivered 1 0 =
      demoDelivered 1 1 0 + demoDelivered 2 1 0 + demoDelivered 3 1 0 :=
  (identity_transform_gives_sum N demoDelivered 1 0 (by decide) (by decide)).1

end MatrixMul

namespace ArrayMax

theorem scatter_state (ary_size ws : Nat) (s0 d0 : Nat → Nat) (n : Nat) :
    ((List.range n).foldl (scatterBody (ary_size / ws) (ary_size % ws) ws)
        ⟨0, s0, d0⟩).displacement = countsBelow ary_size ws n ∧
    (∀ i, ((List.range n).foldl (scatterBody (ary_size / ws) (ary_size % ws) ws)
        ⟨0, s0, d0⟩).sendcounts i = if i < n then countOf ary_size ws i else s0 i) ∧
    (∀ i, ((List.range n).foldl (scatterBody (ary_size / ws) (ary_size % ws) ws)
        ⟨0, s0, d0⟩).displacements i = if i < n then countsBelow ary_size ws i else d0 i) := by
  induction n with
  | zero => simp [countsBelow]
  | succ n ih =>
    simp only [List.range_succ, List.foldl_append, List.foldl_cons, List.foldl_nil]
    obtain ⟨h1, h2, h3⟩ := ih
    refine ⟨?_, ?_, ?_⟩
    · simp [scatterBody, h1, countsBelow, countOf]
    · intro i
      by_cases hi : i = n
      · subst hi; simp [scatterBody, countOf]
      · have := h2 i
        simp only [scatterBody, Function.update_noteq hi, this]
        by_cases h4 : i < n
        · simp [h4, Nat.lt_succ_of_lt h4]
        · have : ¬ i < n + 1 := by omega
          simp [h4, this]
    · intro i
      by_cases hi : i = n
      · subst hi; simp [scatterBody, h1]
      · have := h3 i
        simp only [scatterBody, Function.update_noteq hi, this]
        by_cases h4 : i < n
        · simp [h4, Nat.lt_succ_of_lt h4]
        · have : ¬ i < n + 1 := by omega
          simp [h4, this]

theorem countsBelow_eq (a ws n : Nat) :
    countsBelow a ws n = n * (a / ws) + (n - (ws - a % ws)) := by
  induction n with
  | zero => simp [countsBelow]
  | succ n ih =>
    simp only [countsBelow, ih, countOf, Nat.succ_mul]
    split_ifs <;> omega

theorem countsBelow_total (a ws : Nat) (hws : 1 ≤ ws) : countsBelow a ws ws = a := by
  have h1 : a % ws < ws := Nat.mod_lt _ (by omega)
  have h2 := Nat.div_add_mod a ws
  rw [countsBelow_eq]
  generalize a / ws = q at *
  generalize a % ws = r at *
  omega

theorem countsBelow_mono (a ws : Nat) (r1 r2 : Nat) (h : r1 ≤ r2) :
    countsBelow a ws r1 ≤ countsBelow a ws r2 := by
  induction r2 with
  | zero =>
    have : r1 = 0 := by omega
    subst this
    exact le_refl _
  | succ n ih =>
    by_cases h1 : r1 = n + 1
    · subst h1; exact le_refl _
    · have := ih (by omega)
      simp only [countsBelow]
      omega

theorem countsBelow_cover (a ws : Nat) (n k : Nat) (hk : k < countsBelow a ws n) :
    ∃ r, r < n ∧ countsBelow a ws r ≤ k ∧ k < countsBelow a ws (r + 1) := by
  induction n with
  | zero => simp [countsBelow] at hk
  | succ n ih =>
    by_cases h1 : k < countsBelow a ws n
    · obtain ⟨r, hr, h2, h3⟩ := ih h1
      exact ⟨r, by omega, h2, h3⟩
    · exact ⟨n, by omega, by omega, hk⟩

theorem countsBelow_unique (a ws : Nat) (r1 r2 k : Nat)
    (h1 : countsBelow a ws r1 ≤ k) (h2 : k < countsBelow a ws (r1 + 1))
    (h3 : countsBelow a ws r2 ≤ k) (h4 : k < countsBelow a ws (r2 + 1)) : r1 = r2 := by
  rcases Nat.lt_trichotomy r1 r2 with h | h | h
  · have := countsBelow_mono a ws (r1 + 1) r2 (by omega)
    omega
  · exact h
  · have := countsBelow_mono a ws (r2 + 1) r1 (by omega)
    omega

theorem sum_sendcounts (a ws : Nat) (f : Nat → Nat) (n : Nat)
    (hf : ∀ i, i < n → f i = countOf a ws i) :
    ((List.range n).map f).sum = countsBelow a ws n := by
  induction n with
  | zero => simp [countsBelow]
  | succ n ih =>
    rw [List.range_succ, List.map_append, List.sum_append, ih (fun i hi => hf i (by omega))]
    simp [countsBelow, hf n (by omega)]

theorem fold_max_spec (ary : Nat → Int) (m0 : Int) (n : Nat) :
    m0 ≤ (List.range n).foldl (fun max i => if ary i > max then ary i else max) m0 ∧
    (∀ i, i < n → ary i ≤ (List.range n).foldl (fun max i => if ary i > max then ary i else max) m0) ∧
    ((List.range n).foldl (fun max i => if ary i > max then ary i else max) m0 = m0 ∨
      ∃ i, i < n ∧ (List.range n).foldl (fun max i => if ary i > max then ary i else max) m0 = ary i) := by
  induction n with
  | zero => simp
  | succ n ih =>
    simp only [List.range_succ, List.foldl_append, List.foldl_cons, List.foldl_nil]
    obtain ⟨h1, h2, h3⟩ := ih
    split_ifs with hgt
    · refine ⟨by omega, ?_, Or.inr ⟨n, by omega, rfl⟩⟩
      intro i hi
      by_cases hin : i = n
      · subst hin; exact le_refl _
      · have := h2 i (by omega)
        omega
    · refine ⟨h1, ?_, ?_⟩
      · intro i hi
        by_cases hin : i = n
        · subst hin; omega
        · exact h2 i (by omega)
      · rcases h3 with h3 | ⟨i, hi, h3⟩
        · exact Or.inl h3
        · exact Or.inr ⟨i, by omega, h3⟩

theorem array_max_le_iff (ary : Nat → Int) (n : Nat) (x : Int) :
    array_max ary n ≤ x ↔ INT_MIN ≤ x ∧ ∀ i, i < n → ary i ≤ x := by
  obtain ⟨h1, h2, h3⟩ := fold_max_spec ary INT_MIN n
  unfold array_max
  constructor
  · intro h
    exact ⟨le_trans h1 h, fun i hi => le_trans (h2 i hi) h⟩
  · intro ⟨hx, hall⟩
    rcases h3 with h3 | ⟨i, hi, h3⟩
    · rw [h3]; exact hx
    · rw [h3]; exact hall i hi

theorem fold_reduce_le_iff (contrib : Nat → Int) (a0 : Int) (n : Nat) (x : Int) :
    (List.range n).foldl (fun acc r => max acc (contrib r)) a0 ≤ x ↔
      a0 ≤ x ∧ ∀ r, r < n → contrib r ≤ x := by
  induction n with
  | zero => simp
  | succ n ih =>
    simp only [List.range_succ, List.foldl_append, List.foldl_cons, List.foldl_nil, max_le_iff, ih]
    constructor
    · rintro ⟨⟨h1, h2⟩, h3⟩
      refine ⟨h1, fun r hr => ?_⟩
      by_cases hrn : r = n
      · subst hrn; exact h3
      · exact h2 r (by omega)
    · rintro ⟨h1, h2⟩
      exact ⟨⟨h1, fun r hr => h2 r (by omega)⟩, h2 n (by omega)⟩

theorem reduceMax_le_iff (contrib : Nat → Int) (ws : Nat) (hws : 1 ≤ ws) (x : Int) :
    reduceMax contrib ws ≤ x ↔ ∀ r, r < ws → contrib r ≤ x := by
  unfold reduceMax
  rw [fold_reduce_le_iff]
  constructor
  · intro h; exact h.2
  · intro h; exact ⟨h 0 (by omega), h⟩

theorem scatter_result (ary_size ws : Nat) (s0 d0 : Nat → Nat) (r : Nat) (hr : r < ws) :
    (calculate_for_scatterv ary_size ws s0 d0).sendcounts r = countOf ary_size ws r ∧
    (calculate_for_scatterv ary_size ws s0 d0).displacements r = countsBelow ary_size ws r := by
  obtain ⟨-, h2, h3⟩ := scatter_state ary_size ws s0 d0 ws
  unfold calculate_for_scatterv
  rw [h2 r, h3 r]
  simp [hr]

/-- The chunks `calculate_for_scatterv` lays out are contiguous, lie inside the
array and cover every index below `ary_size` exactly once. -/
theorem chunks_contiguous_cover (ary_size world_size : Nat) (hws : 1 ≤ world_size)
    (s0 d0 : Nat → Nat) :
    (calculate_for_scatterv ary_size world_size s0 d0).displacements 0 = 0 ∧
    (∀ i, i + 1 < world_size →
      (calculate_for_scatterv ary_size world_size s0 d0).displacements (i + 1) =
        (calculate_for_scatterv ary_size world_size s0 d0).displacements i +
        (calculate_for_scatterv ary_size world_size s0 d0).sendcounts i) ∧
    ((List.range world_size).map
      (calculate_for_scatterv ary_size world_size s0 d0).sendcounts).sum = ary_size ∧
    (∀ r, r < world_size →
      (calculate_for_scatterv ary_size world_size s0 d0).displacements r +
        (calculate_for_scatterv ary_size world_size s0 d0).sendcounts r ≤ ary_size) ∧
    (∀ k, k < ary_size → ∃ r, r < world_size ∧
      (calculate_for_scatterv ary_size world_size s0 d0).displacements r ≤ k ∧
      k < (calculate_for_scatterv ary_size world_size s0 d0).displacements r +
        (calculate_for_scatterv ary_size world_size s0 d0).sendcounts r ∧
      ∀ r2, r2 < world_size →
        (calculate_for_scatterv ary_size world_size s0 d0).displacements r2 ≤ k →
        k < (calculate_for_scatterv ary_size world_size s0 d0).displacements r2 +
          (calculate_for_scatterv ary_size world_size s0 d0).sendcounts r2 → r2 = r) := by
  have hres := scatter_result ary_size world_size s0 d0
  have htot := countsBelow_total ary_size world_size hws
  refine ⟨?_, ?_, ?_, ?_, ?_⟩
  · rw [(hres 0 (by omega)).2]; rfl
  · intro i hi
    rw [(hres (i + 1) hi).2, (hres i (by omega)).2, (hres i (by omega)).1]
    rfl
  · rw [sum_sendcounts ary_size world_size _ world_size (fun i hi => (hres i hi).1), htot]
  · intro r hr
    rw [(hres r hr).2, (hres r hr).1]
    have := countsBelow_mono ary_size world_size (r + 1) world_size (by omega)
    simp only [countsBelow] at this
    omega
  · intro k hk
    obtain ⟨r, hr, h1, h2⟩ := countsBelow_cover ary_size world_size world_size k (by omega)
    refine ⟨r, hr, ?_, ?_, ?_⟩
    · rw [(hres r hr).2]; exact h1
    · rw [(hres r hr).2, (hres r hr).1]; exact h2
    · intro r2 hr2 h3 h4
      rw [(hres r2 hr2).2] at h3 h4
      rw [(hres r2 hr2).1] at h4
      exact countsBelow_unique ary_size world_size r2 r k h3 h4 h1 h2

/-! # The claims about `a08_e01_array_max.c` -/

/-- C15: for every `ary_size` and every `world_size ≥ 1`, after
`calculate_for_scatterv` the first displacement is 0, each next displacement is
the previous one plus the previous count, and the counts sum to `ary_size`;
every chunk lies inside the array and every index below `ary_size` lies in
exactly one chunk. -/
theorem scatterv_chunks_partition (ary_size world_size : Nat) (hws : 1 ≤ world_size)
    (s0 d0 : Nat → Nat) :
    (calculate_for_scatterv ary_size world_size s0 d0).displacements 0 = 0 ∧
    (∀ i, i + 1 < world_size →
      (calculate_for_scatterv ary_size world_size s0 d0).displacements (i + 1) =
        (calculate_for_scatterv ary_size world_size s0 d0).displacements i +
        (calculate_for_scatterv ary_size world_size s0 d0).sendcounts i) ∧
    ((List.range world_size).map
      (calculate_for_scatterv ary_size world_size s0 d0).sendcounts).sum = ary_size ∧
    (∀ r, r < world_size →
      (calculate_for_scatterv ary_size world_size s0 d0).displacements r +
        (calculate_for_scatterv ary_size world_size s0 d0).sendcounts r ≤ ary_size) ∧
    (∀ k, k < ary_size → ∃ r, r < world_size ∧
      (calculate_for_scatterv ary_size world_size s0 d0).displacements r ≤ k ∧
      k < (calculate_for_scatterv ary_size world_size s0 d0).displacements r +
        (calculate_for_scatterv ary_size world_size s0 d0).sendcounts r ∧
      ∀ r2, r2 < world_size →
        (calculate_for_scatterv ary_size world_size s0 d0).displacements r2 ≤ k →
        k < (calculate_for_scatterv ary_size world_size s0 d0).displacements r2 +
          (calculate_for_scatterv ary_size world_size s0 d0).sendcounts r2 → r2 = r) :=
  chunks_contiguous_cover ary_size world_size hws s0 d0

/-- Witness for C15: ten elements over four processes give the counts 2, 2, 3,
3 and the displacements 0, 2, 4, 7. -/
theorem scatterv_chunks_partition_witness :
    (List.range 4).map (calculate_for_scatterv 10 4 (fun _ => 0) (fun _ => 0)).sendcounts =
      [2, 2, 3, 3] ∧
    (List.range 4).map (calculate_for_scatterv 10 4 (fun _ => 0) (fun _ => 0)).displacements =
      [0, 2, 4, 7] ∧
    ((List.range 4).map
      (calculate_for_scatterv 10 4 (fun _ => 0) (fun _ => 0)).sendcounts).sum = 10 :=
  ⟨by decide, by decide,
    (scatterv_chunks_partition 10 4 (by decide) (fun _ => 0) (fun _ => 0)).2.2.1⟩

/-- C16: for an array of C `int`s (no element below `INT_MIN`) and `size ≥ 1`,
`array_max` returns an element among the first `size`, and that element is at
least every one of them. -/
theorem array_max_is_maximum (ary : Nat → Int) (size : Nat) (hsize : 1 ≤ size)
    (hint : ∀ i, i < size → INT_MIN ≤ ary i) :
    (∃ i, i < size ∧ array_max ary size = ary i) ∧
    ∀ i, i < size → ary i ≤ array_max ary size := by
  obtain ⟨h1, h2, h3⟩ := fold_max_spec ary INT_MIN size
  refine ⟨?_, h2⟩
  rcases h3 with h3 | h3
  · refine ⟨0, by omega, ?_⟩
    have := h2 0 (by omega)
    have := hint 0 (by omega)
    unfold array_max
    omega
  · exact h3

/-- Witness for C16: the maximum of the ten elements of `demoArray` is 9. -/
theorem array_max_is_maximum_witness :
    array_max demoArray 10 = 9 ∧ ∀ i, i < 10 → demoArray i ≤ array_max demoArray 10 :=
  ⟨by decide, (array_max_is_maximum demoArray 10 (by decide) (by decide)).2⟩

/-- C17: for every `world_size ≥ 1` and every array, the value `MPI_Reduce`
leaves in `global_max`, the maximum over the ranks of `array_max` of the chunk
`calculate_for_scatterv` assigns to the rank, equals `array_max` of the whole
array of `ARRAY_SIZE` elements.  Ranks with an empty chunk contribute
`INT_MIN`. -/
theorem distributed_max_eq_sequential (array : Nat → Int) (world_size : Nat)
    (hws : 1 ≤ world_size) :
    global_max array world_size = array_max array ARRAY_SIZE := by
  obtain ⟨-, -, -, hin, hcov⟩ :=
    chunks_contiguous_cover ARRAY_SIZE world_size hws (fun _ => 0) (fun _ => 0)
  apply le_antisymm
  · unfold global_max
    rw [reduceMax_le_iff _ _ hws]
    intro r hr
    rw [array_max_le_iff]
    refine ⟨((array_max_le_iff array ARRAY_SIZE _).1 (le_refl _)).1, ?_⟩
    intro k hk
    have := hin r hr
    exact ((array_max_le_iff array ARRAY_SIZE _).1 (le_refl _)).2 _ (by omega)
  · have hG := (reduceMax_le_iff (fun r => array_max
      (splitbuf array (calculate_for_scatterv ARRAY_SIZE world_size (fun _ => 0) (fun _ => 0)) r)
      ((calculate_for_scatterv ARRAY_SIZE world_size (fun _ => 0) (fun _ => 0)).sendcounts r))
      world_size hws (global_max array world_size)).1 (le_refl _)
    rw [array_max_le_iff]
    refine ⟨((array_max_le_iff _ _ _).1 (hG 0 (by omega))).1, ?_⟩
    intro i hi
    obtain ⟨r, hr, h1, h2, -⟩ := hcov i hi
    have h3 := ((array_max_le_iff _ _ _).1 (hG r hr)).2
      (i - (calculate_for_scatterv ARRAY_SIZE world_size (fun _ => 0) (fun _ => 0)).displacements r)
      (by omega)
    simp only [splitbuf] at h3
    rwa [Nat.add_sub_cancel' h1] at h3

/-- Witness for C17: four processes, and twelve processes of which two get an
empty chunk, both find the maximum 9 of `demoArray`. -/
theorem distributed_max_eq_sequential_witness :
    global_max demoArray 4 = array_max demoArray ARRAY_SIZE ∧
    global_max demoArray 12 = array_max demoArray ARRAY_SIZE ∧
    global_max demoArray 12 = 9 :=
  ⟨distributed_max_eq_sequential demoArray 4 (by decide),
    distributed_max_eq_sequential demoArray 12 (by decide), by decide⟩

theorem countP_range_ge (n m : Nat) :
    (List.range n).countP (fun i => decide (m ≤ i)) = n - m := by
  induction n with
  | zero => simp
  | succ n ih =>
    rw [List.range_succ, List.countP_append, ih]
    simp only [List.countP_cons, List.countP_nil]
    by_cases h : m ≤ n
    · simp [h]; omega
    · simp [h]; omega

/-! # The claim about the receive buffer of `a08_e01_array_max.c` -/

/-- C22: for every `ary_size` and every `world_size ≥ 1`, with
`q = ary_size / world_size` and `r = ary_size % world_size`, after
`calculate_for_scatterv` the rank `i` has the count `q` when
`i < world_size - r` and `q + 1` otherwise; so exactly `r` ranks have `q + 1`,
they are the highest-numbered ones, the counts do not decrease with the rank,
and none exceeds `q + 1`.  For `ary_size = ARRAY_SIZE` that bound is the
number of ints `main` allocates for `splitbuf`. -/
theorem sendcounts_fit_buffer (ary_size world_size : Nat) (hws : 1 ≤ world_size)
    (s0 d0 : Nat → Nat) :
    (∀ i, i < world_size →
      ((calculate_for_scatterv ary_size world_size s0 d0).sendcounts i =
          ary_size / world_size ∧ i < world_size - ary_size % world_size) ∨
      ((calculate_for_scatterv ary_size world_size s0 d0).sendcounts i =
          ary_size / world_size + 1 ∧ world_size - ary_size % world_size ≤ i)) ∧
    (List.range world_size).countP (fun i =>
      (calculate_for_scatterv ary_size world_size s0 d0).sendcounts i =
        ary_size / world_size + 1) = ary_size % world_size ∧
    (∀ i j, i ≤ j → j < world_size →
      (calculate_for_scatterv ary_size world_size s0 d0).sendcounts i ≤
        (calculate_for_scatterv ary_size world_size s0 d0).sendcounts j) ∧
    (∀ i, i < world_size →
      (calculate_for_scatterv ary_size world_size s0 d0).sendcounts i ≤
        ary_size / world_size + 1) ∧
    (∀ i, i < world_size →
      (calculate_for_scatterv ARRAY_SIZE world_size s0 d0).sendcounts i ≤
        splitbuf_len world_size) := by
  have hres : ∀ a i, i < world_size →
      (calculate_for_scatterv a world_size s0 d0).sendcounts i =
        if i < world_size - a % world_size then a / world_size else a / world_size + 1 :=
    fun a i hi => (scatter_result a world_size s0 d0 i hi).1
  have hr : ary_size % world_size < world_size := Nat.mod_lt _ (by omega)
  refine ⟨?_, ?_, ?_, ?_, ?_⟩
  · intro i hi
    rw [hres ary_size i hi]
    by_cases h : i < world_size - ary_size % world_size
    · left; simp [h]
    · right; simp only [h, if_false]; exact ⟨trivial, by omega⟩
  · have hc : (List.range world_size).countP (fun i =>
        decide ((calculate_for_scatterv ary_size world_size s0 d0).sendcounts i =
          ary_size / world_size + 1)) =
        (List.range world_size).countP (fun i =>
          decide (world_size - ary_size % world_size ≤ i)) := by
      apply List.countP_congr
      intro i hi
      rw [hres ary_size i (List.mem_range.1 hi)]
      by_cases h : i < world_size - ary_size % world_size
      · simp [h]
        omega
      · simp only [h, if_false, decide_eq_true_eq, true_iff]
        omega
    rw [hc, countP_range_ge]
    omega
  · intro i j hij hj
    rw [hres ary_size i (by omega), hres ary_size j hj]
    split_ifs <;> omega
  · intro i hi
    rw [hres ary_size i hi]
    split_ifs <;> omega
  · intro i hi
    rw [hres ARRAY_SIZE i hi, splitbuf_len]
    split_ifs <;> omega

/-- Witness for C22: ten elements over three processes give the counts 3, 3, 4
and a buffer of 4 ints; one rank, the last, has `q + 1 = 4`. -/
theorem sendcounts_fit_buffer_witness :
    (List.range 3).map (calculate_for_scatterv 10 3 (fun _ => 0) (fun _ => 0)).sendcounts =
      [3, 3, 4] ∧
    splitbuf_len 3 = 4 ∧
    (List.range 3).countP (fun i =>
      (calculate_for_scatterv 10 3 (fun _ => 0) (fun _ => 0)).sendcounts i = 10 / 3 + 1) =
        10 % 3 :=
  ⟨by decide, by decide,
    (sendcounts_fit_buffer 10 3 (by decide) (fun _ => 0) (fun _ => 0)).2.1⟩

end ArrayMax

namespace FindElement

theorem searchFrom_spec (a : Nat → Int) (target : Int) (n : Nat) :
    ∀ i : Nat,
    (∃ k : Nat, i ≤ k ∧ k < i + n ∧ a k = target ∧ (∀ j, i ≤ j → j < k → a j ≠ target) ∧
      searchFrom a target n i = (k : Int)) ∨
    ((∀ j, i ≤ j → j < i + n → a j ≠ target) ∧ searchFrom a target n i = -1) := by
  induction n with
  | zero =>
    intro i
    right
    exact ⟨fun j h1 h2 => by omega, rfl⟩
  | succ n ih =>
    intro i
    by_cases h : a i = target
    · left
      exact ⟨i, le_refl _, by omega, h, fun j h1 h2 => by omega, by simp [searchFrom, h]⟩
    · rcases ih (i + 1) with ⟨k, h1, h2, h3, h4, h5⟩ | ⟨h1, h2⟩
      · left
        refine ⟨k, by omega, by omega, h3, ?_, by simp [searchFrom, h, h5]⟩
        intro j hj1 hj2
        by_cases hji : j = i
        · subst hji; exact h
        · exact h4 j (by omega) hj2
      · right
        refine ⟨?_, by simp [searchFrom, h, h2]⟩
        intro j hj1 hj2
        by_cases hji : j = i
        · subst hji; exact h
        · exact h1 j (by omega) (by omega)

/-! # The claim about `a10_e01_find_element.c` -/

/-- C18: for every local array and every target, after the search loop
`occurrence_idx` is the smallest index below `ARRAY_SIZE` whose element equals
the target when there is one, and `-1` when there is none. -/
theorem search_finds_first_occurrence (local_array : Nat → Int) (target : Int) :
    (∀ i, i < ARRAY_SIZE → local_array i = target →
      ∃ k : Nat, k ≤ i ∧ local_array k = target ∧ (∀ j, j < k → local_array j ≠ target) ∧
        occurrence_idx local_array target = (k : Int)) ∧
    ((∀ i, i < ARRAY_SIZE → local_array i ≠ target) →
      occurrence_idx local_array target = -1) := by
  unfold occurrence_idx
  rcases searchFrom_spec local_array target ARRAY_SIZE 0 with ⟨k, -, h2, h3, h4, h5⟩ | ⟨h1, h2⟩
  · refine ⟨?_, ?_⟩
    · intro i hi hit
      refine ⟨k, ?_, h3, fun j hj => h4 j (by omega) hj, h5⟩
      by_contra hlt
      exact h4 i (by omega) (by omega) hit
    · intro hnone
      exact absurd h3 (hnone k (by omega))
  · refine ⟨?_, fun _ => h2⟩
    intro i hi hit
    exact absurd hit (h1 i (by omega) (by omega))

/-- Witness for C18: in `demoLocal` the first 42 is at index 1 (others follow at
3 and 11), and 6 does not occur. -/
theorem search_finds_first_occurrence_witness :
    occurrence_idx demoLocal 42 = 1 ∧ occurrence_idx demoLocal 6 = -1 :=
  ⟨by decide, (search_finds_first_occurrence demoLocal 6).2 (by decide)⟩

end FindElement

namespace PiOmp

theorem wrap_small (x : Int) (h0 : 0 ≤ x) (h1 : x ≤ (INT_MAX : Int)) : wrap x = x := by
  simp only [wrap, INT_MAX] at *
  omega

theorem cyclicLoop_spec (num_steps nthrds : Nat) (hn : 1 ≤ nthrds)
    (hb : num_steps + nthrds ≤ INT_MAX + 1) (stp : ℚ) :
    ∀ (fuel a : Nat) (s : ℚ) (v : List Int), num_steps ≤ a + fuel →
      ∃ (L : List Nat) (i2 : Nat),
        cyclicLoop num_steps nthrds stp fuel ⟨(a : Int), s, v⟩ =
          some ⟨(i2 : Int), s + (L.map (fun (k : Nat) => term stp (k : Int))).sum,
            v ++ L.map (fun (k : Nat) => (k : Int))⟩ ∧
        L.Pairwise (fun a b => a < b) ∧
        (∀ k, k ∈ L ↔ a ≤ k ∧ k < num_steps ∧ k % nthrds = a % nthrds) ∧
        num_steps ≤ i2 ∧ i2 < max (a + 1) (num_steps + nthrds) := by
  intro fuel
  induction fuel with
  | zero =>
    intro a s v h
    refine ⟨[], a, ?_, List.Pairwise.nil, ?_, by omega, by omega⟩
    · have : ¬ (a : Int) < (num_steps : Int) := by omega
      simp [cyclicLoop, this]
    · intro k; simp; omega
  | succ fuel ih =>
    intro a s v h
    by_cases hlt : a < num_steps
    · obtain ⟨L, i2, h1, h2, h3, h4, h5⟩ :=
        ih (a + nthrds) (s + term stp (a : Int)) (v ++ [(a : Int)]) (by omega)
      have hw : wrap ((a : Int) + (nthrds : Int)) = ((a + nthrds : Nat) : Int) := by
        rw [wrap_small _ (by omega) (by simp only [INT_MAX] at hb ⊢; omega)]
        simp
      have hlt2 : (a : Int) < (num_steps : Int) := by omega
      refine ⟨a :: L, i2, ?_, ?_, ?_, h4, by omega⟩
      · simp only [cyclicLoop, hlt2, if_true, hw, h1, List.map_cons, List.sum_cons]
        simp [add_assoc]
      · refine List.Pairwise.cons ?_ h2
        intro k hk
        have := (h3 k).1 hk
        omega
      · intro k
        simp only [List.mem_cons, h3, Nat.add_mod_right]
        constructor
        · rintro (rfl | ⟨h6, h7, h8⟩)
          · exact ⟨le_refl _, hlt, rfl⟩
          · exact ⟨by omega, h7, h8⟩
        · rintro ⟨h6, h7, h8⟩
          by_cases hk : k = a
          · exact Or.inl hk
          · right
            refine ⟨?_, h7, h8⟩
            have hmod : (k - a) % nthrds = 0 := Nat.sub_mod_eq_zero_of_mod_eq h8
            have hdvd : nthrds ∣ k - a := Nat.dvd_of_mod_eq_zero hmod
            have := Nat.le_of_dvd (by omega) hdvd
            omega
    · refine ⟨[], a, ?_, List.Pairwise.nil, ?_, by omega, by omega⟩
      · have : ¬ (a : Int) < (num_steps : Int) := by omega
        simp [cyclicLoop, this]
      · intro k; simp; omega

theorem cyclicLoop_never_ends (stp : ℚ) :
    ∀ (fuel : Nat) (st : Loop), st.i % 8 = 0 → -2147483648 ≤ st.i → st.i < 2147483648 →
      cyclicLoop 2147483641 8 stp fuel st = none := by
  intro fuel
  induction fuel with
  | zero =>
    intro st h1 h2 h3
    have : st.i < (2147483641 : Int) := by omega
    simp [cyclicLoop, this]
  | succ fuel ih =>
    intro st h1 h2 h3
    have : st.i < (2147483641 : Int) := by omega
    simp only [cyclicLoop, Nat.cast_ofNat, this, if_true]
    apply ih
    · simp only [wrap, INT_MAX]; push_cast; omega
    · simp only [wrap, INT_MAX]; push_cast; omega
    · simp only [wrap, INT_MAX]; push_cast; omega

theorem threadLoop_spec (num_steps nthrds : Nat) (hb : num_steps + nthrds ≤ INT_MAX + 1)
    (stp : ℚ) (id : Nat) (hid : id < nthrds) :
    ∃ (L : List Nat) (i2 : Nat),
      threadLoop num_steps nthrds stp id =
        some ⟨(i2 : Int), (L.map (fun (k : Nat) => term stp (k : Int))).sum,
          L.map (fun (k : Nat) => (k : Int))⟩ ∧
      L.Pairwise (fun a b => a < b) ∧
      (∀ k, k ∈ L ↔ k < num_steps ∧ k % nthrds = id) ∧
      num_steps ≤ i2 ∧ i2 < num_steps + nthrds := by
  obtain ⟨L, i2, h1, h2, h3, h4, h5⟩ :=
    cyclicLoop_spec num_steps nthrds (by omega) hb stp num_steps id 0 [] (by omega)
  simp only [zero_add, List.nil_append, Nat.mod_eq_of_lt hid] at h1 h3
  refine ⟨L, i2, h1, h2, ?_, h4, by omega⟩
  intro k
  rw [h3]
  constructor
  · rintro ⟨-, h6, h7⟩
    exact ⟨h6, h7⟩
  · rintro ⟨h6, h7⟩
    have := Nat.mod_le k nthrds
    exact ⟨by omega, h6, h7⟩

theorem visitedBy_spec (num_steps nthrds : Nat) (hb : num_steps + nthrds ≤ INT_MAX + 1)
    (stp : ℚ) (id : Nat) (hid : id < nthrds) :
    ∃ L : List Nat,
      visitedBy num_steps nthrds stp id = L.map (fun (k : Nat) => (k : Int)) ∧
      local_sum num_steps nthrds stp id = (L.map (fun (k : Nat) => term stp (k : Int))).sum ∧
      L.Pairwise (fun a b => a < b) ∧
      (∀ k, k ∈ L ↔ k < num_steps ∧ k % nthrds = id) := by
  obtain ⟨L, i2, h1, h2, h3, -, -⟩ := threadLoop_spec num_steps nthrds hb stp id hid
  exact ⟨L, by simp only [visitedBy, h1], by simp only [local_sum, h1], h2, h3⟩

theorem foldl_add_eq_sum (f : Nat → ℚ) (l : List Nat) :
    ∀ a : ℚ, l.foldl (fun s i => s + f i) a = a + (l.map f).sum := by
  induction l with
  | nil => intro a; simp
  | cons x l ih =>
    intro a
    simp only [List.foldl_cons, ih, List.map_cons, List.sum_cons]
    ring

theorem nodup_map_sum (f : Nat → ℚ) (l : List Nat) (h : l.Nodup) :
    (l.map f).sum = Finset.sum l.toFinset f := by
  rw [List.sum_toFinset f h]

theorem local_sum_eq (num_steps nthrds : Nat) (hb : num_steps + nthrds ≤ INT_MAX + 1)
    (stp : ℚ) (id : Nat) (hid : id < nthrds) :
    local_sum num_steps nthrds stp id =
      Finset.sum ((Finset.range num_steps).filter (fun k => k % nthrds = id))
        (fun (k : Nat) => term stp (k : Int)) := by
  obtain ⟨L, -, h2, h3, h4⟩ := visitedBy_spec num_steps nthrds hb stp id hid
  have hnd : L.Nodup := h3.imp (fun h => Nat.ne_of_lt h)
  rw [h2, nodup_map_sum _ _ hnd]
  congr 1
  ext k
  simp [h4]

theorem range_map_sum (f : Nat → ℚ) (n : Nat) :
    ((List.range n).map f).sum = Finset.sum (Finset.range n) f := by
  induction n with
  | zero => simp
  | succ n ih => simp [List.range_succ, Finset.sum_range_succ, ih]

theorem sum_v3_eq (num_steps : Nat) (h : num_steps ≤ INT_MAX) (stp : ℚ) :
    sum_v3 num_steps stp =
      some (Finset.sum (Finset.range num_steps) (fun (k : Nat) => term stp (k : Int))) := by
  simp [sum_v3, h, foldl_add_eq_sum (fun (k : Nat) => term stp (k : Int)), range_map_sum]

theorem local_sums_total (num_steps nthrds : Nat) (hn : 1 ≤ nthrds)
    (hb : num_steps + nthrds ≤ INT_MAX + 1) (stp : ℚ) :
    sum_v3 num_steps stp =
      some ((List.range nthrds).map (local_sum num_steps nthrds stp)).sum := by
  rw [range_map_sum, sum_v3_eq num_steps (by omega),
    Finset.sum_congr rfl (fun id hid => local_sum_eq num_steps nthrds hb stp id
      (Finset.mem_range.1 hid))]
  congr 1
  exact (Finset.sum_fiberwise_of_maps_to
    (fun k _ => Finset.mem_range.2 (Nat.mod_lt k (by omega)))
    (fun (k : Nat) => term stp (k : Int))).symm

theorem reduction_eq (num_steps nthrds : Nat) (owner : Nat → Nat) (stp : ℚ)
    (h : ∀ i, i < num_steps → owner i < nthrds) :
    reduction_v3 num_steps nthrds owner stp = sum_v3 num_steps stp := by
  by_cases hle : num_steps ≤ INT_MAX
  · have hpriv : ∀ t, ((List.range num_steps).filter (fun i => owner i = t)).foldl
        (fun s (i : Nat) => s + term stp (i : Int)) 0 =
        Finset.sum ((Finset.range num_steps).filter (fun i => owner i = t))
          (fun (k : Nat) => term stp (k : Int)) := by
      intro t
      rw [foldl_add_eq_sum (fun (k : Nat) => term stp (k : Int)), zero_add,
        nodup_map_sum _ _ ((List.nodup_range num_steps).filter _)]
      congr 1
      ext k
      simp
    rw [sum_v3_eq num_steps hle]
    simp only [reduction_v3, hle, if_true, hpriv]
    rw [foldl_add_eq_sum (fun t => Finset.sum
      ((Finset.range num_steps).filter (fun i => owner i = t))
      (fun (k : Nat) => term stp (k : Int))), zero_add, range_map_sum]
    congr 1
    exact Finset.sum_fiberwise_of_maps_to
      (fun k hk => Finset.mem_range.2 (h k (Finset.mem_range.1 hk)))
      (fun (k : Nat) => term stp (k : Int))
  · simp [reduction_v3, sum_v3, hle]

theorem addLocal_fold (num_steps nthrds : Nat) (hb : num_steps + nthrds ≤ INT_MAX + 1)
    (l : List Nat) (hl : ∀ id ∈ l, id < nthrds) :
    ∀ a : ℚ, l.foldl (addLocal num_steps nthrds) (some a) =
      some (a + (l.map (fun id => local_sum num_steps nthrds (step num_steps) id *
        step num_steps)).sum) := by
  induction l with
  | nil => intro a; simp
  | cons x l ih =>
    intro a
    obtain ⟨L, i2, h1, -⟩ := threadLoop_spec num_steps nthrds hb (step num_steps) x
      (hl x (List.mem_cons_self _ _))
    have hx : addLocal num_steps nthrds (some a) x =
        some (a + local_sum num_steps nthrds (step num_steps) x * step num_steps) := by
      simp only [addLocal, local_sum, h1]
    simp only [List.foldl_cons, hx, ih (fun id hid => hl id (List.mem_cons_of_mem _ hid)),
      List.map_cons, List.sum_cons]
    congr 1
    ring

theorem map_mul_sum (f : Nat → ℚ) (c : ℚ) (l : List Nat) :
    (l.map (fun id => f id * c)).sum = c * (l.map f).sum := by
  induction l with
  | nil => simp
  | cons x l ih =>
    simp only [List.map_cons, List.sum_cons, ih]
    ring

/-! # The claim about the pi programs -/

/-- C21, with the bound it needs: for every team size `nthrds ≥ 1` and every
`num_steps` with `num_steps + nthrds - 1 ≤ INT_MAX` (so that the `int i` of the
loop never leaves its range), the loop of every thread `id < nthrds` of
versions 1 and 2 ends, with its counter below `num_steps + nthrds`, after
running the body for exactly the indices `id, id + nthrds, id + 2 * nthrds,
...` below `num_steps`, in increasing order; the index sets of two different
threads are disjoint and an index is visited by some thread exactly when it is
below `num_steps`.  So the partial sums of the threads add up to the sum of
the single loop of version 3 (which the `reduction` clause also yields however
the iterations are given to threads), and for `num_steps ≥ 1` versions 1 and 2
(whatever the order in which the threads enter the critical section) compute
the `pi` of version 3. -/
theorem cyclic_distribution_covers_once (num_steps nthrds : Nat) (hn : 1 ≤ nthrds)
    (hb : num_steps + nthrds ≤ INT_MAX + 1) :
    (∀ (stp : ℚ) (id : Nat), id < nthrds →
      ∃ st, threadLoop num_steps nthrds stp id = some st ∧
        st.visited = visitedBy num_steps nthrds stp id ∧
        st.sum = local_sum num_steps nthrds stp id ∧
        st.sum = (st.visited.map (term stp)).sum ∧
        (num_steps : Int) ≤ st.i ∧ st.i < (num_steps : Int) + (nthrds : Int)) ∧
    (∀ (stp : ℚ) (id : Nat), id < nthrds →
      (visitedBy num_steps nthrds stp id).Pairwise (fun a b => a < b) ∧
      ∀ z : Int, z ∈ visitedBy num_steps nthrds stp id ↔
        0 ≤ z ∧ z < (num_steps : Int) ∧ ∃ j : Nat, z = (id : Int) + (j : Int) * (nthrds : Int)) ∧
    (∀ (stp : ℚ) (id1 id2 : Nat), id1 < nthrds → id2 < nthrds → id1 ≠ id2 →
      ∀ z, z ∈ visitedBy num_steps nthrds stp id1 →
        z ∉ visitedBy num_steps nthrds stp id2) ∧
    (∀ (stp : ℚ) (k : Nat),
      k < num_steps ↔ ∃ id, id < nthrds ∧ (k : Int) ∈ visitedBy num_steps nthrds stp id) ∧
    (∀ stp : ℚ,
      sum_v3 num_steps stp =
        some ((List.range nthrds).map (local_sum num_steps nthrds stp)).sum) ∧
    (∀ (stp : ℚ) (owner : Nat → Nat), (∀ i, i < num_steps → owner i < nthrds) →
      reduction_v3 num_steps nthrds owner stp = sum_v3 num_steps stp) ∧
    (1 ≤ num_steps →
      (pi_v3 num_steps).isSome = true ∧
      pi_v1 num_steps nthrds = pi_v3 num_steps ∧
      ∀ order : List Nat, order.Perm (List.range nthrds) →
        pi_v2 num_steps nthrds order = pi_v3 num_steps) := by
  have hmem : ∀ (stp : ℚ) (id : Nat), id < nthrds →
      ∀ z : Int, z ∈ visitedBy num_steps nthrds stp id ↔
        ∃ k : Nat, z = (k : Int) ∧ k < num_steps ∧ k % nthrds = id := by
    intro stp id hid z
    obtain ⟨L, h1, -, -, h4⟩ := visitedBy_spec num_steps nthrds hb stp id hid
    rw [h1, List.mem_map]
    constructor
    · rintro ⟨k, hk, rfl⟩
      exact ⟨k, rfl, (h4 k).1 hk⟩
    · rintro ⟨k, rfl, hk⟩
      exact ⟨k, (h4 k).2 hk, rfl⟩
  have hpi : ∀ order : List Nat, order.Perm (List.range nthrds) →
      pi_v2 num_steps nthrds order = pi_v3 num_steps := by
    intro order hp
    unfold pi_v2 pi_v3
    rw [addLocal_fold num_steps nthrds hb order
      (fun id hid => List.mem_range.1 (hp.mem_iff.1 hid)), zero_add, map_mul_sum,
      (hp.map _).sum_eq, local_sums_total num_steps nthrds hn hb]
    rfl
  refine ⟨?_, ?_, ?_, ?_, fun stp => local_sums_total num_steps nthrds hn hb stp,
    fun stp owner h => reduction_eq num_steps nthrds owner stp h,
    fun _ => ⟨?_, hpi _ (List.Perm.refl _), hpi⟩⟩
  · intro stp id hid
    obtain ⟨L, i2, h1, -, -, h4, h5⟩ := threadLoop_spec num_steps nthrds hb stp id hid
    refine ⟨_, h1, by simp only [visitedBy, h1], by simp only [local_sum, h1], ?_,
      by simp only; omega, by simp only; omega⟩
    simp [List.map_map, Function.comp_def]
  · intro stp id hid
    obtain ⟨L, h1, -, h3, -⟩ := visitedBy_spec num_steps nthrds hb stp id hid
    refine ⟨?_, fun z => ?_⟩
    · rw [h1, List.pairwise_map]
      exact h3.imp (fun h => by omega)
    · rw [hmem stp id hid z]
      constructor
      · rintro ⟨k, rfl, h5, h6⟩
        obtain ⟨q, hq⟩ : ∃ q, k = id + q * nthrds := by
          refine ⟨k / nthrds, ?_⟩
          have := Nat.div_add_mod k nthrds
          rw [h6, Nat.mul_comm] at this
          omega
        refine ⟨by omega, by omega, q, ?_⟩
        rw [hq]
        push_cast
        ring
      · rintro ⟨h5, h6, j, rfl⟩
        refine ⟨id + j * nthrds, by push_cast; ring, ?_, ?_⟩
        · have : ((id + j * nthrds : Nat) : Int) < (num_steps : Int) := by
            push_cast; exact h6
          omega
        · rw [Nat.add_mul_mod_self_right, Nat.mod_eq_of_lt hid]
  · intro stp id1 id2 h1 h2 hne z hz1 hz2
    obtain ⟨k1, rfl, -, a⟩ := (hmem stp id1 h1 z).1 hz1
    obtain ⟨k2, e, -, b⟩ := (hmem stp id2 h2 _).1 hz2
    have : k1 = k2 := by omega
    subst this
    omega
  · intro stp k
    constructor
    · intro hk
      exact ⟨k % nthrds, Nat.mod_lt k (by omega),
        (hmem stp _ (Nat.mod_lt k (by omega)) k).2 ⟨k, rfl, hk, rfl⟩⟩
    · rintro ⟨id, hid, hk⟩
      obtain ⟨k2, e, h5, -⟩ := (hmem stp id hid k).1 hk
      omega
  · simp [pi_v3, sum_v3_eq num_steps (by omega)]

/-- Witness for C21: ten steps over three threads; the thread 1 visits 1, 4
and 7, and versions 1 and 2 compute the `pi` of version 3. -/
theorem cyclic_distribution_covers_once_witness :
    visitedBy 10 3 (step 10) 0 = [0, 3, 6, 9] ∧ visitedBy 10 3 (step 10) 1 = [1, 4, 7] ∧
    visitedBy 10 3 (step 10) 2 = [2, 5, 8] ∧
    pi_v1 10 3 = pi_v3 10 ∧ pi_v2 10 3 [2, 0, 1] = pi_v3 10 :=
  have h := cyclic_distribution_covers_once 10 3 (by decide) (by decide)
  ⟨by decide, by decide, by decide, (h.2.2.2.2.2.2 (by decide)).2.1,
    (h.2.2.2.2.2.2 (by decide)).2.2 [2, 0, 1] (by decide)⟩

/-- Counterexample to C21 as it stands (every `num_steps`): with
`num_steps = 2147483641` and a team of 8, `num_steps + nthrds - 1` exceeds
`INT_MAX`; the thread 0 reaches `i = 2147483640`, the addition `i += 8` wraps
around to `-2147483648`, which is below `num_steps` again, and the loop never
ends, so the thread has no partial sum. -/
theorem cyclic_loop_wraps_past_int_max :
    INT_MAX + 1 < 2147483641 + 8 ∧
    wrap (2147483640 + 8) = -2147483648 ∧
    (∀ (stp : ℚ) (fuel : Nat), cyclicLoop 2147483641 8 stp fuel ⟨0, 0, []⟩ = none) ∧
    (∀ stp : ℚ, threadLoop 2147483641 8 stp 0 = none) :=
  ⟨by decide, by decide,
    fun stp fuel => cyclicLoop_never_ends stp fuel ⟨0, 0, []⟩ (by decide) (by decide)
      (by decide),
    fun stp => cyclicLoop_never_ends stp _ ⟨((0 : Nat) : Int), 0, []⟩ (by decide) (by decide)
      (by decide)⟩

end PiOmp
